import Mathlib

/-! # grawler: a verification development

A shallow embedding of `internal/grawler/grawler.go` (and of the parts of the Go
standard library it calls) and of the loop of `main.go`, together with theorems
about the gopher line parser, the canonical resource URI, the job `Coordinator`,
the `Grapher`, the crawler, the blacklist and the dispatcher.

Go strings are byte sequences: a `Str` is the list of the bytes, each byte a
natural number below 256. State is passed explicitly: a method that mutates its
receiver returns the new state. A Go error is a value of the result; a panic is
the result `none`.
-/

set_option autoImplicit false

namespace Grawler

/-- A Go string: the list of its bytes. -/
abbrev Str := List Nat

/-- The bytes of an ASCII string constant of the source. -/
def lit (s : String) : Str := s.toList.map Char.toNat

/-! ## Package `strings` -/

/-- Go `strings.HasPrefix`. -/
def HasPrefix (s pre : Str) : Bool := pre.isPrefixOf s

/-- Go `strings.HasSuffix`. -/
def HasSuffix (s suf : Str) : Bool := suf.reverse.isPrefixOf s.reverse

/-- Go `strings.Index`: the position of the first occurrence of `sub`, `none` for Go's `-1`. -/
def Index : Str → Str → Option Nat
  | [], sub => if sub = [] then some 0 else none
  | c :: cs, sub =>
    if HasPrefix (c :: cs) sub then some 0 else (Index cs sub).map (· + 1)

/-- Go `strings.LastIndex`: the position of the last occurrence of `sub`. -/
def LastIndex : Str → Str → Option Nat
  | [], sub => if sub = [] then some 0 else none
  | c :: cs, sub =>
    match LastIndex cs sub with
    | some i => some (i + 1)
    | none => if HasPrefix (c :: cs) sub then some 0 else none

/-- Go `strings.Contains`. -/
def Contains (s sub : Str) : Bool := (Index s sub).isSome

/-- Go `strings.Cut`: the text before and after the first occurrence of `sep`. -/
def Cut (s sep : Str) : Str × Str × Bool :=
  match Index s sep with
  | some i => (s.take i, s.drop (i + sep.length), true)
  | none => (s, [], false)

/-- Go `strings.Count` for a separator of one byte. -/
def Count (s : Str) (c : Nat) : Nat := s.count c

/-- Go `strings.Split` for a separator of one byte (the parser splits on the tab). -/
def Split : Str → Nat → List Str
  | [], _ => [[]]
  | c :: cs, sep =>
    if c = sep then [] :: Split cs sep
    else
      match Split cs sep with
      | [] => [[c]]
      | f :: fs => (c :: f) :: fs

/-- The ASCII branch of Go `strings.ToLower`: `A`..`Z` become `a`..`z`. -/
def asciiLower (s : Str) : Str := s.map (fun c => if 65 ≤ c ∧ c ≤ 90 then c + 32 else c)

/-- Go `strings.ToLower`. A string of ASCII bytes is lowered byte by byte; for a string with
a byte of 0x80 or more Go calls `strings.Map(unicode.ToLower, s)`, whose Unicode case
tables are not part of this repository: that mapping is the parameter `caseTable`. -/
def ToLower (caseTable : Str → Str) (s : Str) : Str :=
  if s.all (fun c => c < 128) then asciiLower s else caseTable s

/-- Go `net.JoinHostPort`: a host containing a colon is put in square brackets. -/
def JoinHostPort (host port : Str) : Str :=
  if 58 ∈ host then lit "[" ++ host ++ lit "]:" ++ port
  else host ++ lit ":" ++ port

/-! ## Package `net/url`

`url.Parse` and `(*URL).String` (as of Go 1.20), which `Resource.String` calls to
normalise the canonical URI of a resource. A Go loop over byte positions is written as a
recursion over the remaining bytes. -/

/-- The escaping modes of `net/url` (its constants `encodePath` ... `encodeFragment`). -/
inductive Encoding
  | encodePath
  | encodePathSegment
  | encodeHost
  | encodeZone
  | encodeUserPassword
  | encodeQueryComponent
  | encodeFragment
  deriving DecidableEq, Repr

open Encoding

/-- A `url.Userinfo`. -/
structure Userinfo where
  username : Str
  password : Str
  passwordSet : Bool
  deriving DecidableEq, Repr

/-- A `url.URL`. -/
structure URL where
  Scheme : Str := []
  Opaque : Str := []
  User : Option Userinfo := none
  Host : Str := []
  Path : Str := []
  RawPath : Str := []
  OmitHost : Bool := false
  ForceQuery : Bool := false
  RawQuery : Str := []
  Fragment : Str := []
  RawFragment : Str := []
  deriving DecidableEq, Repr

/-- ASCII letter or digit. -/
def isAlnum (c : Nat) : Bool :=
  (97 ≤ c && c ≤ 122) || (65 ≤ c && c ≤ 90) || (48 ≤ c && c ≤ 57)

/-- Go `url.ishex`. -/
def ishex (c : Nat) : Bool :=
  (48 ≤ c && c ≤ 57) || (97 ≤ c && c ≤ 102) || (65 ≤ c && c ≤ 70)

/-- Go `url.unhex`. -/
def unhex (c : Nat) : Nat :=
  if 48 ≤ c ∧ c ≤ 57 then c - 48
  else if 97 ≤ c ∧ c ≤ 102 then c - 97 + 10
  else if 65 ≤ c ∧ c ≤ 70 then c - 65 + 10
  else 0

/-- Go `url.shouldEscape`: whether byte `c` is percent-escaped in the given mode. -/
def shouldEscape (c : Nat) (mode : Encoding) : Bool :=
  if isAlnum c then false
  else if (mode = encodeHost ∨ mode = encodeZone) ∧ c ∈ lit "!$&'()*+,;=:[]<>\"" then false
  else if c ∈ lit "-_.~" then false
  else if c ∈ lit "$&+,/:;=?@" then
    match mode with
    | encodePath => c = 63
    | encodePathSegment => c = 47 ∨ c = 59 ∨ c = 44 ∨ c = 63
    | encodeUserPassword => c = 64 ∨ c = 47 ∨ c = 63 ∨ c = 58
    | encodeQueryComponent => true
    | encodeFragment => false
    | _ => true
  else if mode = encodeFragment ∧ c ∈ lit "!()*" then false
  else true

/-- The first loop of Go `url.unescape`: every `%` is followed by two hex digits (and, in a
host, neither it nor any other byte is one a host may not contain). -/
def unescapeOK (mode : Encoding) : Str → Bool
  | [] => true
  | c :: rest =>
    if c = 37 then
      match rest with
      | h1 :: h2 :: tl =>
        if !ishex h1 || !ishex h2 then false
        else if mode = encodeHost ∧ unhex h1 < 8 ∧ [c, h1, h2] ≠ lit "%25" then false
        else if mode = encodeZone ∧ [c, h1, h2] ≠ lit "%25" ∧ unhex h1 * 16 + unhex h2 ≠ 32
            ∧ shouldEscape (unhex h1 * 16 + unhex h2) encodeHost then false
        else unescapeOK mode tl
      | _ => false
    else if c = 43 then unescapeOK mode rest
    else if (mode = encodeHost ∨ mode = encodeZone) ∧ c < 128 ∧ shouldEscape c encodeHost then false
    else unescapeOK mode rest

/-- The second loop of Go `url.unescape`: `%XX` becomes the byte, `+` a space in a query. -/
def unescapeBytes (mode : Encoding) : Str → Str
  | [] => []
  | c :: rest =>
    if c = 37 then
      match rest with
      | h1 :: h2 :: tl => (unhex h1 * 16 + unhex h2) :: unescapeBytes mode tl
      | _ => []
    else if c = 43 ∧ mode = encodeQueryComponent then 32 :: unescapeBytes mode rest
    else c :: unescapeBytes mode rest

/-- Go `url.unescape`; `none` is its error. -/
def unescape (s : Str) (mode : Encoding) : Option Str :=
  if unescapeOK mode s then some (unescapeBytes mode s) else none

/-- The digit `"0123456789ABCDEF"[i]` of Go `url.escape`. -/
def upperhex (i : Nat) : Nat := if i < 10 then 48 + i else 55 + i

/-- Go `url.escape`. -/
def escape (s : Str) (mode : Encoding) : Str :=
  s.flatMap (fun c =>
    if shouldEscape c mode then
      if c = 32 ∧ mode = encodeQueryComponent then [43]
      else [37, upperhex (c / 16), upperhex (c % 16)]
    else [c])

/-- Go `url.validEncoded`. -/
def validEncoded (s : Str) (mode : Encoding) : Bool :=
  s.all (fun c => c ∈ lit "!$&'()*+,;=:@[]%" || !shouldEscape c mode)

/-- Go `url.stringContainsCTLByte`. -/
def stringContainsCTLByte (s : Str) : Bool := s.any (fun b => b < 32 || b = 127)

/-- The loop of Go `url.getScheme` from position `i` on; `pre` holds the bytes already
scanned, in reverse. `none` is the error "missing protocol scheme". -/
def getSchemeFrom (rawURL : Str) : Str → Str → Option (Str × Str)
  | _, [] => some ([], rawURL)
  | pre, c :: cs =>
    if (97 ≤ c ∧ c ≤ 122) ∨ (65 ≤ c ∧ c ≤ 90) then getSchemeFrom rawURL (c :: pre) cs
    else if (48 ≤ c ∧ c ≤ 57) ∨ c = 43 ∨ c = 45 ∨ c = 46 then
      if pre = [] then some ([], rawURL) else getSchemeFrom rawURL (c :: pre) cs
    else if c = 58 then
      if pre = [] then none else some (pre.reverse, cs)
    else some ([], rawURL)

/-- Go `url.getScheme`. -/
def getScheme (rawURL : Str) : Option (Str × Str) := getSchemeFrom rawURL [] rawURL

/-- Go `url.validOptionalPort`: empty, or a colon followed by decimal digits. -/
def validOptionalPort (port : Str) : Bool :=
  match port with
  | [] => true
  | c :: ds => c = 58 && ds.all (fun b => 48 ≤ b && b ≤ 57)

/-- Go `url.validUserinfo`. -/
def validUserinfo (s : Str) : Bool :=
  s.all (fun r => isAlnum r || r ∈ lit "-._:~!$&'()*+,;=%@")

/-- Go `url.parseHost`, as of Go 1.20. Later releases of Go reject some hosts with `:`, `[`
or `]` that this one accepts (a colon that does not start the port, a bracketed text that is
no IP address); the theorems below rely on it only for a host name without these bytes
(alone or before `:port`), for `[::1]:port`, or through the hypothesis that
`Resource.String` returns. -/
def parseHost (host : Str) : Option Str :=
  if HasPrefix host (lit "[") then
    match LastIndex host (lit "]") with
    | none => none
    | some i =>
      if !validOptionalPort (host.drop (i + 1)) then none
      else
        match Index (host.take i) (lit "%25") with
        | some zone => do
          let host1 ← unescape (host.take zone) encodeHost
          let host2 ← unescape ((host.take i).drop zone) encodeZone
          let host3 ← unescape (host.drop i) encodeHost
          pure (host1 ++ host2 ++ host3)
        | none => unescape host encodeHost
  else
    match LastIndex host (lit ":") with
    | some i =>
      if !validOptionalPort (host.drop i) then none else unescape host encodeHost
    | none => unescape host encodeHost

/-- Go `url.parseAuthority`. -/
def parseAuthority (authority : Str) : Option (Option Userinfo × Str) :=
  match LastIndex authority (lit "@") with
  | none => do
    let host ← parseHost authority
    pure (none, host)
  | some i => do
    let host ← parseHost (authority.drop (i + 1))
    let userinfo := authority.take i
    if !validUserinfo userinfo then none
    else if !Contains userinfo (lit ":") then do
      let u ← unescape userinfo encodeUserPassword
      pure (some ⟨u, [], false⟩, host)
    else do
      let (username, password, _) := Cut userinfo (lit ":")
      let u ← unescape username encodeUserPassword
      let p ← unescape password encodeUserPassword
      pure (some ⟨u, p, true⟩, host)

/-- Go `(*URL).setPath`. -/
def URL.setPath (u : URL) (p : Str) : Option URL := do
  let path ← unescape p encodePath
  pure { u with Path := path, RawPath := if p = escape path encodePath then [] else p }

/-- Go `(*URL).setFragment`. -/
def URL.setFragment (u : URL) (f : Str) : Option URL := do
  let frag ← unescape f encodeFragment
  pure { u with Fragment := frag,
                RawFragment := if f = escape frag encodeFragment then [] else f }

/-- Go `url.parse(rawURL, false)`, the body of `url.Parse` after the fragment is cut off.
`caseTable` is the parameter of `ToLower`. -/
def parse (caseTable : Str → Str) (rawURL : Str) : Option URL :=
  if stringContainsCTLByte rawURL then none
  else if rawURL = lit "*" then some { Path := lit "*" }
  else
    match getScheme rawURL with
    | none => none
    | some (scheme, rest0) =>
      let url : URL := { Scheme := ToLower caseTable scheme }
      let (rest, url) :=
        if HasSuffix rest0 (lit "?") ∧ Count rest0 63 = 1 then
          (rest0.take (rest0.length - 1), { url with ForceQuery := true })
        else
          ((Cut rest0 (lit "?")).1, { url with RawQuery := (Cut rest0 (lit "?")).2.1 })
      if !HasPrefix rest (lit "/") ∧ url.Scheme ≠ [] then
        some { url with Opaque := rest }
      else if !HasPrefix rest (lit "/") ∧ Contains (Cut rest (lit "/")).1 (lit ":") then
        none
      else if (url.Scheme ≠ [] ∨ !HasPrefix rest (lit "///")) ∧ HasPrefix rest (lit "//") then
        let authority0 := rest.drop 2
        let (authority, rest) :=
          match Index authority0 (lit "/") with
          | some i => (authority0.take i, authority0.drop i)
          | none => (authority0, [])
        match parseAuthority authority with
        | none => none
        | some (user, host) => URL.setPath { url with User := user, Host := host } rest
      else if url.Scheme ≠ [] ∧ HasPrefix rest (lit "/") then
        URL.setPath { url with OmitHost := true } rest
      else
        URL.setPath url rest

/-- Go `url.Parse`; `none` is the result `(nil, err)`. -/
def Parse (caseTable : Str → Str) (rawURL : Str) : Option URL :=
  let (u, frag, _) := Cut rawURL (lit "#")
  match parse caseTable u with
  | none => none
  | some url => if frag = [] then some url else URL.setFragment url frag

/-- Go `(*URL).EscapedPath`. -/
def URL.EscapedPath (u : URL) : Str :=
  if u.RawPath ≠ [] ∧ validEncoded u.RawPath encodePath
      ∧ unescape u.RawPath encodePath = some u.Path then u.RawPath
  else if u.Path = lit "*" then lit "*"
  else escape u.Path encodePath

/-- Go `(*URL).EscapedFragment`. -/
def URL.EscapedFragment (u : URL) : Str :=
  if u.RawFragment ≠ [] ∧ validEncoded u.RawFragment encodeFragment
      ∧ unescape u.RawFragment encodeFragment = some u.Fragment then u.RawFragment
  else escape u.Fragment encodeFragment

/-- Go `(*Userinfo).String`. -/
def Userinfo.String (ui : Userinfo) : Str :=
  escape ui.username encodeUserPassword ++
    (if ui.passwordSet then lit ":" ++ escape ui.password encodeUserPassword else [])

/-- Go `(*URL).String`, for a non-nil receiver. -/
def URL.String (u : URL) : Str :=
  let buf : Str := if u.Scheme ≠ [] then u.Scheme ++ lit ":" else []
  let buf : Str :=
    if u.Opaque ≠ [] then buf ++ u.Opaque
    else
      let buf : Str :=
        if u.Scheme ≠ [] ∨ u.Host ≠ [] ∨ u.User.isSome then
          if u.OmitHost ∧ u.Host = [] ∧ u.User.isNone then buf
          else
            buf ++ (if u.Host ≠ [] ∨ u.Path ≠ [] ∨ u.User.isSome then lit "//" else [])
              ++ (match u.User with
                  | some ui => ui.String ++ lit "@"
                  | none => [])
              ++ (if u.Host ≠ [] then escape u.Host encodeHost else [])
        else buf
      let path := u.EscapedPath
      let buf : Str :=
        if path ≠ [] ∧ path.head? ≠ some 47 ∧ u.Host ≠ [] then buf ++ lit "/" else buf
      let buf : Str :=
        if buf = [] ∧ Contains (Cut path (lit "/")).1 (lit ":") then buf ++ lit "./" else buf
      buf ++ path
  let buf : Str :=
    if u.ForceQuery ∨ u.RawQuery ≠ [] then buf ++ lit "?" ++ u.RawQuery else buf
  if u.Fragment ≠ [] then buf ++ lit "#" ++ u.EscapedFragment else buf

/-! ## Package `grawler`: hosts, resources and the gopher line parser -/

/-- The type of an item in a gopher menu: one byte. -/
abbrev ItemType := Nat

/-- The Go constant `DirectoryType`, the byte `1`. -/
def DirectoryType : ItemType := 49

/-- The Go constant `InformationalMessageType`, the byte `i`. -/
def InformationalMessageType : ItemType := 105

/-- The Go constant `ErrorMessageType`, the byte `3`. -/
def ErrorMessageType : ItemType := 51

/-- Go `ItemType.String`: `string(t)`, the UTF-8 encoding of the code point `t` (one byte
below 0x80, two bytes from 0x80 to 0xFF). -/
def ItemType.String (t : ItemType) : Str :=
  if t < 128 then [t] else [192 + t / 64, 128 + t % 64]

/-- A gopher server. -/
structure Host where
  Hostname : Str
  Port : Str
  deriving DecidableEq, Repr

/-- Go `Host.String`: the lower-cased `net.JoinHostPort` of host name and port. -/
def Host.String (caseTable : Str → Str) (h : Host) : Str :=
  ToLower caseTable (JoinHostPort h.Hostname h.Port)

/-- A gopher resource: a host (the embedded `*Host`, never nil in this repository), an item
type (the Go field `Type`, a reserved word here) and a selector. -/
structure Resource where
  Host : Host
  Typ : ItemType
  Selector : Str
  deriving DecidableEq, Repr

/-- Go `Resource.String`: the URI of the resource, `url.Parse` of
`"gopher://" + host + "/" + type + selector` printed back. The source drops the error of
`url.Parse`; when `url.Parse` fails, `u` is nil and `u.String()` panics: that panic is
`none`. -/
def Resource.String (caseTable : Str → Str) (r : Resource) : Option Str :=
  let s := if r.Selector = lit "/" then [] else r.Selector
  (Parse caseTable
    (lit "gopher://" ++ r.Host.String caseTable ++ lit "/" ++ ItemType.String r.Typ ++ s)).map
    URL.String

/-- The error of `NewResourceFromGopherLine`; it carries the offending line. -/
structure ParseError where
  line : Str
  deriving DecidableEq, Repr

/-- Go `NewResourceFromGopherLine`. The `switch` of the source is the chain of conditions,
in its order; a field is only indexed once the first condition has established that it
exists (`getD` never returns its default here). -/
def NewResourceFromGopherLine (line : Str) : Except ParseError Resource :=
  let t := Split line 9
  let valid : Bool :=
    if t.length < 4 ∨ t.length > 5 then false
    else if (t.getD 2 []).length = 0 ∨ (t.getD 3 []).length = 0 then false
    else if Contains (t.getD 2 []) (lit " ") ∨ Contains (t.getD 3 []) (lit " ") then false
    else if Contains (t.getD 2 []) (lit "/") then false
    else if t.length = 5 ∧ t.getD 4 [] ≠ lit "+" then false
    else if (t.getD 0 []).length = 0 then false
    else true
  if !valid then Except.error ⟨line⟩
  else Except.ok ⟨⟨t.getD 2 [], t.getD 3 []⟩, (t.getD 0 []).headD 0, t.getD 1 []⟩

/-! ## The job coordinator -/

/-- A Go `map[string]V`: an association list without duplicate keys. The order of the
entries stands for the unspecified iteration order of the Go map. -/
abbrev GoMap (V : Type) := AList (fun _ : Str => V)

/-- The Go index expression `m[k]` on a `map[string]bool`: `false` for an absent key. -/
def GoMap.at (m : GoMap Bool) (k : Str) : Bool := (m.lookup k).getD false

/-- The Go `Coordinator`: the queued jobs by key, and the sets of active and finished keys. -/
structure Coordinator where
  queued : GoMap Resource
  active : GoMap Bool
  finished : GoMap Bool
  deriving DecidableEq

/-- Go `NewCoordinator`. -/
def NewCoordinator : Coordinator := ⟨∅, ∅, ∅⟩

/-- The three errors of `QueueJob` ("Already queued", "Already crawling", "Already
crawled"). -/
inductive QueueError
  | alreadyQueued
  | alreadyCrawling
  | alreadyCrawled
  deriving DecidableEq, Repr

/-- Go `Coordinator.QueueJob`: the new state and the returned error (`none` for `nil`).
The outer `none` is the panic of `r.String()`. -/
def Coordinator.QueueJob (caseTable : Str → Str) (c : Coordinator) (r : Resource) :
    Option (Coordinator × Option QueueError) :=
  match r.String caseTable with
  | none => none
  | some k =>
    if k ∈ c.queued then some (c, some QueueError.alreadyQueued)
    else if c.active.at k then some (c, some QueueError.alreadyCrawling)
    else if c.finished.at k then some (c, some QueueError.alreadyCrawled)
    else some ({ c with queued := c.queued.insert k r }, none)

/-- Go `Coordinator.QueuedJob`: the first entry of the `range` over `queued` is moved to
`active` and returned; `none` is the nil result. Go leaves the iteration order of a map
unspecified: `pick` chooses the entry the iteration starts with. -/
def Coordinator.QueuedJob (c : Coordinator) (pick : Nat) : Coordinator × Option Resource :=
  match c.queued.entries.get? (pick % c.queued.entries.length) with
  | some ⟨k, r⟩ =>
    ({ c with queued := c.queued.erase k, active := c.active.insert k true }, some r)
  | none => (c, none)

/-- Go `Coordinator.FinishJob`; `none` is the panic of `r.String()`. -/
def Coordinator.FinishJob (caseTable : Str → Str) (c : Coordinator) (r : Resource) :
    Option Coordinator :=
  match r.String caseTable with
  | none => none
  | some k => some { c with active := c.active.erase k, finished := c.finished.insert k true }

/-- Go `Coordinator.JobsExhausted`. -/
def Coordinator.JobsExhausted (c : Coordinator) : Bool :=
  c.queued.entries.length = 0 ∧ c.active.entries.length = 0 ∧ c.finished.entries.length ≠ 0

/-- A call of one of the three mutating methods of the `Coordinator`. -/
inductive Call
  | queueJob (r : Resource)
  | queuedJob (pick : Nat)
  | finishJob (r : Resource)
  deriving DecidableEq

/-- One call: the new state and the resource the call handed out, if it is a `QueuedJob`
that returned one. `none` when the call panics. -/
def Coordinator.call (caseTable : Str → Str) (c : Coordinator) :
    Call → Option (Coordinator × Option Resource)
  | Call.queueJob r => (c.QueueJob caseTable r).map (fun p => (p.1, none))
  | Call.queuedJob pick => some (c.QueuedJob pick)
  | Call.finishJob r => (c.FinishJob caseTable r).map (fun c1 => (c1, none))

/-- A sequence of calls: the final state and the resources handed out by `QueuedJob`, in
order. `none` when one of the calls panics. -/
def Coordinator.run (caseTable : Str → Str) (c : Coordinator) :
    List Call → Option (Coordinator × List Resource)
  | [] => some (c, [])
  | x :: xs =>
    match c.call caseTable x with
    | none => none
    | some (c1, out) =>
      match Coordinator.run caseTable c1 xs with
      | none => none
      | some (c2, outs) => some (c2, out.toList ++ outs)

/-- The caller's obligation of `FinishJob` ("the job has to be marked active by
QueuedJob"), along a sequence of calls: every `FinishJob` gets a resource whose key is in
`active` at that moment. -/
def Coordinator.finishesActive (caseTable : Str → Str) (c : Coordinator) : List Call → Bool
  | [] => true
  | x :: xs =>
    (match x with
      | Call.finishJob r =>
        match r.String caseTable with
        | some k => c.active.at k
        | none => false
      | _ => true) &&
    (match c.call caseTable x with
      | some (c1, _) => Coordinator.finishesActive caseTable c1 xs
      | none => true)

/-- Key `k` is in at most one of `queued`, `active`, `finished`. -/
def Coordinator.atMostOne (c : Coordinator) (k : Str) : Prop :=
  ¬ (k ∈ c.queued ∧ k ∈ c.active) ∧ ¬ (k ∈ c.queued ∧ k ∈ c.finished) ∧
    ¬ (k ∈ c.active ∧ k ∈ c.finished)

instance (c : Coordinator) (k : Str) : Decidable (c.atMostOne k) := by
  unfold Coordinator.atMostOne
  infer_instance

/-- A case table that changes nothing. It instantiates the parameter of `ToLower` in the
worked examples, whose strings are ASCII, so that it is never consulted there. -/
def noCaseTable : Str → Str := fun s => s

/-! ## Properties named by the specification -/

/-- The six validity rules of the specification for a gopher menu line, on the fields that
splitting the line at the tab gives: 4 or 5 fields; host and port not empty; no space in
host or port; no slash in host; a fifth field is `+`; the first field is not empty. -/
def SixRules (line : Str) : Prop :=
  ((Split line 9).length = 4 ∨ (Split line 9).length = 5) ∧
  ((Split line 9).getD 2 [] ≠ [] ∧ (Split line 9).getD 3 [] ≠ []) ∧
  (32 ∉ (Split line 9).getD 2 [] ∧ 32 ∉ (Split line 9).getD 3 []) ∧
  47 ∉ (Split line 9).getD 2 [] ∧
  ((Split line 9).length = 5 → (Split line 9).getD 4 [] = lit "+") ∧
  (Split line 9).getD 0 [] ≠ []

instance (line : Str) : Decidable (SixRules line) := by
  unfold SixRules
  infer_instance

/-- A byte of a plain host name: an ASCII letter, a digit, or one of `-`, `.`, `_`, `~`. -/
def plainHostByte (b : Nat) : Bool := isAlnum b || b ∈ lit "-._~"

/-- The invariant of a coordinator used as documented: the three collections are disjoint
by key, and `active` and `finished` hold no key with the value `false`. -/
structure Coordinator.Sound (c : Coordinator) : Prop where
  disjoint : ∀ k, c.atMostOne k
  activeTrue : ∀ k, k ∈ c.active → c.active.at k = true
  finishedTrue : ∀ k, k ∈ c.finished → c.finished.at k = true

/-- The invariant behind "each key is handed out once": every queued resource is stored
under its own key, and the key of a resource handed out so far is out of `queued` and in
`active` or `finished`. -/
structure Coordinator.HandedOut (caseTable : Str → Str) (c : Coordinator)
    (outs : List Resource) : Prop where
  keyed : ∀ k r, c.queued.lookup k = some r → r.String caseTable = some k
  gone : ∀ r ∈ outs, ∃ k, r.String caseTable = some k ∧ k ∉ c.queued ∧
    (c.active.at k = true ∨ c.finished.at k = true)
  nodup : (outs.map (Resource.String caseTable)).Nodup

/-! ## Test data of `grawler_test.go` -/

/-- The first job of `coordinatorTests`. -/
def testJob : Resource := ⟨⟨lit "example.com", lit "70"⟩, 49, lit "/test"⟩

/-- The key of `testJob`. -/
def testKey : Str := lit "gopher://example.com:70/1/test"

/-- A coordinator with `testJob` queued. -/
def testQueued : Coordinator := ⟨AList.insert testKey testJob ∅, ∅, ∅⟩

/-- A coordinator with `testJob` active. -/
def testActive : Coordinator := ⟨∅, AList.insert testKey true ∅, ∅⟩

/-! ## Findings and the grapher -/

/-- A reference to a resource found by a crawler: the resource (never nil in this
repository) and the host that refers to it (`none` for the nil `Parent`). -/
structure CrawlFinding where
  Resource : Resource
  Parent : Option Host
  deriving DecidableEq, Repr

/-- Go `CrawlFinding.String`: the quoted host key of the resource, after the quoted key of
the parent and an arrow when there is a parent. -/
def CrawlFinding.String (caseTable : Str → Str) (f : CrawlFinding) : Str :=
  match f.Parent with
  | none => lit "\"" ++ f.Resource.Host.String caseTable ++ lit "\""
  | some parent =>
    lit "\"" ++ parent.String caseTable ++ lit "\" -> \"" ++ f.Resource.Host.String caseTable
      ++ lit "\""

/-- An I/O error of a reader or a writer. -/
inductive IOError
  | failed
  deriving DecidableEq, Repr

/-- An `io.WriteCloser`: the strings written so far, in order, and whether it is closed.
`failures` tells for the writes to come which of them fail (`true`); the writes beyond the
list succeed. A write that fails is taken to write nothing. -/
structure WriteCloser where
  written : List Str
  failures : List Bool
  closed : Bool
  deriving DecidableEq, Repr

/-- Go `io.WriteString(w, s)`: the writer afterwards and the error. -/
def WriteCloser.WriteString (w : WriteCloser) (s : Str) : WriteCloser × Option IOError :=
  match w.failures with
  | true :: rest => ({ w with failures := rest }, some IOError.failed)
  | false :: rest => ({ w with written := w.written ++ [s], failures := rest }, none)
  | [] => ({ w with written := w.written ++ [s] }, none)

/-- The text a writer holds: its writes, one after the other. -/
def WriteCloser.text (w : WriteCloser) : Str := w.written.flatten

/-- A writer none of whose writes fails. -/
def WriteCloser.reliable (w : WriteCloser) : Bool := w.failures.all (fun b => !b)

/-- The Go `Grapher`: its writer, the host keys declared as nodes, the edges written. -/
structure Grapher where
  writeCloser : WriteCloser
  alive : GoMap Bool
  graphed : GoMap Bool
  deriving DecidableEq

/-- Go `NewGrapher`: writes the opening line; the error of the write is the error. -/
def NewGrapher (writeCloser : WriteCloser) : Except IOError Grapher :=
  match writeCloser.WriteString (lit "strict digraph \x7b\n") with
  | (_, some err) => Except.error err
  | (w, none) => Except.ok ⟨w, ∅, ∅⟩

/-- The node declaration `GraphFinding` writes for the host key `p`. -/
def nodeLine (p : Str) : Str := lit "\t\"" ++ p ++ lit "\"[alive=true]\n"

/-- The line `GraphFinding` writes for the edge string `s`. -/
def edgeLine (s : Str) : Str := lit "\t" ++ s ++ lit "\n"

/-- Go `Grapher.GraphFinding`: the grapher afterwards and the returned error. -/
def Grapher.GraphFinding (caseTable : Str → Str) (g : Grapher) (f : CrawlFinding) :
    Grapher × Option IOError :=
  match f.Parent with
  | none => (g, none)
  | some parent =>
    let p := parent.String caseTable
    let declared : Grapher × Option IOError :=
      if !g.alive.at p then
        match g.writeCloser.WriteString (nodeLine p) with
        | (w, some err) => ({ g with writeCloser := w }, some err)
        | (w, none) => ({ g with writeCloser := w, alive := g.alive.insert p true }, none)
      else (g, none)
    match declared with
    | (g1, some err) => (g1, some err)
    | (g1, none) =>
      let s := f.String caseTable
      if !g1.graphed.at s then
        match g1.writeCloser.WriteString (edgeLine s) with
        | (w, some err) => ({ g1 with writeCloser := w }, some err)
        | (w, none) => ({ g1 with writeCloser := w, graphed := g1.graphed.insert s true }, none)
      else (g1, none)

/-- Go `Grapher.Close`: writes the closing line and, on every path, closes the writer. -/
def Grapher.Close (g : Grapher) : Grapher × Option IOError :=
  match g.writeCloser.WriteString (lit "\x7d\n") with
  | (w, err) => ({ g with writeCloser := { w with closed := true } }, err)

/-- The findings of a list passed to `GraphFinding` in order, as `main` does: the first
error ends it (`main` panics on it). -/
def Grapher.graphAll (caseTable : Str → Str) (g : Grapher) :
    List CrawlFinding → Grapher × Option IOError
  | [] => (g, none)
  | f :: fs =>
    match g.GraphFinding caseTable f with
    | (g1, some err) => (g1, some err)
    | (g1, none) => Grapher.graphAll caseTable g1 fs

/-! ## The crawler -/

/-- An `io.ReadCloser` as `ResourceCrawler` reads it, through a `bufio.Scanner`: the lines
the scanner delivers, and for every `n` the error `scan.Err()` reports once `n` lines have
been delivered (`none` for nil). -/
structure ReadCloser where
  lines : List Str
  errAfter : Nat → Option IOError

/-- A Go `ResourceOpener`; the error result is `Except.error`. -/
abbrev ResourceOpener := Resource → Except IOError ReadCloser

/-- A Go `ItemActionFunc` value: `none` is the nil function, `some a` the function with the
identity `a`. -/
abbrev ItemActionFunc := Option Nat

/-- What `ResourceCrawler` does to its surroundings, in order: it calls the opener, invokes
an item callback with an item, sends a finding on the `out` channel, closes the stream. -/
inductive CrawlEvent
  | opened (r : Resource)
  | action (a : Nat) (item : Resource)
  | finding (f : CrawlFinding)
  | closed
  deriving DecidableEq, Repr

/-- The errors `ResourceCrawler` returns. -/
inductive CrawlError
  | notDirectory (r : Resource)
  | io (err : IOError)
  | parse (err : ParseError)
  deriving DecidableEq, Repr

/-- How a call of `ResourceCrawler` ends: it returns an error (`none` for nil), or it
panics. -/
inductive CrawlOutcome
  | returned (err : Option CrawlError)
  | panicked
  deriving DecidableEq, Repr

/-- The loop `for _, a := range ia { a(*res) }`: the invocations made, and whether the loop
panicked on a nil function. -/
def runActions (item : Resource) : List ItemActionFunc → List CrawlEvent × Bool
  | [] => ([], false)
  | none :: _ => ([], true)
  | some a :: rest =>
    ((CrawlEvent.action a item) :: (runActions item rest).1, (runActions item rest).2)

/-- The loop `for scan.Scan() { ... }` of `ResourceCrawler` and the test of `scan.Err()`
after it, when `n` lines have been delivered and `lines` are still to come. -/
def scanLoop (parent : Host) (ia : List ItemActionFunc) (rc : ReadCloser) :
    Nat → List Str → List CrawlEvent × CrawlOutcome
  | n, [] => ([], CrawlOutcome.returned ((rc.errAfter n).map CrawlError.io))
  | n, line :: rest =>
    if line = lit "." then
      ([], CrawlOutcome.returned ((rc.errAfter (n + 1)).map CrawlError.io))
    else
      match NewResourceFromGopherLine line with
      | Except.error err => ([], CrawlOutcome.returned (some (CrawlError.parse err)))
      | Except.ok res =>
        let called : List CrawlEvent × Bool :=
          if res.Typ ≠ InformationalMessageType ∧ res.Typ ≠ ErrorMessageType then
            runActions res ia
          else ([], false)
        if called.2 then (called.1, CrawlOutcome.panicked)
        else if res.Typ = DirectoryType then
          match NewResourceFromGopherLine line with
          | Except.error err =>
            (called.1, CrawlOutcome.returned (some (CrawlError.parse err)))
          | Except.ok res2 =>
            (called.1 ++ CrawlEvent.finding ⟨res2, some parent⟩ ::
                (scanLoop parent ia rc (n + 1) rest).1,
              (scanLoop parent ia rc (n + 1) rest).2)
        else
          (called.1 ++ (scanLoop parent ia rc (n + 1) rest).1,
            (scanLoop parent ia rc (n + 1) rest).2)

/-- Go `ResourceCrawler`: what it did, in order, and how it ended. The deferred
`rc.Close()` runs on every path after the stream is open. -/
def ResourceCrawler (o : ResourceOpener) (r : Resource) (ia : List ItemActionFunc) :
    List CrawlEvent × CrawlOutcome :=
  if r.Typ ≠ DirectoryType then
    ([], CrawlOutcome.returned (some (CrawlError.notDirectory r)))
  else
    match o r with
    | Except.error err => ([CrawlEvent.opened r], CrawlOutcome.returned (some (CrawlError.io err)))
    | Except.ok rc =>
      (CrawlEvent.opened r :: (scanLoop r.Host ia rc 0 rc.lines).1 ++ [CrawlEvent.closed],
        (scanLoop r.Host ia rc 0 rc.lines).2)

/-- The findings among the events. -/
def findingsOf (evs : List CrawlEvent) : List CrawlFinding :=
  evs.filterMap (fun ev =>
    match ev with
    | CrawlEvent.finding f => some f
    | _ => none)

/-- The items callback `a` was invoked with, among the events. -/
def actionsOf (a : Nat) (evs : List CrawlEvent) : List Resource :=
  evs.filterMap (fun ev =>
    match ev with
    | CrawlEvent.action b item => if b = a then some item else none
    | _ => none)

/-! ## The dispatcher: the handler of a finding -/

/-- The Go variable `blacklist` of `main.go`. -/
def blacklist : List Str := [lit ".run*", lit ".cgi?"]

/-- A call the finding handler makes on the coordinator or the grapher. -/
inductive HandlerCall
  | queueJob (r : Resource)
  | graphFinding (f : CrawlFinding)
  deriving DecidableEq, Repr

/-- The branch `case f := <-findings` of the loop of `main`: the calls it makes, and the
coordinator and grapher afterwards; `none` when it panics (in `r.String()` inside
`QueueJob`, or on the error of `GraphFinding`). The error of `QueueJob` is only logged;
logging is left out. -/
def handleFinding (caseTable : Str → Str) (coord : Coordinator) (grapher : Grapher)
    (f : CrawlFinding) : List HandlerCall × Option (Coordinator × Grapher) :=
  if blacklist.any (fun b => Contains f.Resource.Selector b) then
    ([], some (coord, grapher))
  else
    match coord.QueueJob caseTable f.Resource with
    | none => ([HandlerCall.queueJob f.Resource], none)
    | some (coord1, _) =>
      match grapher.GraphFinding caseTable f with
      | (_, some _) => ([HandlerCall.queueJob f.Resource, HandlerCall.graphFinding f], none)
      | (grapher1, none) =>
        ([HandlerCall.queueJob f.Resource, HandlerCall.graphFinding f],
          some (coord1, grapher1))

/-- Byte `b` is an upper-case ASCII letter. -/
def isUpper (b : Nat) : Bool := 65 ≤ b && b ≤ 90

/-- What is taken for granted of `strings.Map(unicode.ToLower, s)`, the parameter of
`ToLower`: its result holds no upper-case ASCII letter, and it gives the same result for
two strings that differ only in the case of ASCII letters. -/
def LowerTable (caseTable : Str → Str) : Prop :=
  (∀ s, ∀ b ∈ caseTable s, isUpper b = false) ∧
  (∀ s1 s2, asciiLower s1 = asciiLower s2 → caseTable s1 = caseTable s2)

/-- A case table that lowers the ASCII letters and leaves every other byte as it is. -/
def asciiCaseTable : Str → Str := asciiLower

/-- The root directory of `localhost:70`, with the selector `/`. -/
def rootSlash : Resource := ⟨⟨lit "localhost", lit "70"⟩, 49, lit "/"⟩

/-- The root directory of `localhost:70`, with the empty selector. -/
def rootEmpty : Resource := ⟨⟨lit "localhost", lit "70"⟩, 49, []⟩

/-- A coordinator with `rootSlash` queued. -/
def rootQueued : Coordinator := ⟨AList.insert (lit "gopher://localhost:70/1") rootSlash ∅, ∅, ∅⟩

/-- The key of the parent host of a finding, if it has a parent. -/
def CrawlFinding.parentKey (caseTable : Str → Str) (f : CrawlFinding) : Option Str :=
  f.Parent.map (Host.String caseTable)

/-- The lines the specification has `GraphFinding` write for the finding `f` that comes
after the findings `earlier`: for a finding with a parent, the node declaration of the
parent key if no earlier finding has that parent key, then the edge line if no earlier
finding with a parent has the same edge string. -/
def findingLines (caseTable : Str → Str) (earlier : List CrawlFinding) (f : CrawlFinding) :
    List Str :=
  match f.Parent with
  | none => []
  | some parent =>
    (if ∃ e ∈ earlier, e.parentKey caseTable = some (parent.String caseTable) then []
      else [nodeLine (parent.String caseTable)]) ++
    (if ∃ e ∈ earlier, e.Parent.isSome = true ∧ e.String caseTable = f.String caseTable then []
      else [edgeLine (f.String caseTable)])

/-- The lines the specification has the grapher write for a list of findings that come
after the findings `earlier`. -/
def graphLines (caseTable : Str → Str) (earlier : List CrawlFinding) :
    List CrawlFinding → List Str
  | [] => []
  | f :: fs => findingLines caseTable earlier f ++ graphLines caseTable (earlier ++ [f]) fs

/-- The grapher `g` has seen exactly the findings `earlier`: `alive` holds their parent
keys, `graphed` the edge strings of those with a parent; and its writer is reliable. -/
structure Grapher.Tracks (caseTable : Str → Str) (g : Grapher) (earlier : List CrawlFinding) :
    Prop where
  alive_iff : ∀ k, g.alive.at k = true ↔ ∃ e ∈ earlier, e.parentKey caseTable = some k
  graphed_iff : ∀ s, g.graphed.at s = true ↔
    ∃ e ∈ earlier, e.Parent.isSome = true ∧ e.String caseTable = s
  reliable : g.writeCloser.reliable = true

/-- The findings of `crawlFindingStringTests` in the tests. -/
def crawlFindingStringTests : List CrawlFinding :=
  [⟨⟨⟨lit "referenced", lit "72"⟩, 49, []⟩, some ⟨lit "parent", lit "70"⟩⟩,
   ⟨⟨⟨lit "localhost", lit "70"⟩, 50, lit "/Test"⟩, some ⟨lit "gopher.example.com", lit "72"⟩⟩,
   ⟨⟨⟨lit "gopher.example.com", lit "72"⟩, 50, lit "/Test"⟩,
     some ⟨lit "gopher.example.com", lit "72"⟩⟩,
   ⟨⟨⟨lit "gopher.example.com", lit "72"⟩, 50, lit "/Test"⟩, none⟩]

/-- The `mockDotfile` of the tests: a writer that holds nothing yet and never fails. -/
def mockDotfile : WriteCloser := ⟨[], [], false⟩

/-- The lines of a listing before its end marker, the first line that is exactly `.`. -/
def linesBeforeEnd (lines : List Str) : List Str := lines.takeWhile (fun l => l ≠ lit ".")

/-- The items of the lines that parse, in order. -/
def itemsOf (lines : List Str) : List Resource :=
  lines.filterMap (fun l => (NewResourceFromGopherLine l).toOption)

/-- What the specification has the crawler do for one item of the listing of a directory on
the host `parent`: invoke the callbacks in their order if the item is neither informational
nor an error message, then send the finding if the item is a directory. -/
def itemEvents (parent : Host) (ids : List Nat) (item : Resource) : List CrawlEvent :=
  (if item.Typ ≠ InformationalMessageType ∧ item.Typ ≠ ErrorMessageType then
      ids.map (fun a => CrawlEvent.action a item)
    else []) ++
  (if item.Typ = DirectoryType then [CrawlEvent.finding ⟨item, some parent⟩] else [])

/-- The listing of `mockResourceOpener` in the tests, as the scanner delivers it. -/
def mockListing : ReadCloser :=
  ⟨[lit "iThis is a test\t\terror.host\t1", lit "i\t\terror.host\t1",
    lit "1Give me what you got\t\tlocalhost\t70", lit "2Afile\tfile\tlocalhost\t70",
    lit "1Another directory\t/directory\texample.com\t72", lit "."], fun _ => none⟩

/-- Go `mockResourceOpener` of the tests. -/
def mockResourceOpener : ResourceOpener := fun _ => Except.ok mockListing

/-- The directory the tests crawl. -/
def mockDirectory : Resource := ⟨⟨lit "localhost", lit "70"⟩, DirectoryType, lit "/"⟩

/-! ## The dispatcher: the loop of `main` -/

/-- The callback arguments of the call of `ResourceCrawler` in `main`: the one argument
`nil`. A variadic parameter gets the slice of its arguments, here a slice that holds one nil
function. -/
def mainItemActions : List ItemActionFunc := [none]

/-- A goroutine `main` has started for a crawler: the crawler id, the job (`none` for
nil), the findings its crawl has still to send on the channel `findings`, in order, and how
the crawl ends once they are sent. -/
structure Worker where
  crawlerID : Nat
  job : Option Resource
  pending : List CrawlFinding
  outcome : CrawlOutcome
  deriving DecidableEq

/-- The goroutine of the case `i := <-idleCrawlers` for the job `j`: without a job it
returns at once, with a job it calls `ResourceCrawler` with the opener `o` and the
callbacks `ia` (in `main`: `NetResourceOpener` and `mainItemActions`). -/
def startWorker (o : ResourceOpener) (ia : List ItemActionFunc) (i : Nat)
    (j : Option Resource) : Worker :=
  match j with
  | none => ⟨i, none, [], CrawlOutcome.returned none⟩
  | some r => ⟨i, some r, findingsOf (ResourceCrawler o r ia).1, (ResourceCrawler o r ia).2⟩

/-- Where the process is: in the loop of `main`, past it (the loop ended on
`JobsExhausted` and the deferred `grapher.Close()` returned nil), or dead of a panic. -/
inductive Phase
  | running
  | exited
  | crashed
  deriving DecidableEq, Repr

/-- The state of `main` in its loop: coordinator and grapher, the ids in the channel
`idleCrawlers`, the finding the bootstrap goroutine has still to send, the worker
goroutines that have not handed in their completion, whether a worker goroutine that has
handed in its completion is panicking, and the phase. In the phase `crashed` the other
fields are those before the event that ended the process. -/
structure Dispatcher where
  coord : Coordinator
  grapher : Grapher
  idleCrawlers : List Nat
  bootstrap : Option CrawlFinding
  workers : List Worker
  dying : Bool
  phase : Phase
  deriving DecidableEq

/-- What happens next: one of the four cases of the `select` is taken (a receive from
`idleCrawlers`, where `pick` is the iteration order of `QueuedJob`; a receive from
`findings`, sent by the bootstrap goroutine or by the worker at place `n`; a receive from
`done`, sent by the worker at place `n`; a tick), or the panic of a worker goroutine ends
the process. -/
inductive Event
  | idle (pick : Nat)
  | bootstrapFinding
  | finding (n : Nat)
  | done (n : Nat)
  | tick
  | crash
  deriving DecidableEq, Repr

/-- The start of `main` up to the loop, for the writer of the dot file, the number of
crawlers and the flags `bootstrap` and `port`: `none` when `NewGrapher` fails (`main`
panics). The crawler ids are `1` to `crawlers`; the bootstrap finding has no parent. -/
def Dispatcher.start (w : WriteCloser) (crawlers : Nat) (bootstrap port : Str) :
    Option Dispatcher :=
  match NewGrapher w with
  | Except.error _ => none
  | Except.ok g =>
    some ⟨NewCoordinator, g, (List.range crawlers).map (fun i => i + 1),
      some ⟨⟨⟨bootstrap, port⟩, DirectoryType, []⟩, none⟩, [], false, Phase.running⟩

/-- The end of an iteration of the loop: `if coord.JobsExhausted() { break }`, after which
`main` returns and its deferred function closes the grapher and panics on an error. -/
def Dispatcher.endOfIteration (d : Dispatcher) : Dispatcher :=
  if d.coord.JobsExhausted then
    match d.grapher.Close with
    | (g, none) => { d with grapher := g, phase := Phase.exited }
    | (g, some _) => { d with grapher := g, phase := Phase.crashed }
  else d

/-- The case `f := <-findings` and the end of the iteration: `main` panics when the
handler does. -/
def Dispatcher.onFinding (caseTable : Str → Str) (d : Dispatcher) (f : CrawlFinding) :
    Dispatcher :=
  match (handleFinding caseTable d.coord d.grapher f).2 with
  | none => { d with phase := Phase.crashed }
  | some (c, g) => Dispatcher.endOfIteration { d with coord := c, grapher := g }

/-- The statement `if j.job != nil { coord.FinishJob(j.job) }` of the case `j := <-done`;
`none` when `FinishJob` panics. -/
def finishIfJob (caseTable : Str → Str) (c : Coordinator) (job : Option Resource) :
    Option Coordinator :=
  match job with
  | none => some c
  | some r => c.FinishJob caseTable r

/-- One event in the state `d`; `none` when the event cannot happen in `d`. Nothing happens
once the process has ended. A worker sends its findings one by one and then hands in its
completion, also when its crawl panicked (the send is deferred); the panic ends the process
once `main` has received the completion, whether or not `main` has handled it by then. -/
def Dispatcher.step (caseTable : Str → Str) (o : ResourceOpener) (ia : List ItemActionFunc)
    (d : Dispatcher) (ev : Event) : Option Dispatcher :=
  if d.phase ≠ Phase.running then none
  else
    match ev with
    | Event.idle pick =>
      match d.idleCrawlers with
      | [] => none
      | i :: rest =>
        some (Dispatcher.endOfIteration
          { d with
            coord := (d.coord.QueuedJob pick).1
            idleCrawlers := rest
            workers := d.workers ++ [startWorker o ia i (d.coord.QueuedJob pick).2] })
    | Event.bootstrapFinding =>
      match d.bootstrap with
      | none => none
      | some f => some (Dispatcher.onFinding caseTable { d with bootstrap := none } f)
    | Event.finding n =>
      match d.workers[n]? with
      | none => none
      | some w =>
        match w.pending with
        | [] => none
        | f :: rest =>
          some (Dispatcher.onFinding caseTable
            { d with workers := d.workers.set n { w with pending := rest } } f)
    | Event.done n =>
      match d.workers[n]? with
      | none => none
      | some w =>
        match w.pending with
        | _ :: _ => none
        | [] =>
          match finishIfJob caseTable d.coord w.job with
          | none => some { d with phase := Phase.crashed }
          | some c =>
            some (Dispatcher.endOfIteration
              { d with
                coord := c
                idleCrawlers := d.idleCrawlers ++ [w.crawlerID]
                workers := d.workers.eraseIdx n
                dying := d.dying || decide (w.outcome = CrawlOutcome.panicked) })
    | Event.tick => some (Dispatcher.endOfIteration d)
    | Event.crash =>
      if d.dying ||
          d.workers.any (fun w => w.pending.isEmpty && decide (w.outcome = CrawlOutcome.panicked))
      then some { d with phase := Phase.crashed }
      else none

/-- A sequence of events from the state `d`; `none` when one of them cannot happen. -/
def Dispatcher.run (caseTable : Str → Str) (o : ResourceOpener) (ia : List ItemActionFunc)
    (d : Dispatcher) : List Event → Option Dispatcher
  | [] => some d
  | ev :: evs =>
    match d.step caseTable o ia ev with
    | none => none
    | some d1 => Dispatcher.run caseTable o ia d1 evs

/-- The listing of `localhost:70` in the end-to-end scenario: a directory on
`example.com:72` and a file. -/
def pipelineLocalhost : ReadCloser :=
  ⟨[lit "1Example\t\texample.com\t72", lit "0A file\t/file\tlocalhost\t70", lit "."],
    fun _ => none⟩

/-- The listing of `example.com:72` in the end-to-end scenario: a directory on
`localhost:70`. -/
def pipelineExample : ReadCloser := ⟨[lit "1Back\t\tlocalhost\t70", lit "."], fun _ => none⟩

/-- The opener of the end-to-end scenario: the fixed listing of the host of the resource,
and an error for any other host. -/
def pipelineOpener : ResourceOpener := fun r =>
  if r.Host = ⟨lit "localhost", lit "70"⟩ then Except.ok pipelineLocalhost
  else if r.Host = ⟨lit "example.com", lit "72"⟩ then Except.ok pipelineExample
  else Except.error IOError.failed

/-- The bootstrap resource of the end-to-end scenario. -/
def pipelineRoot : Resource := ⟨⟨lit "localhost", lit "70"⟩, DirectoryType, []⟩

/-- What holds of every state of the end-to-end scenario when the crawls get the callbacks
of `main`: only the bootstrap resource is ever queued, no worker has a finding to send, and
the writer of the dot file holds the opening line alone until `main` leaves the loop, and
the opening and the closing line afterwards. -/
structure Dispatcher.Stalled (d : Dispatcher) : Prop where
  queued : ∀ k r, d.coord.queued.lookup k = some r → r = pipelineRoot
  bootstrap : ∀ f, d.bootstrap = some f → f = ⟨pipelineRoot, none⟩
  pending : ∀ w ∈ d.workers, w.pending = []
  opened : d.phase ≠ Phase.exited →
    d.grapher.writeCloser = ⟨[lit "strict digraph \x7b\n"], [], false⟩
  closed : d.phase = Phase.exited →
    d.grapher.writeCloser = ⟨[lit "strict digraph \x7b\n", lit "\x7d\n"], [], true⟩

/-! ## The canonical URI as the code builds it -/

/-- The text `(*URL).String` prints for a path: the path as it stands when each of its
bytes is valid in an encoded path; otherwise its `%XX` sequences are decoded and every byte
that a path does not hold as it is is percent-escaped. -/
def selectorText (s : Str) : Str :=
  if validEncoded s encodePath then s else escape (unescapeBytes encodePath s) encodePath

/-- The canonical URI of a line as the code builds it by design:
`gopher://<host>:<port>/<type-byte><selector>` with the host field in lower case (in square
brackets when it holds a colon), the port field in lower case, the first byte of field 0,
and the text of the selector field, the selector `/` taken as the empty one. -/
def canonicalURI (line : Str) : Str :=
  lit "gopher://" ++
    (if 58 ∈ (Split line 9).getD 2 [] then lit "[" ++ asciiLower ((Split line 9).getD 2 []) ++ lit "]"
      else asciiLower ((Split line 9).getD 2 [])) ++
    lit ":" ++ asciiLower ((Split line 9).getD 3 []) ++ lit "/" ++
    [((Split line 9).getD 0 []).headD 0] ++
    selectorText (if (Split line 9).getD 1 [] = lit "/" then [] else (Split line 9).getD 1 [])

/-- The canonical string of the resource a line parses to: `none` when the parser rejects
the line or `Resource.String` panics. -/
def lineString (caseTable : Str → Str) (line : Str) : Option Str :=
  match NewResourceFromGopherLine line with
  | Except.ok r => r.String caseTable
  | Except.error _ => none

/-! # Theorems -/

/-! ## Lemmas on Go maps -/

theorem GoMap.entries_eq_nil_iff {V : Type} (m : GoMap V) : m.entries = [] ↔ ∀ k, k ∉ m := by
  constructor
  · intro h k hk
    rw [AList.mem_keys, AList.keys, h] at hk
    simp at hk
  · intro h
    cases hm : m.entries with
    | nil => rfl
    | cons e es =>
      exfalso
      apply h e.1
      rw [AList.mem_keys, AList.keys, hm]
      simp [List.keys]

theorem GoMap.at_eq_true_iff (m : GoMap Bool) (k : Str) :
    m.at k = true ↔ m.lookup k = some true := by
  unfold GoMap.at
  cases m.lookup k <;> simp

theorem GoMap.mem_of_at (m : GoMap Bool) (k : Str) (h : m.at k = true) : k ∈ m := by
  rw [GoMap.at_eq_true_iff] at h
  rw [← AList.lookup_isSome, h]
  rfl

theorem GoMap.at_insert_self (m : GoMap Bool) (k : Str) (b : Bool) :
    GoMap.at (m.insert k b) k = b := by
  simp [GoMap.at, AList.lookup_insert]

theorem GoMap.at_insert_ne (m : GoMap Bool) {k k1 : Str} (b : Bool) (h : k1 ≠ k) :
    GoMap.at (m.insert k b) k1 = m.at k1 := by
  simp [GoMap.at, AList.lookup_insert_ne h]

theorem GoMap.at_erase_ne (m : GoMap Bool) {k k1 : Str} (h : k1 ≠ k) :
    GoMap.at (m.erase k) k1 = m.at k1 := by
  simp [GoMap.at, AList.lookup_erase_ne h]

theorem GoMap.lookup_of_get? {V : Type} (m : GoMap V) (i : Nat) (k : Str) (v : V)
    (h : m.entries.get? i = some ⟨k, v⟩) : m.lookup k = some v := by
  have hmem : (⟨k, v⟩ : Sigma (fun _ : Str => V)) ∈ m.entries := List.get?_mem h
  exact AList.mem_lookup_iff.mpr hmem

/-! ## The single operations of the coordinator -/

/-- C3: `QueueJob` of a resource whose key is queued, active or finished returns an error
and leaves the coordinator as it was. Membership in `active` and `finished` is read as the
code reads it: the map yields `true` for the key. -/
theorem QueueJob_known_key_is_error (caseTable : Str → Str) (c : Coordinator) (r : Resource)
    (k : Str) (hk : r.String caseTable = some k)
    (hin : k ∈ c.queued ∨ c.active.at k = true ∨ c.finished.at k = true) :
    ∃ e, c.QueueJob caseTable r = some (c, some e) := by
  unfold Coordinator.QueueJob
  rw [hk]
  by_cases hq : k ∈ c.queued
  · exact ⟨QueueError.alreadyQueued, by simp [hq]⟩
  · by_cases ha : c.active.at k = true
    · exact ⟨QueueError.alreadyCrawling, by simp [hq, ha]⟩
    · have hf : c.finished.at k = true := by
        rcases hin with h | h | h
        · exact absurd h hq
        · exact absurd h ha
        · exact h
      exact ⟨QueueError.alreadyCrawled, by simp [hq, ha, hf]⟩

/-- Queueing the test job again while it is queued is an error and changes nothing. -/
theorem QueueJob_known_key_is_error_witness :
    testJob.String noCaseTable = some testKey ∧ testKey ∈ testQueued.queued ∧
      ∃ e, testQueued.QueueJob noCaseTable testJob = some (testQueued, some e) :=
  ⟨by decide, by decide,
    QueueJob_known_key_is_error noCaseTable testQueued testJob testKey (by decide)
      (Or.inl (by decide))⟩

/-- C4: `QueueJob` of a resource whose key is in none of the three collections returns no
error, stores the resource under its key in `queued`, and changes nothing else. -/
theorem QueueJob_new_key_is_queued (caseTable : Str → Str) (c : Coordinator) (r : Resource)
    (k : Str) (hk : r.String caseTable = some k)
    (hq : k ∉ c.queued) (ha : c.active.at k = false) (hf : c.finished.at k = false) :
    ∃ c1, c.QueueJob caseTable r = some (c1, none) ∧ c1.queued.lookup k = some r ∧
      (∀ k1, k1 ≠ k → c1.queued.lookup k1 = c.queued.lookup k1) ∧
      c1.active = c.active ∧ c1.finished = c.finished := by
  refine ⟨{ c with queued := c.queued.insert k r }, ?_, ?_, ?_, rfl, rfl⟩
  · unfold Coordinator.QueueJob
    rw [hk]
    simp [hq, ha, hf]
  · exact AList.lookup_insert _
  · intro k1 h1
    exact AList.lookup_insert_ne h1

/-- Queueing the test job on a new coordinator stores it under its key. -/
theorem QueueJob_new_key_is_queued_witness :
    testJob.String noCaseTable = some testKey ∧ testKey ∉ NewCoordinator.queued ∧
      ∃ c1, NewCoordinator.QueueJob noCaseTable testJob = some (c1, none) ∧
        c1.queued.lookup testKey = some testJob ∧
        (∀ k1, k1 ≠ testKey → c1.queued.lookup k1 = NewCoordinator.queued.lookup k1) ∧
        c1.active = NewCoordinator.active ∧ c1.finished = NewCoordinator.finished :=
  ⟨by decide, by decide,
    QueueJob_new_key_is_queued noCaseTable NewCoordinator testJob testKey (by decide)
      (by decide) (by decide) (by decide)⟩

/-- C6: `FinishJob` of a resource whose key is active takes the key out of `active` and
puts it into `finished`; no other key changes in `active` or `finished`, and `queued` is
unchanged. -/
theorem FinishJob_moves_active_to_finished (caseTable : Str → Str) (c : Coordinator)
    (r : Resource) (k : Str) (hk : r.String caseTable = some k)
    (_ha : c.active.at k = true) :
    ∃ c1, c.FinishJob caseTable r = some c1 ∧ k ∉ c1.active ∧ c1.active.at k = false ∧
      c1.finished.at k = true ∧
      (∀ k1, k1 ≠ k → c1.active.lookup k1 = c.active.lookup k1 ∧
        c1.finished.lookup k1 = c.finished.lookup k1) ∧
      c1.queued = c.queued := by
  refine ⟨{ c with active := c.active.erase k, finished := c.finished.insert k true },
    ?_, ?_, ?_, ?_, ?_, rfl⟩
  · unfold Coordinator.FinishJob
    rw [hk]
  · simp [AList.mem_erase]
  · simp [GoMap.at, AList.lookup_erase]
  · exact GoMap.at_insert_self _ _ _
  · intro k1 h1
    exact ⟨AList.lookup_erase_ne h1, AList.lookup_insert_ne h1⟩

/-- Finishing the test job while it is active moves its key to `finished`. -/
theorem FinishJob_moves_active_to_finished_witness :
    testJob.String noCaseTable = some testKey ∧ testActive.active.at testKey = true ∧
      ∃ c1, testActive.FinishJob noCaseTable testJob = some c1 ∧ testKey ∉ c1.active ∧
        c1.active.at testKey = false ∧ c1.finished.at testKey = true ∧
        (∀ k1, k1 ≠ testKey → c1.active.lookup k1 = testActive.active.lookup k1 ∧
          c1.finished.lookup k1 = testActive.finished.lookup k1) ∧
        c1.queued = testActive.queued :=
  ⟨by decide, by decide,
    FinishJob_moves_active_to_finished noCaseTable testActive testJob testKey (by decide)
      (by decide)⟩

/-- C7: `JobsExhausted` is true exactly when `queued` and `active` are empty and `finished`
is not; so it is false on a new coordinator, false while a key is queued or active, and
false while `finished` is empty. -/
theorem JobsExhausted_iff (c : Coordinator) :
    (c.JobsExhausted = true ↔
      (∀ k, k ∉ c.queued) ∧ (∀ k, k ∉ c.active) ∧ ∃ k, k ∈ c.finished) ∧
    NewCoordinator.JobsExhausted = false ∧
    ((∃ k, k ∈ c.queued ∨ k ∈ c.active) → c.JobsExhausted = false) ∧
    ((∀ k, k ∉ c.finished) → c.JobsExhausted = false) := by
  have key : c.JobsExhausted = true ↔
      (∀ k, k ∉ c.queued) ∧ (∀ k, k ∉ c.active) ∧ ∃ k, k ∈ c.finished := by
    unfold Coordinator.JobsExhausted
    rw [← GoMap.entries_eq_nil_iff, ← GoMap.entries_eq_nil_iff]
    have hfin : (∃ k, k ∈ c.finished) ↔ c.finished.entries ≠ [] := by
      rw [Ne, GoMap.entries_eq_nil_iff]
      push_neg
      rfl
    rw [hfin]
    simp [List.length_eq_zero]
  refine ⟨key, by decide, ?_, ?_⟩
  · rintro ⟨k, hk⟩
    rw [← Bool.not_eq_true, key]
    rintro ⟨h1, h2, -⟩
    rcases hk with hk | hk
    · exact h1 k hk
    · exact h2 k hk
  · intro h
    rw [← Bool.not_eq_true, key]
    rintro ⟨-, -, k, hk⟩
    exact h k hk

theorem GoMap.perm_cons_erase {V : Type} (m : GoMap V) (k : Str) (v : V)
    (h : m.lookup k = some v) :
    List.Perm m.entries (⟨k, v⟩ :: (m.erase k).entries) := by
  have hmem : (⟨k, v⟩ : Sigma (fun _ : Str => V)) ∈ m.entries := AList.mem_lookup_iff.mp h
  have hkeys : k ∈ m.entries.keys := List.mem_keys_of_mem hmem
  obtain ⟨b, l1, l2, -, hl, he⟩ := List.exists_of_kerase hkeys
  have hb : (⟨k, b⟩ : Sigma (fun _ : Str => V)) ∈ m.entries := by
    rw [hl]
    simp
  have hbv : b = v := m.nodupKeys.eq_of_mk_mem hb hmem
  subst hbv
  show List.Perm m.entries (⟨k, b⟩ :: m.entries.kerase k)
  rw [he]
  rw [hl]
  exact List.perm_middle

theorem QueuedJob_of_empty (c : Coordinator) (pick : Nat) (h : c.queued.entries = []) :
    c.QueuedJob pick = (c, none) := by
  unfold Coordinator.QueuedJob
  rw [h]
  rfl

theorem QueuedJob_of_nonempty (c : Coordinator) (pick : Nat) (h : c.queued.entries ≠ []) :
    ∃ k r, c.queued.lookup k = some r ∧
      c.QueuedJob pick =
        ({ c with queued := c.queued.erase k, active := c.active.insert k true }, some r) := by
  have hlen : 0 < c.queued.entries.length := List.length_pos.mpr h
  have hlt : pick % c.queued.entries.length < c.queued.entries.length := Nat.mod_lt _ hlen
  obtain ⟨⟨k, r⟩, hkr⟩ : ∃ e, c.queued.entries.get? (pick % c.queued.entries.length) = some e :=
    ⟨_, List.get?_eq_get hlt⟩
  refine ⟨k, r, GoMap.lookup_of_get? _ _ _ _ hkr, ?_⟩
  unfold Coordinator.QueuedJob
  rw [hkr]

theorem run_queuedJobs (caseTable : Str → Str) (picks : List Nat) :
    ∀ c : Coordinator, picks.length = c.queued.entries.length →
      ∃ c1 outs, c.run caseTable (picks.map Call.queuedJob) = some (c1, outs) ∧
        List.Perm outs (c.queued.entries.map (fun e => e.2)) ∧
        ∀ p, (c1.QueuedJob p).2 = none := by
  induction picks with
  | nil =>
    intro c hlen
    have hnil : c.queued.entries = [] := List.length_eq_zero.mp hlen.symm
    refine ⟨c, [], rfl, ?_, ?_⟩
    · rw [hnil]
      exact List.Perm.nil
    · intro p
      rw [QueuedJob_of_empty c p hnil]
  | cons p ps ih =>
    intro c hlen
    have hne : c.queued.entries ≠ [] := by
      intro h
      rw [h] at hlen
      simp at hlen
    obtain ⟨k, r, hlook, hq⟩ := QueuedJob_of_nonempty c p hne
    have hperm := GoMap.perm_cons_erase c.queued k r hlook
    have hlen1 : ps.length = (c.queued.erase k).entries.length := by
      have := hperm.length_eq
      simp only [List.length_cons] at this hlen
      omega
    obtain ⟨c1, outs, hrun, hp, hnone⟩ :=
      ih { c with queued := c.queued.erase k, active := c.active.insert k true } hlen1
    refine ⟨c1, r :: outs, ?_, ?_, hnone⟩
    · simp only [List.map_cons, Coordinator.run, Coordinator.call, hq, hrun]
      rfl
    · have h2 := hperm.map (fun e => e.2)
      simp only [List.map_cons] at h2
      exact (List.Perm.cons r hp).trans h2.symm

/-- C5: `QueuedJob` returns none exactly when `queued` is empty, and then changes nothing;
otherwise it returns a resource stored in `queued` under a key `k`, which afterwards is out
of `queued` and in `active`, while the other entries of `queued` and `active` and the whole
of `finished` are unchanged. So as many calls as there are queued jobs return each queued
job once, and a further call returns none. -/
theorem QueuedJob_spec (c : Coordinator) (pick : Nat) :
    ((c.QueuedJob pick).2 = none ↔ ∀ k, k ∉ c.queued) ∧
    ((c.QueuedJob pick).2 = none → (c.QueuedJob pick).1 = c) ∧
    (∀ r, (c.QueuedJob pick).2 = some r →
      ∃ k, c.queued.lookup k = some r ∧ k ∉ (c.QueuedJob pick).1.queued ∧
        (c.QueuedJob pick).1.active.at k = true ∧
        (∀ k1, k1 ≠ k → (c.QueuedJob pick).1.queued.lookup k1 = c.queued.lookup k1 ∧
          (c.QueuedJob pick).1.active.lookup k1 = c.active.lookup k1) ∧
        (c.QueuedJob pick).1.finished = c.finished) ∧
    (∀ (caseTable : Str → Str) (picks : List Nat),
      picks.length = c.queued.entries.length →
      ∃ c1 outs, c.run caseTable (picks.map Call.queuedJob) = some (c1, outs) ∧
        List.Perm outs (c.queued.entries.map (fun e => e.2)) ∧
        ∀ p, (c1.QueuedJob p).2 = none) := by
  by_cases hnil : c.queued.entries = []
  · have hq := QueuedJob_of_empty c pick hnil
    refine ⟨?_, ?_, ?_, fun U picks => run_queuedJobs U picks c⟩
    · rw [hq, ← GoMap.entries_eq_nil_iff]
      simp [hnil]
    · intro _
      rw [hq]
    · intro r hr
      rw [hq] at hr
      cases hr
  · obtain ⟨k, r, hlook, hq⟩ := QueuedJob_of_nonempty c pick hnil
    refine ⟨?_, ?_, ?_, fun U picks => run_queuedJobs U picks c⟩
    · rw [hq, ← GoMap.entries_eq_nil_iff]
      simp [hnil]
    · intro h
      rw [hq] at h
      cases h
    · intro r1 hr
      rw [hq] at hr ⊢
      cases hr
      refine ⟨k, hlook, ?_, ?_, ?_, rfl⟩
      · simp [AList.mem_erase]
      · exact GoMap.at_insert_self _ _ _
      · intro k1 h1
        exact ⟨AList.lookup_erase_ne h1, AList.lookup_insert_ne h1⟩

/-! ## Sequences of calls -/

theorem Coordinator.sound_new : NewCoordinator.Sound := by
  refine ⟨?_, ?_, ?_⟩
  · intro k
    simp [Coordinator.atMostOne, NewCoordinator]
  · intro k hk
    simp [NewCoordinator] at hk
  · intro k hk
    simp [NewCoordinator] at hk

theorem QueueJob_cases (caseTable : Str → Str) (c c1 : Coordinator) (r : Resource)
    (e : Option QueueError) (h : c.QueueJob caseTable r = some (c1, e)) :
    c1 = c ∨ ∃ k, r.String caseTable = some k ∧ k ∉ c.queued ∧ c.active.at k = false ∧
      c.finished.at k = false ∧ c1 = { c with queued := c.queued.insert k r } := by
  unfold Coordinator.QueueJob at h
  cases hk : r.String caseTable with
  | none => simp [hk] at h
  | some k =>
    rw [hk] at h
    simp only at h
    by_cases hq : k ∈ c.queued
    · simp [hq] at h
      exact Or.inl h.1.symm
    · by_cases ha : c.active.at k = true
      · simp [hq, ha] at h
        exact Or.inl h.1.symm
      · by_cases hf : c.finished.at k = true
        · simp [hq, ha, hf] at h
          exact Or.inl h.1.symm
        · simp [hq, ha, hf] at h
          exact Or.inr ⟨k, rfl, hq, by simpa using ha, by simpa using hf, h.1.symm⟩

theorem QueuedJob_cases (c : Coordinator) (pick : Nat) :
    c.QueuedJob pick = (c, none) ∨
    ∃ k r, c.queued.lookup k = some r ∧
      c.QueuedJob pick =
        ({ c with queued := c.queued.erase k, active := c.active.insert k true }, some r) := by
  by_cases hnil : c.queued.entries = []
  · exact Or.inl (QueuedJob_of_empty c pick hnil)
  · exact Or.inr (QueuedJob_of_nonempty c pick hnil)

theorem GoMap.mem_of_lookup {V : Type} (m : GoMap V) (k : Str) (v : V)
    (h : m.lookup k = some v) : k ∈ m := by
  rw [← AList.lookup_isSome, h]
  rfl

theorem Coordinator.sound_queue (c : Coordinator) (hc : c.Sound) (k : Str) (r : Resource)
    (hq : k ∉ c.queued) (ha : c.active.at k = false) (hf : c.finished.at k = false) :
    Coordinator.Sound { c with queued := c.queued.insert k r } := by
  have hna : k ∉ c.active := fun h => by simp [hc.activeTrue k h] at ha
  have hnf : k ∉ c.finished := fun h => by simp [hc.finishedTrue k h] at hf
  refine ⟨?_, hc.activeTrue, hc.finishedTrue⟩
  intro k1
  have h1 := hc.disjoint k1
  simp only [Coordinator.atMostOne, AList.mem_insert] at h1 ⊢
  by_cases hk : k1 = k
  · subst hk
    tauto
  · tauto

theorem Coordinator.sound_dequeue (c : Coordinator) (hc : c.Sound) (k : Str)
    (hq : k ∈ c.queued) :
    Coordinator.Sound { c with queued := c.queued.erase k, active := c.active.insert k true } := by
  have h0 := hc.disjoint k
  simp only [Coordinator.atMostOne] at h0
  refine ⟨?_, ?_, hc.finishedTrue⟩
  · intro k1
    have h1 := hc.disjoint k1
    simp only [Coordinator.atMostOne, AList.mem_insert, AList.mem_erase] at h1 ⊢
    by_cases hk : k1 = k
    · subst hk
      tauto
    · tauto
  · intro k1 h1
    by_cases hk : k1 = k
    · subst hk
      exact GoMap.at_insert_self _ _ _
    · rw [GoMap.at_insert_ne _ _ hk]
      apply hc.activeTrue
      simpa [AList.mem_insert, hk] using h1

theorem Coordinator.sound_finish (c : Coordinator) (hc : c.Sound) (k : Str)
    (ha : c.active.at k = true) :
    Coordinator.Sound
      { c with active := c.active.erase k, finished := c.finished.insert k true } := by
  have hka : k ∈ c.active := GoMap.mem_of_at _ _ ha
  have h0 := hc.disjoint k
  simp only [Coordinator.atMostOne] at h0
  refine ⟨?_, ?_, ?_⟩
  · intro k1
    have h1 := hc.disjoint k1
    simp only [Coordinator.atMostOne, AList.mem_insert, AList.mem_erase] at h1 ⊢
    by_cases hk : k1 = k
    · subst hk
      tauto
    · tauto
  · intro k1 h1
    have h2 := AList.mem_erase.mp h1
    rw [GoMap.at_erase_ne _ h2.1]
    exact hc.activeTrue k1 h2.2
  · intro k1 h1
    by_cases hk : k1 = k
    · subst hk
      exact GoMap.at_insert_self _ _ _
    · rw [GoMap.at_insert_ne _ _ hk]
      apply hc.finishedTrue
      simpa [AList.mem_insert, hk] using h1

theorem Coordinator.run_cons (caseTable : Str → Str) (c : Coordinator) (x : Call)
    (xs : List Call) :
    c.run caseTable (x :: xs) =
      match c.call caseTable x with
      | none => none
      | some (c1, out) =>
        match Coordinator.run caseTable c1 xs with
        | none => none
        | some (c2, outs) => some (c2, out.toList ++ outs) := rfl

theorem Coordinator.finishesActive_cons (caseTable : Str → Str) (c : Coordinator) (x : Call)
    (xs : List Call) :
    c.finishesActive caseTable (x :: xs) =
      ((match x with
        | Call.finishJob r =>
          match r.String caseTable with
          | some k => c.active.at k
          | none => false
        | _ => true) &&
      (match c.call caseTable x with
        | some (c1, _) => Coordinator.finishesActive caseTable c1 xs
        | none => true)) := rfl

theorem Coordinator.sound_run (caseTable : Str → Str) (calls : List Call) :
    ∀ (c c1 : Coordinator) (outs : List Resource), c.Sound →
      c.finishesActive caseTable calls = true →
      c.run caseTable calls = some (c1, outs) → c1.Sound := by
  induction calls with
  | nil =>
    intro c c1 outs hc _ hrun
    have h2 : some (c, ([] : List Resource)) = some (c1, outs) := hrun
    simp only [Option.some.injEq, Prod.mk.injEq] at h2
    rw [← h2.1]
    exact hc
  | cons x xs ih =>
    intro c c1 outs hc hfin hrun
    rw [Coordinator.run_cons] at hrun
    rw [Coordinator.finishesActive_cons, Bool.and_eq_true] at hfin
    cases hcall : c.call caseTable x with
    | none => simp [hcall] at hrun
    | some p =>
      obtain ⟨c2, out⟩ := p
      rw [hcall] at hrun
      simp only at hrun
      have hfin2 : c2.finishesActive caseTable xs = true := by
        have := hfin.2
        rw [hcall] at this
        exact this
      cases hrest : c2.run caseTable xs with
      | none => simp [hrest] at hrun
      | some q =>
        obtain ⟨c3, outs2⟩ := q
        rw [hrest] at hrun
        simp only [Option.some.injEq, Prod.mk.injEq] at hrun
        rw [← hrun.1]
        refine ih c2 c3 outs2 ?_ hfin2 hrest
        cases x with
        | queueJob r =>
          simp only [Coordinator.call, Option.map_eq_some'] at hcall
          obtain ⟨⟨c4, e⟩, hq, heq⟩ := hcall
          simp only [Prod.mk.injEq] at heq
          rcases QueueJob_cases caseTable c c4 r e hq with h | ⟨k, -, hnq, hna, hnf, h⟩
          · rw [← heq.1, h]
            exact hc
          · rw [← heq.1, h]
            exact Coordinator.sound_queue c hc k r hnq hna hnf
        | queuedJob pick =>
          simp only [Coordinator.call, Option.some.injEq] at hcall
          rcases QueuedJob_cases c pick with h | ⟨k, r, hlook, h⟩
          · rw [h] at hcall
            simp only [Prod.mk.injEq] at hcall
            rw [← hcall.1]
            exact hc
          · rw [h] at hcall
            simp only [Prod.mk.injEq] at hcall
            rw [← hcall.1]
            exact Coordinator.sound_dequeue c hc k (GoMap.mem_of_lookup _ _ _ hlook)
        | finishJob r =>
          simp only [Coordinator.call, Option.map_eq_some'] at hcall
          obtain ⟨c4, hf, heq⟩ := hcall
          simp only [Prod.mk.injEq] at heq
          unfold Coordinator.FinishJob at hf
          have hact : (match r.String caseTable with
              | some k => c.active.at k
              | none => false) = true := hfin.1
          cases hk : r.String caseTable with
          | none => simp [hk] at hf
          | some k =>
            rw [hk] at hf hact
            simp only [Option.some.injEq] at hf
            rw [← heq.1, ← hf]
            exact Coordinator.sound_finish c hc k hact

theorem Coordinator.handedOut_call (caseTable : Str → Str) (c c1 : Coordinator)
    (prev : List Resource) (x : Call) (out : Option Resource)
    (hc : c.HandedOut caseTable prev) (hcall : c.call caseTable x = some (c1, out)) :
    c1.HandedOut caseTable (prev ++ out.toList) := by
  cases x with
  | queueJob r =>
    simp only [Coordinator.call, Option.map_eq_some'] at hcall
    obtain ⟨⟨c4, e⟩, hq, heq⟩ := hcall
    simp only [Prod.mk.injEq] at heq
    obtain ⟨rfl, rfl⟩ := heq
    simp only [Option.toList, List.append_nil]
    rcases QueueJob_cases caseTable c c4 r e hq with h | ⟨k, hk, hnq, hna, hnf, h⟩
    · rw [h]
      exact hc
    · rw [h]
      refine ⟨?_, ?_, hc.nodup⟩
      · intro k1 r1 h1
        by_cases hkk : k1 = k
        · subst hkk
          rw [AList.lookup_insert] at h1
          cases h1
          exact hk
        · rw [AList.lookup_insert_ne hkk] at h1
          exact hc.keyed k1 r1 h1
      · intro r1 hr1
        obtain ⟨k1, hk1, hq1, hor⟩ := hc.gone r1 hr1
        refine ⟨k1, hk1, ?_, hor⟩
        have hne : k1 ≠ k := by
          rintro rfl
          rcases hor with h2 | h2
          · rw [hna] at h2
            cases h2
          · rw [hnf] at h2
            cases h2
        simpa [AList.mem_insert, hne] using hq1
  | queuedJob pick =>
    simp only [Coordinator.call, Option.some.injEq] at hcall
    rcases QueuedJob_cases c pick with h | ⟨k, r, hlook, h⟩
    · rw [h] at hcall
      simp only [Prod.mk.injEq] at hcall
      obtain ⟨rfl, rfl⟩ := hcall
      simpa using hc
    · rw [h] at hcall
      simp only [Prod.mk.injEq] at hcall
      obtain ⟨rfl, rfl⟩ := hcall
      have hkr : r.String caseTable = some k := hc.keyed k r hlook
      have hkq : k ∈ c.queued := GoMap.mem_of_lookup _ _ _ hlook
      refine ⟨?_, ?_, ?_⟩
      · intro k1 r1 h1
        by_cases hkk : k1 = k
        · subst hkk
          rw [AList.lookup_erase] at h1
          cases h1
        · rw [AList.lookup_erase_ne hkk] at h1
          exact hc.keyed k1 r1 h1
      · intro r1 hr1
        simp only [Option.toList, List.mem_append, List.mem_singleton] at hr1
        rcases hr1 with hr1 | rfl
        · obtain ⟨k1, hk1, hq1, hor⟩ := hc.gone r1 hr1
          refine ⟨k1, hk1, ?_, ?_⟩
          · simp [AList.mem_erase, hq1]
          · have hne : k1 ≠ k := by
              rintro rfl
              exact hq1 hkq
            rw [GoMap.at_insert_ne _ _ hne]
            exact hor
        · refine ⟨k, hkr, ?_, Or.inl (GoMap.at_insert_self _ _ _)⟩
          simp [AList.mem_erase]
      · simp only [Option.toList, List.map_append, List.map_cons, List.map_nil]
        rw [List.nodup_append]
        refine ⟨hc.nodup, List.nodup_singleton _, ?_⟩
        intro s hs1 hs2
        simp only [List.mem_singleton] at hs2
        subst hs2
        obtain ⟨r1, hr1, hs⟩ := List.mem_map.mp hs1
        obtain ⟨k1, hk1, hq1, -⟩ := hc.gone r1 hr1
        rw [hk1, hkr] at hs
        cases hs
        exact hq1 hkq
  | finishJob r =>
    simp only [Coordinator.call, Option.map_eq_some'] at hcall
    obtain ⟨c4, hf, heq⟩ := hcall
    simp only [Prod.mk.injEq] at heq
    obtain ⟨rfl, rfl⟩ := heq
    simp only [Option.toList, List.append_nil]
    unfold Coordinator.FinishJob at hf
    cases hk : r.String caseTable with
    | none => simp [hk] at hf
    | some k =>
      rw [hk] at hf
      simp only [Option.some.injEq] at hf
      subst hf
      refine ⟨hc.keyed, ?_, hc.nodup⟩
      intro r1 hr1
      obtain ⟨k1, hk1, hq1, hor⟩ := hc.gone r1 hr1
      refine ⟨k1, hk1, hq1, ?_⟩
      by_cases hkk : k1 = k
      · subst hkk
        exact Or.inr (GoMap.at_insert_self _ _ _)
      · rw [GoMap.at_erase_ne _ hkk, GoMap.at_insert_ne _ _ hkk]
        exact hor

theorem Coordinator.handedOut_run (caseTable : Str → Str) (calls : List Call) :
    ∀ (c c1 : Coordinator) (prev outs : List Resource), c.HandedOut caseTable prev →
      c.run caseTable calls = some (c1, outs) → c1.HandedOut caseTable (prev ++ outs) := by
  induction calls with
  | nil =>
    intro c c1 prev outs hc hrun
    have h2 : some (c, ([] : List Resource)) = some (c1, outs) := hrun
    simp only [Option.some.injEq, Prod.mk.injEq] at h2
    obtain ⟨rfl, rfl⟩ := h2
    simpa using hc
  | cons x xs ih =>
    intro c c1 prev outs hc hrun
    rw [Coordinator.run_cons] at hrun
    cases hcall : c.call caseTable x with
    | none => simp [hcall] at hrun
    | some p =>
      obtain ⟨c2, out⟩ := p
      rw [hcall] at hrun
      simp only at hrun
      cases hrest : c2.run caseTable xs with
      | none => simp [hrest] at hrun
      | some q =>
        obtain ⟨c3, outs2⟩ := q
        rw [hrest] at hrun
        simp only [Option.some.injEq, Prod.mk.injEq] at hrun
        obtain ⟨rfl, rfl⟩ := hrun
        have h1 := Coordinator.handedOut_call caseTable c c2 prev x out hc hcall
        have h2 := ih c2 c3 (prev ++ out.toList) outs2 h1 hrest
        rw [List.append_assoc] at h2
        exact h2

theorem Coordinator.handedOut_new (caseTable : Str → Str) :
    NewCoordinator.HandedOut caseTable [] := by
  refine ⟨?_, ?_, List.nodup_nil⟩
  · intro k r h
    simp [NewCoordinator] at h
  · intro r hr
    cases hr

theorem Coordinator.finishesActive_take (caseTable : Str → Str) (calls : List Call) :
    ∀ (c : Coordinator) (n : Nat), c.finishesActive caseTable calls = true →
      c.finishesActive caseTable (calls.take n) = true := by
  induction calls with
  | nil =>
    intro c n _
    rw [List.take_nil]
    rfl
  | cons x xs ih =>
    intro c n hfin
    cases n with
    | zero => rfl
    | succ m =>
      rw [Coordinator.finishesActive_cons, Bool.and_eq_true] at hfin
      rw [List.take_succ_cons, Coordinator.finishesActive_cons, Bool.and_eq_true]
      refine ⟨hfin.1, ?_⟩
      cases hcall : c.call caseTable x with
      | none => rfl
      | some p =>
        have h2 := hfin.2
        rw [hcall] at h2
        exact ih p.1 m h2

/-- C1, amended: used as documented, the coordinator keeps every key in at most one
collection. For every sequence of `QueueJob` / `QueuedJob` / `FinishJob` calls on a new
coordinator in which each `FinishJob` gets a resource whose key is active at that moment,
after the first `n` calls, whatever `n`, every key is in at most one of `queued`, `active`,
`finished`. -/
theorem at_most_one_collection_when_finishing_active (caseTable : Str → Str)
    (calls : List Call) (hfin : NewCoordinator.finishesActive caseTable calls = true)
    (n : Nat) (c : Coordinator) (outs : List Resource)
    (hrun : NewCoordinator.run caseTable (calls.take n) = some (c, outs)) (k : Str) :
    c.atMostOne k :=
  (Coordinator.sound_run caseTable (calls.take n) NewCoordinator c outs Coordinator.sound_new
    (Coordinator.finishesActive_take caseTable calls NewCoordinator n hfin) hrun).disjoint k

/-- The hypotheses of the amended C1 are met by queueing, handing out and finishing the
test job, and the key of the job is then in `finished` only. -/
theorem at_most_one_collection_when_finishing_active_witness :
    NewCoordinator.finishesActive noCaseTable
        [Call.queueJob testJob, Call.queuedJob 0, Call.finishJob testJob] = true ∧
    ∃ c outs, NewCoordinator.run noCaseTable
        ([Call.queueJob testJob, Call.queuedJob 0, Call.finishJob testJob].take 3) =
          some (c, outs) ∧ c.atMostOne testKey ∧ testKey ∈ c.finished :=
  ⟨by decide, _, _, rfl,
    at_most_one_collection_when_finishing_active noCaseTable
      [Call.queueJob testJob, Call.queuedJob 0, Call.finishJob testJob] (by decide) 3 _ _ rfl
      testKey,
    by decide⟩

/-- C1, as stated, fails: `FinishJob` of a resource that is queued but was never handed out
leaves its key both in `queued` and in `finished`. -/
theorem at_most_one_collection_fails :
    ∃ c outs, NewCoordinator.run noCaseTable [Call.queueJob testJob, Call.finishJob testJob] =
        some (c, outs) ∧
      testKey ∈ c.queued ∧ testKey ∈ c.finished ∧ c.finished.at testKey = true ∧
      ¬ c.atMostOne testKey := by
  refine ⟨_, _, rfl, by decide, by decide, by decide, ?_⟩
  intro h
  exact h.2.1 ⟨by decide, by decide⟩

/-- C2: whatever the calls, no key is handed out twice. For every sequence of `QueueJob` /
`QueuedJob` / `FinishJob` calls on a new coordinator, the resources returned by the
`QueuedJob` calls all have a key, and these keys are pairwise different. -/
theorem QueuedJob_hands_out_each_key_once (caseTable : Str → Str) (calls : List Call)
    (c : Coordinator) (outs : List Resource)
    (hrun : NewCoordinator.run caseTable calls = some (c, outs)) :
    (outs.map (Resource.String caseTable)).Nodup ∧
      ∀ r ∈ outs, ∃ k, r.String caseTable = some k := by
  have h := Coordinator.handedOut_run caseTable calls NewCoordinator c [] outs
    (Coordinator.handedOut_new caseTable) hrun
  rw [List.nil_append] at h
  refine ⟨h.nodup, ?_⟩
  intro r hr
  obtain ⟨k, hk, -⟩ := h.gone r hr
  exact ⟨k, hk⟩

/-- The test job is handed out once, although it is queued again before and after it is
handed out and after it is finished. -/
theorem QueuedJob_hands_out_each_key_once_witness :
    ∃ c, NewCoordinator.run noCaseTable
        [Call.queueJob testJob, Call.queueJob testJob, Call.queuedJob 0, Call.queueJob testJob,
          Call.finishJob testJob, Call.queueJob testJob, Call.queuedJob 0] =
        some (c, [testJob]) ∧
      ([testJob].map (Resource.String noCaseTable)).Nodup ∧
      ∀ r ∈ [testJob], ∃ k, r.String noCaseTable = some k :=
  ⟨_, rfl, QueuedJob_hands_out_each_key_once noCaseTable
    [Call.queueJob testJob, Call.queueJob testJob, Call.queuedJob 0, Call.queueJob testJob,
      Call.finishJob testJob, Call.queueJob testJob, Call.queuedJob 0] _ [testJob] rfl⟩

theorem Index_singleton_isSome (s : Str) (c : Nat) : (Index s [c]).isSome = true ↔ c ∈ s := by
  induction s with
  | nil => simp [Index]
  | cons d ds ih =>
    unfold Index
    by_cases h : d = c
    · subst h
      simp [HasPrefix]
    · have h2 : HasPrefix (d :: ds) [c] = false := by
        simp [HasPrefix, List.isPrefixOf, Ne.symm h]
      rw [h2]
      simp only [Bool.false_eq_true, if_false, Option.isSome_map', List.mem_cons]
      rw [ih]
      constructor
      · intro hm
        exact Or.inr hm
      · rintro (hm | hm)
        · exact absurd hm.symm h
        · exact hm

theorem Contains_singleton (s : Str) (c : Nat) : Contains s [c] = true ↔ c ∈ s :=
  Index_singleton_isSome s c

theorem NewResourceFromGopherLine_eq (line : Str) :
    NewResourceFromGopherLine line =
      if SixRules line then
        Except.ok ⟨⟨(Split line 9).getD 2 [], (Split line 9).getD 3 []⟩,
          ((Split line 9).getD 0 []).headD 0, (Split line 9).getD 1 []⟩
      else Except.error ⟨line⟩ := by
  have hsp : lit " " = [32] := rfl
  have hsl : lit "/" = [47] := rfl
  by_cases h : SixRules line
  · rw [if_pos h]
    unfold SixRules at h
    unfold NewResourceFromGopherLine
    simp only [hsp, hsl, Contains_singleton, List.length_eq_zero]
    revert h
    generalize (Split line 9).length = n
    generalize (Split line 9).getD 0 [] = f0
    generalize (Split line 9).getD 1 [] = f1
    generalize (Split line 9).getD 2 [] = f2
    generalize (Split line 9).getD 3 [] = f3
    generalize (Split line 9).getD 4 [] = f4
    rintro ⟨h1, ⟨h2, h2b⟩, ⟨h3, h3b⟩, h4, h5, h6⟩
    have h1n : ¬ (n < 4 ∨ n > 5) := by omega
    have h5n : ¬ (n = 5 ∧ f4 ≠ lit "+") := fun hh => hh.2 (h5 hh.1)
    simp [h1n, h2, h2b, h3, h3b, h4, h5n, h6]
  · rw [if_neg h]
    unfold SixRules at h
    unfold NewResourceFromGopherLine
    simp only [hsp, hsl, Contains_singleton, List.length_eq_zero]
    revert h
    generalize (Split line 9).length = n
    generalize (Split line 9).getD 0 [] = f0
    generalize (Split line 9).getD 1 [] = f1
    generalize (Split line 9).getD 2 [] = f2
    generalize (Split line 9).getD 3 [] = f3
    generalize (Split line 9).getD 4 [] = f4
    intro h
    by_cases h1 : n < 4 ∨ n > 5
    · simp [h1]
    · by_cases h2 : f2 = [] ∨ f3 = []
      · simp [h1, h2]
      · by_cases h3 : 32 ∈ f2 ∨ 32 ∈ f3
        · simp [h1, h2, h3]
        · by_cases h4 : 47 ∈ f2
          · simp [h1, h2, h3, h4]
          · by_cases h5 : n = 5 ∧ f4 ≠ lit "+"
            · simp [h1, h2, h3, h4, h5]
            · by_cases h6 : f0 = []
              · simp [h1, h2, h3, h4, h5, h6]
              · exfalso
                apply h
                refine ⟨by omega, by tauto, by tauto, h4, by tauto, h6⟩

/-- C8: a line that satisfies the six validity rules parses, to the resource whose host
name is field 2, port field 3, type the first byte of field 0 and selector field 1 as it
stands. -/
theorem NewResourceFromGopherLine_accepts (line : Str) (h : SixRules line) :
    ∃ b rest, (Split line 9).getD 0 [] = b :: rest ∧
      NewResourceFromGopherLine line =
        Except.ok ⟨⟨(Split line 9).getD 2 [], (Split line 9).getD 3 []⟩, b,
          (Split line 9).getD 1 []⟩ := by
  rw [NewResourceFromGopherLine_eq, if_pos h]
  obtain ⟨-, -, -, -, -, h6⟩ := h
  cases hf : (Split line 9).getD 0 [] with
  | nil => exact absurd hf h6
  | cons b rest => exact ⟨b, rest, rfl, rfl⟩

/-- The gopher+ line of the tests satisfies the six rules and parses. -/
theorem NewResourceFromGopherLine_accepts_witness :
    SixRules (lit "1A directory\t/Dir/Selector\tlocalhost\t70\t+") ∧
      ∃ b rest, (Split (lit "1A directory\t/Dir/Selector\tlocalhost\t70\t+") 9).getD 0 [] =
          b :: rest ∧
        NewResourceFromGopherLine (lit "1A directory\t/Dir/Selector\tlocalhost\t70\t+") =
          Except.ok ⟨⟨(Split (lit "1A directory\t/Dir/Selector\tlocalhost\t70\t+") 9).getD 2 [],
            (Split (lit "1A directory\t/Dir/Selector\tlocalhost\t70\t+") 9).getD 3 []⟩, b,
            (Split (lit "1A directory\t/Dir/Selector\tlocalhost\t70\t+") 9).getD 1 []⟩ :=
  ⟨by decide,
    NewResourceFromGopherLine_accepts (lit "1A directory\t/Dir/Selector\tlocalhost\t70\t+")
      (by decide)⟩

/-- C9: a line that violates one of the six validity rules is rejected with the error that
names the line, and no resource is returned; so a line parses exactly when it satisfies
all six rules. -/
theorem NewResourceFromGopherLine_rejects (line : Str) :
    (¬ SixRules line → NewResourceFromGopherLine line = Except.error ⟨line⟩) ∧
      ((∃ r, NewResourceFromGopherLine line = Except.ok r) ↔ SixRules line) := by
  rw [NewResourceFromGopherLine_eq]
  by_cases h : SixRules line
  · simp [h]
  · simp [h]

/-- The line of the tests with a slash in the host violates a rule and is rejected. -/
theorem NewResourceFromGopherLine_rejects_witness :
    ¬ SixRules (lit "1Slash in host\tSome selector\tgopher.example.com/dir\t70") ∧
      NewResourceFromGopherLine (lit "1Slash in host\tSome selector\tgopher.example.com/dir\t70")
        = Except.error ⟨lit "1Slash in host\tSome selector\tgopher.example.com/dir\t70"⟩ :=
  ⟨by decide,
    (NewResourceFromGopherLine_rejects
      (lit "1Slash in host\tSome selector\tgopher.example.com/dir\t70")).1 (by decide)⟩

/-! ## Lemmas on `strings` and `net/url` -/

theorem Index_cons (c : Nat) (cs sub : Str) :
    Index (c :: cs) sub =
      if HasPrefix (c :: cs) sub then some 0 else (Index cs sub).map (· + 1) := rfl

theorem LastIndex_cons (c : Nat) (cs sub : Str) :
    LastIndex (c :: cs) sub =
      match LastIndex cs sub with
      | some i => some (i + 1)
      | none => if HasPrefix (c :: cs) sub then some 0 else none := rfl

theorem Index_singleton_none (s : Str) (c : Nat) (h : c ∉ s) : Index s [c] = none := by
  have := (Index_singleton_isSome s c).not.mpr h
  cases hi : Index s [c] with
  | none => rfl
  | some i => simp [hi] at this

theorem Index_append_singleton (a b : Str) (c : Nat) (h : c ∉ a) :
    Index (a ++ c :: b) [c] = some a.length := by
  induction a with
  | nil => simp [Index, HasPrefix]
  | cons d ds ih =>
    have hd : c ≠ d := fun e => h (by simp [e])
    have hds : c ∉ ds := fun e => h (by simp [e])
    have h2 : HasPrefix (d :: (ds ++ c :: b)) [c] = false := by
      simp [HasPrefix, List.isPrefixOf, hd]
    rw [List.cons_append, Index_cons, h2, ih hds]
    rfl

theorem LastIndex_singleton_none (s : Str) (c : Nat) (h : c ∉ s) : LastIndex s [c] = none := by
  induction s with
  | nil => simp [LastIndex]
  | cons d ds ih =>
    have hd : c ≠ d := fun e => h (by simp [e])
    have hds : c ∉ ds := fun e => h (by simp [e])
    have h2 : HasPrefix (d :: ds) [c] = false := by
      simp [HasPrefix, List.isPrefixOf, hd]
    rw [LastIndex_cons, ih hds, h2]
    rfl

theorem LastIndex_append_singleton (a b : Str) (c : Nat) (h : c ∉ b) :
    LastIndex (a ++ c :: b) [c] = some a.length := by
  induction a with
  | nil =>
    rw [List.nil_append, LastIndex_cons, LastIndex_singleton_none b c h]
    simp [HasPrefix]
  | cons d ds ih =>
    rw [List.cons_append, LastIndex_cons, ih]
    rfl

theorem Cut_singleton_none (s : Str) (c : Nat) (h : c ∉ s) : Cut s [c] = (s, [], false) := by
  simp only [Cut, Index_singleton_none s c h]

theorem unescapeOK_of_no_percent (s : Str) (mode : Encoding)
    (h : ∀ b ∈ s, b ≠ 37 ∧ ((mode = encodeHost ∨ mode = encodeZone) →
      shouldEscape b encodeHost = false)) :
    unescapeOK mode s = true := by
  induction s with
  | nil => rfl
  | cons c cs ih =>
    have hc := h c (by simp)
    have hcs : ∀ b ∈ cs, b ≠ 37 ∧ ((mode = encodeHost ∨ mode = encodeZone) →
        shouldEscape b encodeHost = false) := fun b hb => h b (by simp [hb])
    unfold unescapeOK
    rw [if_neg hc.1]
    by_cases h43 : c = 43
    · rw [if_pos h43]
      exact ih hcs
    · rw [if_neg h43]
      have : ¬ ((mode = encodeHost ∨ mode = encodeZone) ∧ c < 128 ∧
          shouldEscape c encodeHost = true) := by
        rintro ⟨hm, -, hs⟩
        rw [hc.2 hm] at hs
        cases hs
      rw [if_neg this]
      exact ih hcs

theorem unescapeBytes_of_no_percent (s : Str) (mode : Encoding)
    (hmode : mode ≠ encodeQueryComponent) (h : ∀ b ∈ s, b ≠ 37) :
    unescapeBytes mode s = s := by
  induction s with
  | nil => rfl
  | cons c cs ih =>
    have hc := h c (by simp)
    have hcs : ∀ b ∈ cs, b ≠ 37 := fun b hb => h b (by simp [hb])
    unfold unescapeBytes
    rw [if_neg hc, if_neg (fun hh => hmode hh.2), ih hcs]

theorem unescape_host_of_plain (s : Str)
    (h : ∀ b ∈ s, b ≠ 37 ∧ shouldEscape b encodeHost = false) :
    unescape s encodeHost = some s := by
  unfold unescape
  rw [unescapeOK_of_no_percent s encodeHost (fun b hb => ⟨(h b hb).1, fun _ => (h b hb).2⟩),
    unescapeBytes_of_no_percent s encodeHost (by simp) (fun b hb => (h b hb).1)]
  rfl

theorem escape_of_plain (s : Str) (mode : Encoding)
    (h : ∀ b ∈ s, shouldEscape b mode = false) : escape s mode = s := by
  induction s with
  | nil => rfl
  | cons c cs ih =>
    have hc := h c (by simp)
    have hcs : ∀ b ∈ cs, shouldEscape b mode = false := fun b hb => h b (by simp [hb])
    have := ih hcs
    unfold escape at this ⊢
    simp only [List.flatMap_cons, hc, Bool.false_eq_true, if_false, this, List.singleton_append]

theorem escape_cons_plain (c : Nat) (s : Str) (mode : Encoding)
    (hc : shouldEscape c mode = false) : escape (c :: s) mode = c :: escape s mode := by
  unfold escape
  simp only [List.flatMap_cons, hc, Bool.false_eq_true, if_false, List.singleton_append]

theorem validEncoded_cons (c : Nat) (s : Str) (mode : Encoding) :
    validEncoded (c :: s) mode =
      ((c ∈ lit "!$&'()*+,;=:@[]%" || !shouldEscape c mode) && validEncoded s mode) := by
  simp only [validEncoded, List.all_cons]

theorem plainHostByte_facts (b : Nat) (h : plainHostByte b = true) :
    32 ≤ b ∧ b < 127 ∧ b ≠ 35 ∧ b ≠ 37 ∧ b ≠ 47 ∧ b ≠ 58 ∧ b ≠ 63 ∧ b ≠ 64 ∧ b ≠ 91 ∧
      shouldEscape b encodeHost = false := by
  have hl : lit "-._~" = [45, 46, 95, 126] := rfl
  unfold plainHostByte at h
  rw [hl] at h
  by_cases ha : isAlnum b = true
  · refine ⟨?_, ?_, ?_, ?_, ?_, ?_, ?_, ?_, ?_, ?_⟩
    all_goals first
      | (simp [shouldEscape, ha]; done)
      | (simp only [isAlnum, Bool.or_eq_true, Bool.and_eq_true, decide_eq_true_eq] at ha; omega)
  · simp only [ha, Bool.false_or, decide_eq_true_eq, List.mem_cons, List.mem_singleton,
      List.mem_nil_iff, or_false] at h
    rcases h with rfl | rfl | rfl | rfl <;> decide

theorem digit_plain (b : Nat) (h : 48 ≤ b ∧ b ≤ 57) : plainHostByte b = true := by
  have : isAlnum b = true := by
    simp only [isAlnum, Bool.or_eq_true, Bool.and_eq_true, decide_eq_true_eq]
    omega
  simp [plainHostByte, this]

theorem asciiLower_digits (s : Str) (h : ∀ b ∈ s, 48 ≤ b ∧ b ≤ 57) : asciiLower s = s := by
  unfold asciiLower
  conv_rhs => rw [← List.map_id s]
  apply List.map_congr_left
  intro b hb
  have := h b hb
  rw [if_neg (by omega)]
  rfl

theorem asciiLower_append (a b : Str) : asciiLower (a ++ b) = asciiLower a ++ asciiLower b := by
  simp [asciiLower]

theorem lit_gopher : lit "gopher://" = [103, 111, 112, 104, 101, 114, 58, 47, 47] := rfl

theorem ToLower_gopher (caseTable : Str → Str) :
    ToLower caseTable [103, 111, 112, 104, 101, 114] = [103, 111, 112, 104, 101, 114] := by
  unfold ToLower
  rw [if_pos (by decide)]
  decide

theorem pathByte_facts (t : Nat) (h : shouldEscape t encodePath = false) :
    32 ≤ t ∧ t ≠ 127 ∧ t ≠ 35 ∧ t ≠ 37 ∧ t ≠ 63 ∧ t < 128 := by
  have hl1 : lit "-_.~" = [45, 95, 46, 126] := rfl
  have hl2 : lit "$&+,/:;=?@" = [36, 38, 43, 44, 47, 58, 59, 61, 63, 64] := rfl
  by_cases ha : isAlnum t = true
  · simp only [isAlnum, Bool.or_eq_true, Bool.and_eq_true, decide_eq_true_eq] at ha
    omega
  · by_cases h1 : t ∈ lit "-_.~"
    · rw [hl1] at h1
      simp only [List.mem_cons, List.mem_singleton, List.mem_nil_iff, or_false] at h1
      omega
    · by_cases h2 : t ∈ lit "$&+,/:;=?@"
      · rw [hl2] at h2
        simp only [List.mem_cons, List.mem_singleton, List.mem_nil_iff, or_false] at h2
        have h63 : t ≠ 63 := by
          rintro rfl
          exact absurd h (by decide)
        omega
      · exfalso
        unfold shouldEscape at h
        simp [ha, h1, h2] at h

/-! ## The canonical URI of a line, in general -/

theorem Index_some_head_mem (s sub : Str) (c : Nat) :
    ∀ i, Index s (c :: sub) = some i → c ∈ s := by
  induction s with
  | nil =>
    intro i h
    simp [Index] at h
  | cons d ds ih =>
    intro i h
    rw [Index_cons] at h
    by_cases hp : HasPrefix (d :: ds) (c :: sub) = true
    · have hd : c = d := by
        simp only [HasPrefix, List.isPrefixOf, Bool.and_eq_true, beq_iff_eq] at hp
        exact hp.1
      rw [hd]
      exact List.mem_cons_self _ _
    · rw [if_neg hp] at h
      cases hi : Index ds (c :: sub) with
      | none => simp [hi] at h
      | some j => exact List.mem_cons_of_mem _ (ih j hi)

theorem parseHost_of_no_percent (hp : Str) (h37 : 37 ∉ hp) :
    parseHost hp = none ∨ parseHost hp = unescape hp encodeHost := by
  unfold parseHost
  by_cases hb : HasPrefix hp (lit "[") = true
  · rw [if_pos hb]
    cases hl : LastIndex hp (lit "]") with
    | none => exact Or.inl rfl
    | some i =>
      simp only
      by_cases hv : validOptionalPort (hp.drop (i + 1)) = true
      · rw [hv]
        simp only [Bool.not_true, Bool.false_eq_true, if_false]
        cases hz : Index (hp.take i) (lit "%25") with
        | none => exact Or.inr rfl
        | some zone =>
          exfalso
          have hl25 : lit "%25" = 37 :: [50, 53] := rfl
          rw [hl25] at hz
          exact h37 (List.mem_of_mem_take (Index_some_head_mem _ _ 37 zone hz))
      · have hv2 : validOptionalPort (hp.drop (i + 1)) = false := by simpa using hv
        rw [hv2]
        exact Or.inl rfl
  · rw [if_neg hb]
    cases hl : LastIndex hp (lit ":") with
    | none => exact Or.inr rfl
    | some i =>
      simp only
      by_cases hv : validOptionalPort (hp.drop i) = true
      · rw [hv]
        exact Or.inr rfl
      · have hv2 : validOptionalPort (hp.drop i) = false := by simpa using hv
        rw [hv2]
        exact Or.inl rfl

theorem unescapeOK_host_inv (s : Str) (h37 : 37 ∉ s) (hascii : ∀ b ∈ s, b < 128)
    (hok : unescapeOK encodeHost s = true) : ∀ b ∈ s, shouldEscape b encodeHost = false := by
  induction s with
  | nil =>
    intro b hb
    cases hb
  | cons c cs ih =>
    have hc37 : c ≠ 37 := fun e => h37 (by simp [e])
    have hcs37 : 37 ∉ cs := fun e => h37 (by simp [e])
    have hcsa : ∀ b ∈ cs, b < 128 := fun b hb => hascii b (by simp [hb])
    unfold unescapeOK at hok
    rw [if_neg hc37] at hok
    by_cases h43 : c = 43
    · rw [if_pos h43] at hok
      intro b hb
      rw [List.mem_cons] at hb
      rcases hb with rfl | hb
      · rw [h43]
        decide
      · exact ih hcs37 hcsa hok b hb
    · rw [if_neg h43] at hok
      by_cases hbad : (encodeHost = encodeHost ∨ encodeHost = encodeZone) ∧ c < 128 ∧
          shouldEscape c encodeHost = true
      · rw [if_pos hbad] at hok
        cases hok
      · rw [if_neg hbad] at hok
        intro b hb
        rw [List.mem_cons] at hb
        rcases hb with rfl | hb
        · have hlt := hascii b (by simp)
          by_cases hs : shouldEscape b encodeHost = true
          · exact absurd ⟨Or.inl rfl, hlt, hs⟩ hbad
          · simpa using hs
        · exact ih hcs37 hcsa hok b hb

theorem unescape_host_inv (s h1 : Str) (h37 : 37 ∉ s) (hascii : ∀ b ∈ s, b < 128)
    (hu : unescape s encodeHost = some h1) :
    h1 = s ∧ ∀ b ∈ s, shouldEscape b encodeHost = false := by
  unfold unescape at hu
  by_cases hok : unescapeOK encodeHost s = true
  · rw [if_pos hok] at hu
    rw [unescapeBytes_of_no_percent s encodeHost (by simp) (fun b hb e => h37 (e ▸ hb))] at hu
    exact ⟨(Option.some.inj hu).symm, unescapeOK_host_inv s h37 hascii hok⟩
  · rw [if_neg hok] at hu
    cases hu

theorem parseAuthority_no_at (hp : Str) (h64 : 64 ∉ hp) :
    parseAuthority hp = (parseHost hp).map (fun h => (none, h)) := by
  have hl : lit "@" = [64] := rfl
  unfold parseAuthority
  rw [hl, LastIndex_singleton_none _ 64 h64]
  cases parseHost hp <;> rfl

theorem Parse_gopher_eq (caseTable : Str → Str) (hp q : Str)
    (hhp : ∀ b ∈ hp, b ≠ 35 ∧ b ≠ 47 ∧ b ≠ 63 ∧ b ≠ 64) (hq : ∀ b ∈ q, b ≠ 35 ∧ b ≠ 63) :
    Parse caseTable (lit "gopher://" ++ hp ++ 47 :: q) =
      if stringContainsCTLByte (lit "gopher://" ++ hp ++ 47 :: q) = true then none
      else
        match parseHost hp with
        | none => none
        | some h1 =>
          match unescape (47 :: q) encodePath with
          | none => none
          | some p =>
            some { Scheme := [103, 111, 112, 104, 101, 114], Host := h1, Path := p,
                   RawPath := if 47 :: q = escape p encodePath then [] else 47 :: q } := by
  have hrest : ∀ b ∈ hp ++ 47 :: q, b ≠ 35 ∧ b ≠ 63 := by
    intro b hb
    rw [List.mem_append, List.mem_cons] at hb
    rcases hb with hb | rfl | hb
    · exact ⟨(hhp b hb).1, (hhp b hb).2.2.1⟩
    · omega
    · exact hq b hb
  have hhash : 35 ∉ lit "gopher://" ++ hp ++ 47 :: q := by
    rw [lit_gopher]
    intro hm
    rw [List.append_assoc, List.mem_append] at hm
    rcases hm with hm | hm
    · exact absurd hm (by decide)
    · exact (hrest 35 hm).1 rfl
  have hl : lit "#" = [35] := rfl
  unfold Parse
  rw [hl, Cut_singleton_none _ 35 hhash]
  simp only [if_true]
  unfold parse
  by_cases hctl : stringContainsCTLByte (lit "gopher://" ++ hp ++ 47 :: q) = true
  · rw [if_pos hctl, if_pos hctl]
  · rw [if_neg hctl, if_neg hctl]
    have hstar : lit "gopher://" ++ hp ++ 47 :: q ≠ lit "*" := by
      rw [lit_gopher]
      intro he
      have := congrArg List.head? he
      simp at this
      exact absurd this (by decide)
    have hsch : getScheme (lit "gopher://" ++ hp ++ 47 :: q) =
        some ([103, 111, 112, 104, 101, 114], 47 :: 47 :: (hp ++ 47 :: q)) := by
      rw [lit_gopher]
      simp [getScheme, getSchemeFrom]
    have hqm : 63 ∉ 47 :: 47 :: (hp ++ 47 :: q) := by
      intro hm
      simp only [List.mem_cons] at hm
      rcases hm with hm | hm | hm
      · omega
      · omega
      · exact (hrest 63 (by simpa using hm)).2 rfl
    have hcount : Count (47 :: 47 :: (hp ++ 47 :: q)) 63 = 0 := by
      unfold Count
      exact List.count_eq_zero.mpr hqm
    have hlq : lit "?" = [63] := rfl
    have hcut := Cut_singleton_none _ 63 hqm
    have hslash : 47 ∉ hp := fun hm => (hhp 47 hm).2.1 rfl
    have hat : 64 ∉ hp := fun hm => (hhp 64 hm).2.2.2 rfl
    have hidx := Index_append_singleton hp q 47 hslash
    have hl1 : lit "/" = [47] := rfl
    have hl2 : lit "//" = [47, 47] := rfl
    have hl3 : lit "///" = [47, 47, 47] := rfl
    rw [if_neg hstar, hsch]
    have h01 : ¬ ((0 : Nat) = 1) := by decide
    simp only [hcount, hlq, hcut, hl1, hl2, hl3, ToLower_gopher, HasPrefix, List.isPrefixOf, h01,
      and_false, if_false, Bool.false_eq_true, beq_self_eq_true, Bool.true_and, Bool.not_true,
      false_and, List.drop_succ_cons, List.drop_zero, hidx, List.take_left, List.drop_left,
      parseAuthority_no_at hp hat, URL.setPath]
    have hsn : ([103, 111, 112, 104, 101, 114] : Str) ≠ [] := by decide
    rw [if_pos ⟨Or.inl hsn, trivial⟩]
    cases parseHost hp with
    | none => rfl
    | some h1 =>
      simp only [Option.map_some']
      cases unescape (47 :: q) encodePath <;> rfl

theorem unescapeBytes_path_cons (c : Nat) (s : Str) (hc : c ≠ 37) :
    unescapeBytes encodePath (c :: s) = c :: unescapeBytes encodePath s := by
  conv_lhs => unfold unescapeBytes
  rw [if_neg hc, if_neg (fun hh => absurd hh.2 (by decide))]

theorem selectorText_cons (c : Nat) (s : Str) (hc : shouldEscape c encodePath = false) :
    selectorText (c :: s) = c :: selectorText s := by
  have h37 : c ≠ 37 := (pathByte_facts c hc).2.2.2.1
  unfold selectorText
  rw [validEncoded_cons, hc, unescapeBytes_path_cons c s h37,
    escape_cons_plain c _ encodePath hc]
  simp only [Bool.not_false, Bool.or_true, Bool.true_and]
  by_cases hv : validEncoded s encodePath = true
  · rw [if_pos hv, if_pos hv]
  · rw [if_neg hv, if_neg hv]

theorem EscapedPath_gopher_general (u : URL) (q : Str)
    (hok : unescapeOK encodePath (47 :: q) = true)
    (hP : u.Path = unescapeBytes encodePath (47 :: q))
    (hR : u.RawPath =
      if 47 :: q = escape (unescapeBytes encodePath (47 :: q)) encodePath then []
      else 47 :: q) :
    u.EscapedPath = selectorText (47 :: q) := by
  have hun : unescape (47 :: q) encodePath = some (unescapeBytes encodePath (47 :: q)) := by
    unfold unescape
    rw [if_pos hok]
  have hstar : unescapeBytes encodePath (47 :: q) ≠ lit "*" := by
    rw [unescapeBytes_path_cons 47 q (by decide)]
    intro he
    have h2 : some 47 = (lit "*").head? := congrArg List.head? he
    exact absurd h2 (by decide)
  unfold URL.EscapedPath selectorText
  rw [hP, hR]
  by_cases hA : 47 :: q = escape (unescapeBytes encodePath (47 :: q)) encodePath
  · rw [if_pos hA]
    have h1 : ¬ (([] : Str) ≠ [] ∧ validEncoded [] encodePath = true ∧
        unescape [] encodePath = some (unescapeBytes encodePath (47 :: q))) :=
      fun hh => hh.1 rfl
    rw [if_neg h1, if_neg hstar, ← hA]
    simp
  · rw [if_neg hA]
    by_cases hv : validEncoded (47 :: q) encodePath = true
    · rw [if_pos ⟨List.cons_ne_nil _ _, hv, hun⟩, if_pos hv]
    · have h1 : ¬ ((47 :: q) ≠ [] ∧ validEncoded (47 :: q) encodePath = true ∧
          unescape (47 :: q) encodePath = some (unescapeBytes encodePath (47 :: q))) :=
        fun hh => hv hh.2.1
      rw [if_neg h1, if_neg hstar, if_neg hv]

theorem URL.String_gopher_general (hp q : Str) (hne : hp ≠ [])
    (hhp : ∀ b ∈ hp, shouldEscape b encodeHost = false)
    (hok : unescapeOK encodePath (47 :: q) = true) :
    URL.String { Scheme := [103, 111, 112, 104, 101, 114], Host := hp,
                 Path := unescapeBytes encodePath (47 :: q),
                 RawPath :=
                   if 47 :: q = escape (unescapeBytes encodePath (47 :: q)) encodePath then []
                   else 47 :: q } =
      lit "gopher://" ++ hp ++ 47 :: selectorText q := by
  have hE := EscapedPath_gopher_general
    { Scheme := [103, 111, 112, 104, 101, 114], Host := hp,
      Path := unescapeBytes encodePath (47 :: q),
      RawPath :=
        if 47 :: q = escape (unescapeBytes encodePath (47 :: q)) encodePath then []
        else 47 :: q }
    q hok rfl rfl
  rw [selectorText_cons 47 q (by decide)] at hE
  have hsn : ([103, 111, 112, 104, 101, 114] : Str) ≠ [] := by decide
  have hl1 : lit ":" = [58] := rfl
  have hl2 : lit "//" = [47, 47] := rfl
  unfold URL.String
  simp only [hE, hsn, hne, escape_of_plain hp encodeHost hhp, lit_gopher, hl1, hl2,
    ne_eq, not_false_eq_true, not_true_eq_false, if_true, if_false, true_or, or_true, or_false,
    false_or, and_false, false_and, and_true, true_and, Option.isSome_none, Option.isNone_none,
    Bool.false_eq_true, List.append_nil, List.append_assoc, List.cons_append, List.nil_append,
    List.append_eq_nil, List.cons_ne_nil, List.head?_cons, reduceCtorEq]

theorem unescapeOK_path_cons (c : Nat) (s : Str) (hc : c ≠ 37) :
    unescapeOK encodePath (c :: s) = unescapeOK encodePath s := by
  conv_lhs => unfold unescapeOK
  rw [if_neg hc]
  by_cases h43 : c = 43
  · rw [if_pos h43]
  · rw [if_neg h43, if_neg (fun hh => by rcases hh.1 with h | h <;> cases h)]

theorem hostByte_facts (b : Nat) (h : shouldEscape b encodeHost = false) :
    32 ≤ b ∧ b < 127 ∧ b ≠ 35 ∧ b ≠ 37 ∧ b ≠ 47 ∧ b ≠ 63 ∧ b ≠ 64 := by
  have hl0 : lit "!$&'()*+,;=:[]<>\"" =
      [33, 36, 38, 39, 40, 41, 42, 43, 44, 59, 61, 58, 91, 93, 60, 62, 34] := rfl
  have hl1 : lit "-_.~" = [45, 95, 46, 126] := rfl
  have hl2 : lit "$&+,/:;=?@" = [36, 38, 43, 44, 47, 58, 59, 61, 63, 64] := rfl
  by_cases ha : isAlnum b = true
  · simp only [isAlnum, Bool.or_eq_true, Bool.and_eq_true, decide_eq_true_eq] at ha
    omega
  · by_cases h0 : b ∈ lit "!$&'()*+,;=:[]<>\""
    · rw [hl0] at h0
      simp only [List.mem_cons, List.mem_singleton, List.mem_nil_iff, or_false] at h0
      omega
    · by_cases h1 : b ∈ lit "-_.~"
      · rw [hl1] at h1
        simp only [List.mem_cons, List.mem_singleton, List.mem_nil_iff, or_false] at h1
        omega
      · exfalso
        unfold shouldEscape at h
        by_cases h2 : b ∈ lit "$&+,/:;=?@"
        · simp [ha, h0, h1, h2] at h
        · simp [ha, h0, h1, h2] at h

theorem asciiLower_mem (s : Str) (b : Nat) (hb : b ∈ asciiLower s) :
    ∃ a ∈ s, b = a ∨ (65 ≤ a ∧ a ≤ 90 ∧ b = a + 32) := by
  unfold asciiLower at hb
  obtain ⟨a, ha, rfl⟩ := List.mem_map.mp hb
  refine ⟨a, ha, ?_⟩
  by_cases hu : 65 ≤ a ∧ a ≤ 90
  · rw [if_pos hu]
    exact Or.inr ⟨hu.1, hu.2, rfl⟩
  · rw [if_neg hu]
    exact Or.inl rfl

/-- The text of `host:port` in the URI, for fields of ASCII bytes. -/
theorem Host.String_ascii (caseTable : Str → Str) (h : Host)
    (hascii : ∀ b ∈ h.Hostname ++ h.Port, b < 128) :
    h.String caseTable =
      (if 58 ∈ h.Hostname then lit "[" ++ asciiLower h.Hostname ++ lit "]"
        else asciiLower h.Hostname) ++ lit ":" ++ asciiLower h.Port := by
  have hl1 : lit ":" = [58] := rfl
  have hl2 : lit "[" = [91] := rfl
  have hl3 : lit "]" = [93] := rfl
  have hl4 : lit "]:" = [93, 58] := rfl
  unfold Host.String JoinHostPort ToLower
  by_cases hc : 58 ∈ h.Hostname
  · rw [if_pos hc, if_pos hc, hl1, hl2, hl3, hl4]
    have hall : ([91] ++ h.Hostname ++ [93, 58] ++ h.Port).all (fun c => decide (c < 128))
        = true := by
      rw [List.all_eq_true]
      intro b hb
      simp only [List.mem_append, List.mem_cons, List.mem_singleton, List.mem_nil_iff,
        or_false] at hb
      simp only [decide_eq_true_eq]
      rcases hb with ((rfl | hb) | rfl | rfl) | hb
      · omega
      · exact hascii b (List.mem_append_left _ hb)
      · omega
      · omega
      · exact hascii b (List.mem_append_right _ hb)
    rw [if_pos hall, asciiLower_append, asciiLower_append, asciiLower_append]
    simp [asciiLower]
  · rw [if_neg hc, if_neg hc, hl1]
    have hall : (h.Hostname ++ [58] ++ h.Port).all (fun c => decide (c < 128)) = true := by
      rw [List.all_eq_true]
      intro b hb
      simp only [List.mem_append, List.mem_singleton] at hb
      simp only [decide_eq_true_eq]
      rcases hb with (hb | rfl) | hb
      · exact hascii b (List.mem_append_left _ hb)
      · omega
      · exact hascii b (List.mem_append_right _ hb)
    rw [if_pos hall, asciiLower_append, asciiLower_append]
    simp [asciiLower]

/-- What a byte of the text of `host:port` satisfies when the fields hold ASCII bytes and
none of `%`, `/`, `?`, `#`, `@`. -/
theorem hostport_facts (host port : Str)
    (hh : ∀ b ∈ host ++ port, b < 128 ∧ b ≠ 37 ∧ b ≠ 47 ∧ b ≠ 63 ∧ b ≠ 35 ∧ b ≠ 64) :
    ∀ b ∈ (if 58 ∈ host then lit "[" ++ asciiLower host ++ lit "]" else asciiLower host)
        ++ lit ":" ++ asciiLower port,
      b < 128 ∧ b ≠ 37 ∧ b ≠ 47 ∧ b ≠ 63 ∧ b ≠ 35 ∧ b ≠ 64 := by
  have hl1 : lit ":" = [58] := rfl
  have hl2 : lit "[" = [91] := rfl
  have hl3 : lit "]" = [93] := rfl
  have hlow : ∀ s : Str, (∀ b ∈ s, b ∈ host ++ port) → ∀ b ∈ asciiLower s,
      b < 128 ∧ b ≠ 37 ∧ b ≠ 47 ∧ b ≠ 63 ∧ b ≠ 35 ∧ b ≠ 64 := by
    intro s hs b hb
    obtain ⟨a, ha, hab⟩ := asciiLower_mem s b hb
    have := hh a (hs a ha)
    rcases hab with rfl | ⟨h1, h2, rfl⟩
    · exact this
    · omega
  intro b hb
  rw [hl1, hl2, hl3] at hb
  rw [List.mem_append, List.mem_append] at hb
  rcases hb with (hb | hb) | hb
  · by_cases hc : 58 ∈ host
    · rw [if_pos hc] at hb
      simp only [List.mem_append, List.mem_singleton] at hb
      rcases hb with (rfl | hb) | rfl
      · omega
      · exact hlow host (fun b hb => List.mem_append_left _ hb) b hb
      · omega
    · rw [if_neg hc] at hb
      exact hlow host (fun b hb => List.mem_append_left _ hb) b hb
  · rw [List.mem_singleton] at hb
    omega
  · exact hlow port (fun b hb => List.mem_append_right _ hb) b hb

/-- What `Resource.String` does for a resource whose host and port hold ASCII bytes and
none of `%`, `/`, `?`, `#`, `@`, whose type byte a path does not escape and whose selector
holds neither `?` nor `#`: it panics when `url.Parse` finds a control byte, rejects the
host or rejects an escape of the selector, and gives the URI otherwise. -/
theorem String_of_resource_eq (caseTable : Str → Str) (r : Resource)
    (hhost : ∀ b ∈ r.Host.Hostname ++ r.Host.Port,
      b < 128 ∧ b ≠ 37 ∧ b ≠ 47 ∧ b ≠ 63 ∧ b ≠ 35 ∧ b ≠ 64)
    (htype : shouldEscape r.Typ encodePath = false)
    (hsel : ∀ b ∈ r.Selector, b ≠ 35 ∧ b ≠ 63) :
    r.String caseTable =
      if stringContainsCTLByte (lit "gopher://" ++ r.Host.String caseTable ++
          47 :: r.Typ :: (if r.Selector = lit "/" then [] else r.Selector)) = true then none
      else
        match parseHost (r.Host.String caseTable) with
        | none => none
        | some _ =>
          if unescapeOK encodePath (if r.Selector = lit "/" then [] else r.Selector) = true then
            some (lit "gopher://" ++ r.Host.String caseTable ++
              47 :: r.Typ :: selectorText (if r.Selector = lit "/" then [] else r.Selector))
          else none := by
  have ht := pathByte_facts r.Typ htype
  have hts : ItemType.String r.Typ = [r.Typ] := by
    unfold ItemType.String
    rw [if_pos ht.2.2.2.2.2]
  have hpf : ∀ b ∈ r.Host.String caseTable,
      b < 128 ∧ b ≠ 37 ∧ b ≠ 47 ∧ b ≠ 63 ∧ b ≠ 35 ∧ b ≠ 64 := by
    rw [Host.String_ascii caseTable r.Host (fun b hb => (hhost b hb).1)]
    exact hostport_facts _ _ hhost
  have hpne : r.Host.String caseTable ≠ [] := by
    rw [Host.String_ascii caseTable r.Host (fun b hb => (hhost b hb).1)]
    have hl1 : lit ":" = [58] := rfl
    rw [hl1]
    simp
  unfold Resource.String
  simp only []
  generalize r.Host.String caseTable = hp at hpf hpne ⊢
  have hsel2 : ∀ b ∈ (if r.Selector = lit "/" then [] else r.Selector), b ≠ 35 ∧ b ≠ 63 := by
    intro b hb
    by_cases hs : r.Selector = lit "/"
    · rw [if_pos hs] at hb
      cases hb
    · rw [if_neg hs] at hb
      exact hsel b hb
  generalize (if r.Selector = lit "/" then [] else r.Selector) = s at hsel2 ⊢
  have hq : ∀ b ∈ r.Typ :: s, b ≠ 35 ∧ b ≠ 63 := by
    intro b hb
    rw [List.mem_cons] at hb
    rcases hb with rfl | hb
    · exact ⟨ht.2.2.1, ht.2.2.2.2.1⟩
    · exact hsel2 b hb
  have hl1 : lit "/" = [47] := rfl
  have hraw : lit "gopher://" ++ hp ++ lit "/" ++ ItemType.String r.Typ ++ s =
      lit "gopher://" ++ hp ++ 47 :: r.Typ :: s := by
    rw [hts, hl1]
    simp
  rw [hraw, Parse_gopher_eq caseTable hp (r.Typ :: s)
    (fun b hb => ⟨(hpf b hb).2.2.2.2.1, (hpf b hb).2.2.1, (hpf b hb).2.2.2.1,
      (hpf b hb).2.2.2.2.2⟩) hq]
  by_cases hctl : stringContainsCTLByte (lit "gopher://" ++ hp ++ 47 :: r.Typ :: s) = true
  · rw [if_pos hctl, if_pos hctl]
    rfl
  · rw [if_neg hctl, if_neg hctl]
    have h37 : 37 ∉ hp := fun hm => (hpf 37 hm).2.1 rfl
    cases hph : parseHost hp with
    | none => rfl
    | some h1 =>
      simp only
      have hu : unescape hp encodeHost = some h1 := by
        rcases parseHost_of_no_percent hp h37 with h | h
        · rw [h] at hph
          cases hph
        · rw [← h]
          exact hph
      obtain ⟨rfl, hclass⟩ := unescape_host_inv hp h1 h37 (fun b hb => (hpf b hb).1) hu
      have hoks : unescapeOK encodePath (47 :: r.Typ :: s) = unescapeOK encodePath s := by
        rw [unescapeOK_path_cons 47 _ (by decide), unescapeOK_path_cons r.Typ _ ht.2.2.2.1]
      by_cases hok : unescapeOK encodePath s = true
      · have hok2 : unescapeOK encodePath (47 :: r.Typ :: s) = true := by
          rw [hoks]
          exact hok
        have hun : unescape (47 :: r.Typ :: s) encodePath =
            some (unescapeBytes encodePath (47 :: r.Typ :: s)) := by
          unfold unescape
          rw [if_pos hok2]
        rw [hun, if_pos hok]
        simp only [Option.map_some']
        rw [URL.String_gopher_general h1 (r.Typ :: s) hpne hclass hok2,
          selectorText_cons r.Typ s htype]
      · have hok2 : ¬ unescapeOK encodePath (47 :: r.Typ :: s) = true := by
          rw [hoks]
          exact hok
        have hun : unescape (47 :: r.Typ :: s) encodePath = none := by
          unfold unescape
          rw [if_neg hok2]
        rw [hun, if_neg hok]
        rfl

theorem parseHost_of_host_bytes (h port : Str) (hne : h ≠ [])
    (hh : ∀ b ∈ h, shouldEscape b encodeHost = false ∧ b ≠ 58 ∧ b ≠ 91)
    (hp : ∀ b ∈ port, 48 ≤ b ∧ b ≤ 57) :
    parseHost (h ++ 58 :: port) = some (h ++ 58 :: port) := by
  have hbr : HasPrefix (h ++ 58 :: port) (lit "[") = false := by
    cases h with
    | nil => exact absurd rfl hne
    | cons c cs =>
      have hc : c ≠ 91 := (hh c (by simp)).2.2
      have hl : lit "[" = [91] := rfl
      simp [HasPrefix, hl, List.isPrefixOf, Ne.symm hc]
  have hcolon : 58 ∉ port := by
    intro hm
    have := hp 58 hm
    omega
  have hl : lit ":" = [58] := rfl
  have hvalid : validOptionalPort (58 :: port) = true := by
    simp only [validOptionalPort, decide_True, Bool.true_and, List.all_eq_true,
      Bool.and_eq_true, decide_eq_true_eq]
    exact hp
  have hall : ∀ b ∈ h ++ 58 :: port, b ≠ 37 ∧ shouldEscape b encodeHost = false := by
    intro b hb
    rw [List.mem_append, List.mem_cons] at hb
    rcases hb with hb | rfl | hb
    · exact ⟨(hostByte_facts b (hh b hb).1).2.2.2.1, (hh b hb).1⟩
    · decide
    · have hd := plainHostByte_facts b (digit_plain b (hp b hb))
      exact ⟨hd.2.2.2.1, hd.2.2.2.2.2.2.2.2.2⟩
  unfold parseHost
  rw [hbr, hl, LastIndex_append_singleton h port 58 hcolon]
  simp only [Bool.false_eq_true, if_false, List.drop_left, hvalid, Bool.not_true]
  exact unescape_host_of_plain _ hall

theorem asciiLower_host_bytes (s : Str)
    (h : ∀ b ∈ s, shouldEscape b encodeHost = false ∧ b ≠ 58 ∧ b ≠ 91) :
    ∀ b ∈ asciiLower s, shouldEscape b encodeHost = false ∧ b ≠ 58 ∧ b ≠ 91 := by
  intro b hb
  obtain ⟨a, ha, hab⟩ := asciiLower_mem s b hb
  rcases hab with rfl | ⟨h1, h2, rfl⟩
  · exact h b ha
  · have : isAlnum (a + 32) = true := by
      simp only [isAlnum, Bool.or_eq_true, Bool.and_eq_true, decide_eq_true_eq]
      omega
    refine ⟨by simp [shouldEscape, this], by omega, by omega⟩

/-- Both halves of what holds of the canonical string of a valid line: what it is when
`Resource.String` returns, and a condition under which `Resource.String` does return. -/
theorem canonical_uri_general (caseTable : Str → Str) (line : Str) (h : SixRules line)
    (hhp : ∀ b ∈ (Split line 9).getD 2 [] ++ (Split line 9).getD 3 [],
      b < 128 ∧ b ∉ lit "%/?#@")
    (htype : shouldEscape (((Split line 9).getD 0 []).headD 0) encodePath = false)
    (hsel : 63 ∉ (Split line 9).getD 1 [] ∧ 35 ∉ (Split line 9).getD 1 []) :
    ∃ r, NewResourceFromGopherLine line = Except.ok r ∧
      (∀ k, r.String caseTable = some k → k = canonicalURI line) ∧
      ((∀ b ∈ (Split line 9).getD 2 [], shouldEscape b encodeHost = false ∧ b ∉ lit ":[]") →
        (∀ b ∈ (Split line 9).getD 3 [], 48 ≤ b ∧ b ≤ 57) →
        (∀ b ∈ (Split line 9).getD 1 [], 32 ≤ b ∧ b ≠ 127) →
        unescapeOK encodePath ((Split line 9).getD 1 []) = true →
        r.String caseTable = some (canonicalURI line)) := by
  refine ⟨_, by rw [NewResourceFromGopherLine_eq, if_pos h], ?_⟩
  have hne : (Split line 9).getD 2 [] ≠ [] := h.2.1.1
  unfold canonicalURI
  generalize (Split line 9).getD 2 [] = host at hhp hne ⊢
  generalize (Split line 9).getD 3 [] = port at hhp ⊢
  generalize (Split line 9).getD 1 [] = sel at hsel ⊢
  generalize ((Split line 9).getD 0 []).headD 0 = t at htype ⊢
  have hl5 : lit "%/?#@" = [37, 47, 63, 35, 64] := rfl
  have hhp2 : ∀ b ∈ host ++ port, b < 128 ∧ b ≠ 37 ∧ b ≠ 47 ∧ b ≠ 63 ∧ b ≠ 35 ∧ b ≠ 64 := by
    intro b hb
    have := hhp b hb
    rw [hl5] at this
    simp only [List.mem_cons, List.mem_singleton, List.mem_nil_iff, or_false, not_or] at this
    exact ⟨this.1, this.2.1, this.2.2.1, this.2.2.2.1, this.2.2.2.2.1, this.2.2.2.2.2⟩
  have hsel2 : ∀ b ∈ sel, b ≠ 35 ∧ b ≠ 63 :=
    fun b hb => ⟨fun e => hsel.2 (e ▸ hb), fun e => hsel.1 (e ▸ hb)⟩
  have heq := String_of_resource_eq caseTable ⟨⟨host, port⟩, t, sel⟩ hhp2 htype hsel2
  have hcanon : lit "gopher://" ++ Host.String caseTable ⟨host, port⟩ ++
      47 :: t :: selectorText (if sel = lit "/" then [] else sel) =
      lit "gopher://" ++
        (if 58 ∈ host then lit "[" ++ asciiLower host ++ lit "]" else asciiLower host) ++
        lit ":" ++ asciiLower port ++ lit "/" ++ [t] ++
        selectorText (if sel = lit "/" then [] else sel) := by
    rw [Host.String_ascii caseTable ⟨host, port⟩ (fun b hb => (hhp2 b hb).1)]
    have hl1 : lit "/" = [47] := rfl
    rw [hl1]
    simp only [List.append_assoc, List.cons_append, List.nil_append]
  simp only at heq
  rw [hcanon] at heq
  have hs_ctl : (∀ b ∈ sel, 32 ≤ b ∧ b ≠ 127) →
      ∀ b ∈ (if sel = lit "/" then [] else sel), 32 ≤ b ∧ b ≠ 127 := by
    intro hctl b hb
    by_cases hs : sel = lit "/"
    · rw [if_pos hs] at hb
      cases hb
    · rw [if_neg hs] at hb
      exact hctl b hb
  have hs_ok : unescapeOK encodePath sel = true →
      unescapeOK encodePath (if sel = lit "/" then [] else sel) = true := by
    intro hok
    by_cases hs : sel = lit "/"
    · rw [if_pos hs]
      rfl
    · rw [if_neg hs]
      exact hok
  generalize (if sel = lit "/" then [] else sel) = s at heq hs_ctl hs_ok ⊢
  constructor
  · intro k hk
    rw [heq] at hk
    by_cases hctl : stringContainsCTLByte
        (lit "gopher://" ++ Host.String caseTable ⟨host, port⟩ ++ 47 :: t :: s) = true
    · rw [if_pos hctl] at hk
      cases hk
    · rw [if_neg hctl] at hk
      cases hph : parseHost (Host.String caseTable ⟨host, port⟩) with
      | none =>
        rw [hph] at hk
        cases hk
      | some h1 =>
        rw [hph] at hk
        simp only at hk
        by_cases hok : unescapeOK encodePath s = true
        · rw [if_pos hok] at hk
          exact (Option.some.inj hk).symm
        · rw [if_neg hok] at hk
          cases hk
  · intro hhost hport hctl hok
    have hl3 : lit ":[]" = [58, 91, 93] := rfl
    have hhost2 : ∀ b ∈ host, shouldEscape b encodeHost = false ∧ b ≠ 58 ∧ b ≠ 91 := by
      intro b hb
      have := (hhost b hb).2
      rw [hl3] at this
      simp only [List.mem_cons, List.mem_singleton, List.mem_nil_iff, or_false, not_or] at this
      exact ⟨(hhost b hb).1, this.1, this.2.1⟩
    have hcolon : 58 ∉ host := fun hm => (hhost2 58 hm).2.1 rfl
    have hlow := asciiLower_host_bytes host hhost2
    have hlne : asciiLower host ≠ [] := by
      unfold asciiLower
      intro he
      exact hne (List.map_eq_nil_iff.mp he)
    have hhs : Host.String caseTable ⟨host, port⟩ = asciiLower host ++ 58 :: port := by
      rw [Host.String_ascii caseTable ⟨host, port⟩ (fun b hb => (hhp2 b hb).1)]
      have hl1 : lit ":" = [58] := rfl
      simp only [if_neg hcolon, asciiLower_digits port hport, hl1, List.append_assoc,
        List.singleton_append]
    have hph := parseHost_of_host_bytes (asciiLower host) port hlne hlow hport
    have hsel3 := hs_ctl hctl
    have hok2 := hs_ok hok
    have hnoctl : ¬ stringContainsCTLByte (lit "gopher://" ++ (asciiLower host ++ 58 :: port) ++
        47 :: t :: s) = true := by
      rw [lit_gopher]
      unfold stringContainsCTLByte
      rw [List.any_eq_true]
      rintro ⟨b, hb, hbad⟩
      simp only [Bool.or_eq_true, decide_eq_true_eq] at hbad
      rw [List.append_assoc, List.mem_append] at hb
      rcases hb with hb | hb
      · simp only [List.mem_cons, List.mem_singleton, List.mem_nil_iff, or_false] at hb
        omega
      · rw [List.mem_append, List.mem_append] at hb
        rcases hb with (hb | hb) | hb
        · have := hostByte_facts b (hlow b hb).1
          omega
        · rw [List.mem_cons] at hb
          rcases hb with rfl | hb
          · omega
          · have := hport b hb
            omega
        · rw [List.mem_cons, List.mem_cons] at hb
          rcases hb with rfl | rfl | hb
          · omega
          · have := pathByte_facts b htype
            omega
          · have := hsel3 b hb
            omega
    rw [heq, hhs, if_neg hnoctl, hph]
    simp only [hok2, if_true]

/-- The canonical string is produced, and is the canonical URI, for a line that satisfies
the six validity rules, whose host holds only bytes a URL host holds unescaped and none of
`:`, `[`, `]`, whose port is decimal, whose type byte is one a URL path never escapes, and
whose selector has no control byte, no `?`, no `#`, and two hex digits after every `%`. -/
theorem canonical_uri_is_produced (caseTable : Str → Str) (line : Str) (h : SixRules line)
    (hhost : ∀ b ∈ (Split line 9).getD 2 [], shouldEscape b encodeHost = false ∧ b ∉ lit ":[]")
    (hport : ∀ b ∈ (Split line 9).getD 3 [], 48 ≤ b ∧ b ≤ 57)
    (htype : shouldEscape (((Split line 9).getD 0 []).headD 0) encodePath = false)
    (hsel : ∀ b ∈ (Split line 9).getD 1 [], 32 ≤ b ∧ b ≠ 127 ∧ b ≠ 35 ∧ b ≠ 63)
    (hok : unescapeOK encodePath ((Split line 9).getD 1 []) = true) :
    lineString caseTable line = some (canonicalURI line) := by
  have hl5 : lit "%/?#@" = [37, 47, 63, 35, 64] := rfl
  have hhp : ∀ b ∈ (Split line 9).getD 2 [] ++ (Split line 9).getD 3 [],
      b < 128 ∧ b ∉ lit "%/?#@" := by
    intro b hb
    rw [hl5]
    simp only [List.mem_cons, List.mem_singleton, List.mem_nil_iff, or_false, not_or]
    rw [List.mem_append] at hb
    rcases hb with hb | hb
    · have := hostByte_facts b (hhost b hb).1
      omega
    · have := hport b hb
      omega
  obtain ⟨r, hr, -, hB⟩ := canonical_uri_general caseTable line h hhp htype
    ⟨fun hm => (hsel 63 hm).2.2.2 rfl, fun hm => (hsel 35 hm).2.2.1 rfl⟩
  unfold lineString
  rw [hr]
  exact hB hhost hport (fun b hb => ⟨(hsel b hb).1, (hsel b hb).2.1⟩) hok

/-- The error of `url.Parse` that `Resource.String` drops: these lines satisfy the six
rules, but `url.Parse` rejects the text (an escape that is no escape, a port that is no
number, a control byte, a byte a host may not hold), so that `String` of the parsed resource
panics. -/
theorem String_panics_on_valid_lines :
    (SixRules (lit "1Sale\t100%\thost\t70") ∧
      lineString noCaseTable (lit "1Sale\t100%\thost\t70") = none) ∧
    (SixRules (lit "1x\ta\ta^b\t70") ∧
      lineString noCaseTable (lit "1x\ta\ta^b\t70") = none) ∧
    (SixRules (lit "1x\ta\thost\t7a") ∧
      lineString noCaseTable (lit "1x\ta\thost\t7a") = none) ∧
    (SixRules (lit "1x\ta" ++ [7] ++ lit "\thost\t70") ∧
      lineString noCaseTable (lit "1x\ta" ++ [7] ++ lit "\thost\t70") = none) := by
  refine ⟨?_, ?_, ?_, ?_⟩ <;> decide

/-- The error of `url.Parse` that `Resource.String` drops: the line `1<TAB>%zz<TAB>host<TAB>70`
satisfies the six rules, but `url.Parse` rejects the escape `%zz`, so that `String` of the
parsed resource panics, and with it `QueueJob`. -/
theorem Resource.String_panics_on_bad_escape :
    SixRules (lit "1\t%zz\thost\t70") ∧
    ∃ r, NewResourceFromGopherLine (lit "1\t%zz\thost\t70") = Except.ok r ∧
      r.String noCaseTable = none ∧ NewCoordinator.QueueJob noCaseTable r = none := by
  refine ⟨by decide, _, rfl, by decide, by decide⟩

/-! ## The selector `/`, and the keys of hosts -/

theorem QueueJob_key_known_after (caseTable : Str → Str) (c c1 : Coordinator) (r : Resource)
    (e : Option QueueError) (h : c.QueueJob caseTable r = some (c1, e)) :
    ∃ k, r.String caseTable = some k ∧
      (k ∈ c1.queued ∨ c1.active.at k = true ∨ c1.finished.at k = true) := by
  unfold Coordinator.QueueJob at h
  cases hk : r.String caseTable with
  | none => simp [hk] at h
  | some k =>
    rw [hk] at h
    simp only at h
    refine ⟨k, rfl, ?_⟩
    by_cases hq : k ∈ c.queued
    · simp [hq] at h
      rw [← h.1]
      exact Or.inl hq
    · by_cases ha : c.active.at k = true
      · simp [hq, ha] at h
        rw [← h.1]
        exact Or.inr (Or.inl ha)
      · by_cases hf : c.finished.at k = true
        · simp [hq, ha, hf] at h
          rw [← h.1]
          exact Or.inr (Or.inr hf)
        · simp [hq, ha, hf] at h
          rw [← h.1]
          exact Or.inl (by simp [AList.mem_insert])

theorem QueueJob_error_of_known (caseTable : Str → Str) (c : Coordinator) (r : Resource)
    (k : Str) (hk : r.String caseTable = some k)
    (hin : k ∈ c.queued ∨ c.active.at k = true ∨ c.finished.at k = true) :
    ∃ e, c.QueueJob caseTable r = some (c, some e) := by
  unfold Coordinator.QueueJob
  rw [hk]
  by_cases hq : k ∈ c.queued
  · exact ⟨QueueError.alreadyQueued, by simp [hq]⟩
  · by_cases ha : c.active.at k = true
    · exact ⟨QueueError.alreadyCrawling, by simp [hq, ha]⟩
    · have hf : c.finished.at k = true := by
        rcases hin with h | h | h
        · exact absurd h hq
        · exact absurd h ha
        · exact h
      exact ⟨QueueError.alreadyCrawled, by simp [hq, ha, hf]⟩

theorem String_slash_eq_empty (caseTable : Str → Str) (h : Host) (t : ItemType) :
    Resource.String caseTable ⟨h, t, lit "/"⟩ = Resource.String caseTable ⟨h, t, []⟩ := by
  unfold Resource.String
  have h1 : ¬ (([] : Str) = lit "/") := by decide
  simp only [if_true, if_neg h1]

/-- C11: for every host and item type the resource with the selector `/` and the one with
the empty selector have the same canonical string, and the coordinator treats them as the
same job: in every coordinator state, once `QueueJob` of one of them has returned,
`QueueJob` of the other returns an error and changes nothing. -/
theorem slash_selector_is_the_same_job (caseTable : Str → Str) (h : Host) (t : ItemType) :
    Resource.String caseTable ⟨h, t, lit "/"⟩ = Resource.String caseTable ⟨h, t, []⟩ ∧
    ∀ (c c1 : Coordinator) (e : Option QueueError),
      (c.QueueJob caseTable ⟨h, t, lit "/"⟩ = some (c1, e) →
        ∃ e2, c1.QueueJob caseTable ⟨h, t, []⟩ = some (c1, some e2)) ∧
      (c.QueueJob caseTable ⟨h, t, []⟩ = some (c1, e) →
        ∃ e2, c1.QueueJob caseTable ⟨h, t, lit "/"⟩ = some (c1, some e2)) := by
  have hs := String_slash_eq_empty caseTable h t
  refine ⟨hs, ?_⟩
  intro c c1 e
  constructor
  · intro hq
    obtain ⟨k, hk, hin⟩ := QueueJob_key_known_after caseTable c c1 _ e hq
    exact QueueJob_error_of_known caseTable c1 _ k (hs ▸ hk) hin
  · intro hq
    obtain ⟨k, hk, hin⟩ := QueueJob_key_known_after caseTable c c1 _ e hq
    exact QueueJob_error_of_known caseTable c1 _ k (hs ▸ hk) hin

/-- On a new coordinator the root of `localhost:70` with the selector `/` is queued, and
the same root with the empty selector is then refused. -/
theorem slash_selector_is_the_same_job_witness :
    NewCoordinator.QueueJob noCaseTable rootSlash = some (rootQueued, none) ∧
      ∃ e2, rootQueued.QueueJob noCaseTable rootEmpty = some (rootQueued, some e2) :=
  ⟨rfl,
    ((slash_selector_is_the_same_job noCaseTable ⟨lit "localhost", lit "70"⟩ 49).2
      NewCoordinator rootQueued none).1 rfl⟩

theorem asciiLower_not_upper (s : Str) : ∀ b ∈ asciiLower s, isUpper b = false := by
  intro b hb
  unfold asciiLower at hb
  obtain ⟨a, -, rfl⟩ := List.mem_map.mp hb
  by_cases hu : 65 ≤ a ∧ a ≤ 90
  · rw [if_pos hu]
    simp only [isUpper, Bool.and_eq_false_imp, decide_eq_true_eq, decide_eq_false_iff_not]
    omega
  · rw [if_neg hu]
    simp only [isUpper, Bool.and_eq_false_imp, decide_eq_true_eq, decide_eq_false_iff_not]
    omega

theorem asciiLower_all_ascii (s : Str) :
    (asciiLower s).all (fun c => decide (c < 128)) = s.all (fun c => decide (c < 128)) := by
  induction s with
  | nil => rfl
  | cons c cs ih =>
    have ih2 : (List.map (fun c => if 65 ≤ c ∧ c ≤ 90 then c + 32 else c) cs).all
        (fun c => decide (c < 128)) = cs.all (fun c => decide (c < 128)) := ih
    simp only [asciiLower, List.map_cons, List.all_cons, ih2]
    congr 1
    by_cases hu : 65 ≤ c ∧ c ≤ 90
    · rw [if_pos hu]
      simp only [decide_eq_decide]
      omega
    · rw [if_neg hu]

theorem asciiLower_mem_colon (s : Str) : 58 ∈ asciiLower s ↔ 58 ∈ s := by
  unfold asciiLower
  rw [List.mem_map]
  constructor
  · rintro ⟨a, ha, he⟩
    by_cases hu : 65 ≤ a ∧ a ≤ 90
    · rw [if_pos hu] at he
      omega
    · rw [if_neg hu] at he
      rw [← he]
      exact ha
  · intro h
    exact ⟨58, h, by decide⟩

theorem ToLower_not_upper (caseTable : Str → Str) (hT : LowerTable caseTable) (s : Str) :
    ∀ b ∈ ToLower caseTable s, isUpper b = false := by
  unfold ToLower
  by_cases ha : s.all (fun c => decide (c < 128)) = true
  · rw [if_pos ha]
    exact asciiLower_not_upper s
  · rw [if_neg ha]
    exact hT.1 s

theorem ToLower_congr (caseTable : Str → Str) (hT : LowerTable caseTable) (s1 s2 : Str)
    (h : asciiLower s1 = asciiLower s2) : ToLower caseTable s1 = ToLower caseTable s2 := by
  have hall : s1.all (fun c => decide (c < 128)) = s2.all (fun c => decide (c < 128)) := by
    rw [← asciiLower_all_ascii s1, ← asciiLower_all_ascii s2, h]
  unfold ToLower
  rw [hall]
  by_cases ha : s2.all (fun c => decide (c < 128)) = true
  · rw [if_pos ha, if_pos ha, h]
  · rw [if_neg ha, if_neg ha]
    exact hT.2 s1 s2 h

theorem asciiLower_JoinHostPort (h1 p1 h2 p2 : Str) (hh : asciiLower h1 = asciiLower h2)
    (hp : asciiLower p1 = asciiLower p2) :
    asciiLower (JoinHostPort h1 p1) = asciiLower (JoinHostPort h2 p2) := by
  have hc : 58 ∈ h1 ↔ 58 ∈ h2 := by
    rw [← asciiLower_mem_colon h1, ← asciiLower_mem_colon h2, hh]
  unfold JoinHostPort
  by_cases h58 : 58 ∈ h2
  · rw [if_pos h58, if_pos (hc.mpr h58)]
    simp only [asciiLower_append, hh, hp]
  · rw [if_neg h58, if_neg (fun hm => h58 (hc.mp hm))]
    simp only [asciiLower_append, hh, hp]

theorem asciiCaseTable_lowerTable : LowerTable asciiCaseTable :=
  ⟨asciiLower_not_upper, fun _ _ h => h⟩

/-- C12: the key of a host is the lower-cased text `hostname:port`, with the host name in
square brackets when it contains a colon (so `::1`, `70` gives `[::1]:70`); the key holds no
upper-case ASCII letter, and two hosts that differ only in the case of letters of host name
or port have the same key. The lowering of text with non-ASCII bytes, whose Unicode tables
are a parameter, is taken to satisfy `LowerTable`. -/
theorem Host_String_is_lowered_host_port (caseTable : Str → Str) (hT : LowerTable caseTable)
    (h : Host) :
    h.String caseTable =
      ToLower caseTable
        ((if 58 ∈ h.Hostname then lit "[" ++ h.Hostname ++ lit "]" else h.Hostname)
          ++ lit ":" ++ h.Port) ∧
    Host.String caseTable ⟨lit "::1", lit "70"⟩ = lit "[::1]:70" ∧
    (∀ b ∈ h.String caseTable, isUpper b = false) ∧
    (∀ h2 : Host, asciiLower h2.Hostname = asciiLower h.Hostname →
      asciiLower h2.Port = asciiLower h.Port → h2.String caseTable = h.String caseTable) := by
  refine ⟨?_, ?_, ?_, ?_⟩
  · unfold Host.String JoinHostPort
    by_cases h58 : 58 ∈ h.Hostname
    · rw [if_pos h58, if_pos h58]
      have : lit "]:" = lit "]" ++ lit ":" := rfl
      rw [this]
      simp only [List.append_assoc]
    · rw [if_neg h58, if_neg h58]
  · unfold Host.String ToLower
    rw [if_pos (by decide)]
    decide
  · exact ToLower_not_upper caseTable hT _
  · intro h2 hh hp
    exact ToLower_congr caseTable hT _ _ (asciiLower_JoinHostPort _ _ _ _ hh hp)

/-- The test host `Gopher.Floodgap.Com`, `72` has the key `gopher.floodgap.com:72`, which is
also the key of `gopher.floodgap.com`, `72`. -/
theorem Host_String_is_lowered_host_port_witness :
    LowerTable asciiCaseTable ∧
    Host.String asciiCaseTable ⟨lit "Gopher.Floodgap.Com", lit "72"⟩ =
      lit "gopher.floodgap.com:72" ∧
    (∀ b ∈ Host.String asciiCaseTable ⟨lit "Gopher.Floodgap.Com", lit "72"⟩,
      isUpper b = false) ∧
    Host.String asciiCaseTable ⟨lit "gopher.floodgap.com", lit "72"⟩ =
      Host.String asciiCaseTable ⟨lit "Gopher.Floodgap.Com", lit "72"⟩ :=
  ⟨asciiCaseTable_lowerTable, by decide,
    (Host_String_is_lowered_host_port asciiCaseTable asciiCaseTable_lowerTable
      ⟨lit "Gopher.Floodgap.Com", lit "72"⟩).2.2.1,
    (Host_String_is_lowered_host_port asciiCaseTable asciiCaseTable_lowerTable
      ⟨lit "Gopher.Floodgap.Com", lit "72"⟩).2.2.2 ⟨lit "gopher.floodgap.com", lit "72"⟩
      (by decide) (by decide)⟩

/-! ## Findings without a parent, and the text of a finding -/

/-- C13: for every grapher state and every finding without a parent, `GraphFinding` writes
nothing, returns no error and leaves `alive` and `graphed` (indeed the whole grapher) as
they were. -/
theorem GraphFinding_without_parent (caseTable : Str → Str) (g : Grapher) (f : CrawlFinding)
    (h : f.Parent = none) :
    g.GraphFinding caseTable f = (g, none) ∧
    (g.GraphFinding caseTable f).2 = none ∧
    (g.GraphFinding caseTable f).1.writeCloser.written = g.writeCloser.written ∧
    (g.GraphFinding caseTable f).1.alive = g.alive ∧
    (g.GraphFinding caseTable f).1.graphed = g.graphed := by
  have key : g.GraphFinding caseTable f = (g, none) := by
    unfold Grapher.GraphFinding
    rw [h]
  rw [key]
  exact ⟨rfl, rfl, rfl, rfl, rfl⟩

/-- The bootstrap finding of the tests is not graphed, even by a grapher whose writer would
fail. -/
theorem GraphFinding_without_parent_witness :
    (⟨⟨⟨lit "gopher.example.com", lit "72"⟩, 50, lit "/Test"⟩, none⟩ : CrawlFinding).Parent
      = none ∧
    (⟨⟨[], [true], false⟩, ∅, ∅⟩ : Grapher).GraphFinding noCaseTable
        ⟨⟨⟨lit "gopher.example.com", lit "72"⟩, 50, lit "/Test"⟩, none⟩ =
      (⟨⟨[], [true], false⟩, ∅, ∅⟩, none) :=
  ⟨rfl,
    (GraphFinding_without_parent noCaseTable ⟨⟨[], [true], false⟩, ∅, ∅⟩
      ⟨⟨⟨lit "gopher.example.com", lit "72"⟩, 50, lit "/Test"⟩, none⟩ rfl).1⟩

/-- C16: the text of a finding with a parent is the quoted key of the parent host, ` -> `
and the quoted key of the host of the resource, whatever the selector and the item type of
the resource; the text of a finding without a parent is the quoted key of the host of the
resource. -/
theorem CrawlFinding_String_is_the_edge (caseTable : Str → Str) (host : Host) (t : ItemType)
    (sel : Str) :
    (∀ parent : Host,
      CrawlFinding.String caseTable ⟨⟨host, t, sel⟩, some parent⟩ =
        lit "\"" ++ parent.String caseTable ++ lit "\" -> \"" ++ host.String caseTable
          ++ lit "\"" ∧
      ∀ (t2 : ItemType) (sel2 : Str),
        CrawlFinding.String caseTable ⟨⟨host, t2, sel2⟩, some parent⟩ =
          CrawlFinding.String caseTable ⟨⟨host, t, sel⟩, some parent⟩) ∧
    CrawlFinding.String caseTable ⟨⟨host, t, sel⟩, none⟩ =
      lit "\"" ++ host.String caseTable ++ lit "\"" :=
  ⟨fun _ => ⟨rfl, fun _ _ => rfl⟩, rfl⟩

/-! ## The crawler on a resource that is no directory -/

/-- C17: for every opener, every callback list and every resource whose type is not
`DirectoryType`, `ResourceCrawler` returns the error "not a directory" and does nothing
else: it does not call the opener, sends no finding and invokes no callback. -/
theorem ResourceCrawler_not_a_directory (o : ResourceOpener) (r : Resource)
    (ia : List ItemActionFunc) (h : r.Typ ≠ DirectoryType) :
    ResourceCrawler o r ia = ([], CrawlOutcome.returned (some (CrawlError.notDirectory r))) ∧
    (∀ r2, CrawlEvent.opened r2 ∉ (ResourceCrawler o r ia).1) ∧
    findingsOf (ResourceCrawler o r ia).1 = [] ∧
    (∀ a, actionsOf a (ResourceCrawler o r ia).1 = []) := by
  have key : ResourceCrawler o r ia =
      ([], CrawlOutcome.returned (some (CrawlError.notDirectory r))) := by
    unfold ResourceCrawler
    rw [if_pos h]
  rw [key]
  refine ⟨rfl, ?_, rfl, fun _ => rfl⟩
  intro r2 hm
  cases hm

/-- The file resource of the tests is not crawled. -/
theorem ResourceCrawler_not_a_directory_witness :
    (⟨⟨lit "example.com", lit "70"⟩, 50, lit "/"⟩ : Resource).Typ ≠ DirectoryType ∧
    ResourceCrawler (fun _ => Except.ok ⟨[lit "."], fun _ => none⟩)
        ⟨⟨lit "example.com", lit "70"⟩, 50, lit "/"⟩ [some 0] =
      ([], CrawlOutcome.returned
        (some (CrawlError.notDirectory ⟨⟨lit "example.com", lit "70"⟩, 50, lit "/"⟩))) :=
  ⟨by decide,
    (ResourceCrawler_not_a_directory (fun _ => Except.ok ⟨[lit "."], fun _ => none⟩)
      ⟨⟨lit "example.com", lit "70"⟩, 50, lit "/"⟩ [some 0] (by decide)).1⟩

/-! ## The blacklist of the dispatcher -/

/-- C20: for every coordinator and grapher state and every finding whose selector
contains `.run*` or `.cgi?`, the finding handler calls neither `QueueJob` nor
`GraphFinding` and leaves coordinator and grapher, the written graph included, as they
were. -/
theorem handleFinding_drops_blacklisted (caseTable : Str → Str) (coord : Coordinator)
    (grapher : Grapher) (f : CrawlFinding)
    (h : Contains f.Resource.Selector (lit ".run*") = true ∨
      Contains f.Resource.Selector (lit ".cgi?") = true) :
    handleFinding caseTable coord grapher f = ([], some (coord, grapher)) := by
  unfold handleFinding
  have hb : blacklist.any (fun b => Contains f.Resource.Selector b) = true := by
    simp only [blacklist, List.any_cons, List.any_nil, Bool.or_false, Bool.or_eq_true]
    exact h
  rw [if_pos hb]

/-- A finding with the selector `/games/adventure.run*go` is dropped. -/
theorem handleFinding_drops_blacklisted_witness :
    Contains (lit "/games/adventure.run*go") (lit ".run*") = true ∧
    handleFinding noCaseTable testQueued ⟨⟨[], [], false⟩, ∅, ∅⟩
        ⟨⟨⟨lit "example.com", lit "70"⟩, 49, lit "/games/adventure.run*go"⟩,
          some ⟨lit "localhost", lit "70"⟩⟩ =
      ([], some (testQueued, ⟨⟨[], [], false⟩, ∅, ∅⟩)) :=
  ⟨by decide,
    handleFinding_drops_blacklisted noCaseTable testQueued ⟨⟨[], [], false⟩, ∅, ∅⟩
      ⟨⟨⟨lit "example.com", lit "70"⟩, 49, lit "/games/adventure.run*go"⟩,
        some ⟨lit "localhost", lit "70"⟩⟩ (Or.inl (by decide))⟩

/-! ## The grapher on a reliable writer -/

theorem WriteString_of_reliable (w : WriteCloser) (s : Str) (h : w.reliable = true) :
    w.WriteString s =
      (⟨w.written ++ [s], w.failures.tail, w.closed⟩, none) := by
  unfold WriteCloser.WriteString
  cases hf : w.failures with
  | nil => rfl
  | cons b rest =>
    have hb : b = false := by
      unfold WriteCloser.reliable at h
      rw [hf] at h
      simpa using (List.all_eq_true.mp h) b (by simp)
    subst hb
    rfl

theorem reliable_tail (w : WriteCloser) (written : List Str) (closed : Bool)
    (h : w.reliable = true) :
    WriteCloser.reliable ⟨written, w.failures.tail, closed⟩ = true := by
  unfold WriteCloser.reliable at h ⊢
  rw [List.all_eq_true] at h ⊢
  intro b hb
  exact h b (List.mem_of_mem_tail hb)

theorem Tracks_snoc_without_parent (caseTable : Str → Str) (g : Grapher)
    (earlier : List CrawlFinding) (f : CrawlFinding) (hf : f.Parent = none)
    (hg : g.Tracks caseTable earlier) : g.Tracks caseTable (earlier ++ [f]) := by
  refine ⟨?_, ?_, hg.reliable⟩
  · intro k
    rw [hg.alive_iff k]
    constructor
    · rintro ⟨e, he, hk⟩
      exact ⟨e, List.mem_append_left _ he, hk⟩
    · rintro ⟨e, he, hk⟩
      rw [List.mem_append, List.mem_singleton] at he
      rcases he with he | rfl
      · exact ⟨e, he, hk⟩
      · simp [CrawlFinding.parentKey, hf] at hk
  · intro s
    rw [hg.graphed_iff s]
    constructor
    · rintro ⟨e, he, hk⟩
      exact ⟨e, List.mem_append_left _ he, hk⟩
    · rintro ⟨e, he, hk⟩
      rw [List.mem_append, List.mem_singleton] at he
      rcases he with he | rfl
      · exact ⟨e, he, hk⟩
      · simp [hf] at hk

theorem GraphFinding_tracks (caseTable : Str → Str) (g : Grapher)
    (earlier : List CrawlFinding) (f : CrawlFinding) (hg : g.Tracks caseTable earlier) :
    ∃ g1, g.GraphFinding caseTable f = (g1, none) ∧
      g1.writeCloser.written = g.writeCloser.written ++ findingLines caseTable earlier f ∧
      g1.writeCloser.closed = g.writeCloser.closed ∧
      g1.Tracks caseTable (earlier ++ [f]) := by
  cases hp : f.Parent with
  | none =>
    refine ⟨g, ?_, ?_, rfl, Tracks_snoc_without_parent caseTable g earlier f hp hg⟩
    · unfold Grapher.GraphFinding
      rw [hp]
    · unfold findingLines
      rw [hp]
      simp
  | some parent =>
    have hpk : f.parentKey caseTable = some (parent.String caseTable) := by
      simp [CrawlFinding.parentKey, hp]
    have hsome : f.Parent.isSome = true := by simp [hp]
    -- membership in the findings seen afterwards
    have hmemA : ∀ k, (∃ e ∈ earlier ++ [f], e.parentKey caseTable = some k) ↔
        ((∃ e ∈ earlier, e.parentKey caseTable = some k) ∨ k = parent.String caseTable) := by
      intro k
      constructor
      · rintro ⟨e, he, hk⟩
        rw [List.mem_append, List.mem_singleton] at he
        rcases he with he | rfl
        · exact Or.inl ⟨e, he, hk⟩
        · rw [hpk] at hk
          exact Or.inr (Option.some.inj hk).symm
      · rintro (⟨e, he, hk⟩ | rfl)
        · exact ⟨e, List.mem_append_left _ he, hk⟩
        · exact ⟨f, by simp, hpk⟩
    have hmemG : ∀ s, (∃ e ∈ earlier ++ [f], e.Parent.isSome = true ∧ e.String caseTable = s) ↔
        ((∃ e ∈ earlier, e.Parent.isSome = true ∧ e.String caseTable = s) ∨
          s = f.String caseTable) := by
      intro s
      constructor
      · rintro ⟨e, he, hk⟩
        rw [List.mem_append, List.mem_singleton] at he
        rcases he with he | rfl
        · exact Or.inl ⟨e, he, hk⟩
        · exact Or.inr hk.2.symm
      · rintro (⟨e, he, hk⟩ | rfl)
        · exact ⟨e, List.mem_append_left _ he, hk⟩
        · exact ⟨f, by simp, hsome, rfl⟩
    unfold Grapher.GraphFinding findingLines
    rw [hp]
    simp only []
    by_cases ha : g.alive.at (parent.String caseTable) = true
    · have haE : ∃ e ∈ earlier, e.parentKey caseTable = some (parent.String caseTable) :=
        (hg.alive_iff _).mp ha
      rw [if_pos haE]
      simp only [ha, Bool.not_true, Bool.false_eq_true, if_false]
      by_cases hs : g.graphed.at (f.String caseTable) = true
      · have hsE := (hg.graphed_iff _).mp hs
        rw [if_pos hsE]
        simp only [hs, Bool.not_true, Bool.false_eq_true, if_false]
        refine ⟨g, rfl, by simp, rfl, ?_, ?_, hg.reliable⟩
        · intro k
          rw [hmemA k, hg.alive_iff k]
          constructor
          · exact Or.inl
          · rintro (h | rfl)
            · exact h
            · exact haE
        · intro s
          rw [hmemG s, hg.graphed_iff s]
          constructor
          · exact Or.inl
          · rintro (h | rfl)
            · exact h
            · exact hsE
      · have hsE : ¬ ∃ e ∈ earlier, e.Parent.isSome = true ∧
            e.String caseTable = f.String caseTable := fun h => hs ((hg.graphed_iff _).mpr h)
        rw [if_neg hsE]
        simp only [hs, Bool.not_false, if_true, WriteString_of_reliable _ _ hg.reliable]
        refine ⟨_, rfl, by simp, rfl, ?_, ?_, reliable_tail _ _ _ hg.reliable⟩
        · intro k
          rw [hmemA k]
          show g.alive.at k = true ↔ _
          rw [hg.alive_iff k]
          constructor
          · exact Or.inl
          · rintro (h | rfl)
            · exact h
            · exact haE
        · intro s
          rw [hmemG s]
          show GoMap.at (g.graphed.insert (f.String caseTable) true) s = true ↔ _
          by_cases hss : s = f.String caseTable
          · subst hss
            simp [GoMap.at_insert_self]
          · rw [GoMap.at_insert_ne _ _ hss, hg.graphed_iff s]
            simp [hss]
    · have haE : ¬ ∃ e ∈ earlier, e.parentKey caseTable = some (parent.String caseTable) :=
        fun h => ha ((hg.alive_iff _).mpr h)
      rw [if_neg haE]
      simp only [ha, Bool.not_false, if_true, WriteString_of_reliable _ _ hg.reliable]
      have hr1 := reliable_tail g.writeCloser
        (g.writeCloser.written ++ [nodeLine (parent.String caseTable)]) g.writeCloser.closed
        hg.reliable
      have hA : ∀ k, GoMap.at (g.alive.insert (parent.String caseTable) true) k = true ↔
          ∃ e ∈ earlier ++ [f], e.parentKey caseTable = some k := by
        intro k
        rw [hmemA k]
        by_cases hkk : k = parent.String caseTable
        · subst hkk
          simp [GoMap.at_insert_self]
        · rw [GoMap.at_insert_ne _ _ hkk, hg.alive_iff k]
          simp [hkk]
      by_cases hs : g.graphed.at (f.String caseTable) = true
      · have hsE := (hg.graphed_iff _).mp hs
        rw [if_pos hsE]
        simp only [hs, Bool.not_true, Bool.false_eq_true, if_false]
        refine ⟨_, rfl, by simp, rfl, hA, ?_, hr1⟩
        intro s
        rw [hmemG s]
        show g.graphed.at s = true ↔ _
        rw [hg.graphed_iff s]
        constructor
        · exact Or.inl
        · rintro (h | rfl)
          · exact h
          · exact hsE
      · have hsE : ¬ ∃ e ∈ earlier, e.Parent.isSome = true ∧
            e.String caseTable = f.String caseTable := fun h => hs ((hg.graphed_iff _).mpr h)
        rw [if_neg hsE]
        simp only [hs, Bool.not_false, if_true, WriteString_of_reliable _ _ hr1]
        refine ⟨_, rfl, by simp, rfl, hA, ?_, reliable_tail _ _ _ hr1⟩
        intro s
        rw [hmemG s]
        show GoMap.at (g.graphed.insert (f.String caseTable) true) s = true ↔ _
        by_cases hss : s = f.String caseTable
        · subst hss
          simp [GoMap.at_insert_self]
        · rw [GoMap.at_insert_ne _ _ hss, hg.graphed_iff s]
          simp [hss]

/-! ## The lines of the graph -/

theorem nodeLine_inj (k1 k2 : Str) (h : nodeLine k1 = nodeLine k2) : k1 = k2 := by
  unfold nodeLine at h
  exact List.append_cancel_left (List.append_cancel_right h)

theorem edgeLine_inj (s1 s2 : Str) (h : edgeLine s1 = edgeLine s2) : s1 = s2 := by
  unfold edgeLine at h
  exact List.append_cancel_left (List.append_cancel_right h)

theorem nodeLine_ne_edgeLine (caseTable : Str → Str) (k : Str) (f : CrawlFinding)
    (hf : f.Parent.isSome = true) : nodeLine k ≠ edgeLine (f.String caseTable) := by
  intro h
  cases hp : f.Parent with
  | none => simp [hp] at hf
  | some parent =>
    have hr := congrArg List.reverse h
    simp [nodeLine, edgeLine, CrawlFinding.String, hp, lit] at hr

theorem graphLines_cons (caseTable : Str → Str) (earlier : List CrawlFinding)
    (f : CrawlFinding) (fs : List CrawlFinding) :
    graphLines caseTable earlier (f :: fs) =
      findingLines caseTable earlier f ++ graphLines caseTable (earlier ++ [f]) fs := rfl

theorem graphLines_append (caseTable : Str → Str) (fs1 fs2 : List CrawlFinding) :
    ∀ earlier, graphLines caseTable earlier (fs1 ++ fs2) =
      graphLines caseTable earlier fs1 ++ graphLines caseTable (earlier ++ fs1) fs2 := by
  induction fs1 with
  | nil =>
    intro earlier
    simp [graphLines]
  | cons f fs ih =>
    intro earlier
    rw [List.cons_append, graphLines_cons, graphLines_cons, ih, List.append_assoc,
      List.append_assoc, List.singleton_append]

theorem mem_findingLines (caseTable : Str → Str) (earlier : List CrawlFinding)
    (f : CrawlFinding) (l : Str) (h : l ∈ findingLines caseTable earlier f) :
    f.Parent.isSome = true ∧
    ((∃ k, l = nodeLine k ∧ f.parentKey caseTable = some k ∧
        ¬ ∃ e ∈ earlier, e.parentKey caseTable = some k) ∨
      (l = edgeLine (f.String caseTable) ∧
        ¬ ∃ e ∈ earlier, e.Parent.isSome = true ∧ e.String caseTable = f.String caseTable)) := by
  unfold findingLines at h
  cases hp : f.Parent with
  | none =>
    rw [hp] at h
    cases h
  | some parent =>
    rw [hp] at h
    simp only [] at h
    refine ⟨rfl, ?_⟩
    rw [List.mem_append] at h
    rcases h with h | h
    · by_cases hE : ∃ e ∈ earlier, e.parentKey caseTable = some (parent.String caseTable)
      · rw [if_pos hE] at h
        cases h
      · rw [if_neg hE, List.mem_singleton] at h
        exact Or.inl ⟨_, h, by simp [CrawlFinding.parentKey, hp], hE⟩
    · by_cases hE : ∃ e ∈ earlier, e.Parent.isSome = true ∧
          e.String caseTable = f.String caseTable
      · rw [if_pos hE] at h
        cases h
      · rw [if_neg hE, List.mem_singleton] at h
        exact Or.inr ⟨h, hE⟩

theorem mem_graphLines (caseTable : Str → Str) (fs : List CrawlFinding) :
    ∀ (earlier : List CrawlFinding) (l : Str), l ∈ graphLines caseTable earlier fs →
      (∃ k, l = nodeLine k ∧ ¬ ∃ e ∈ earlier, e.parentKey caseTable = some k) ∨
      (∃ f : CrawlFinding, f.Parent.isSome = true ∧ l = edgeLine (f.String caseTable) ∧
        ¬ ∃ e ∈ earlier, e.Parent.isSome = true ∧ e.String caseTable = f.String caseTable) := by
  induction fs with
  | nil =>
    intro earlier l h
    cases h
  | cons f fs ih =>
    intro earlier l h
    rw [graphLines_cons, List.mem_append] at h
    rcases h with h | h
    · obtain ⟨hs, hl⟩ := mem_findingLines caseTable earlier f l h
      rcases hl with ⟨k, hk, -, hE⟩ | ⟨hl, hE⟩
      · exact Or.inl ⟨k, hk, hE⟩
      · exact Or.inr ⟨f, hs, hl, hE⟩
    · rcases ih (earlier ++ [f]) l h with ⟨k, hk, hE⟩ | ⟨f2, hs, hl, hE⟩
      · refine Or.inl ⟨k, hk, ?_⟩
        rintro ⟨e, he, hek⟩
        exact hE ⟨e, List.mem_append_left _ he, hek⟩
      · refine Or.inr ⟨f2, hs, hl, ?_⟩
        rintro ⟨e, he, hek⟩
        exact hE ⟨e, List.mem_append_left _ he, hek⟩

theorem nodup_findingLines (caseTable : Str → Str) (earlier : List CrawlFinding)
    (f : CrawlFinding) : (findingLines caseTable earlier f).Nodup := by
  unfold findingLines
  cases hp : f.Parent with
  | none => exact List.nodup_nil
  | some parent =>
    simp only []
    have hne := nodeLine_ne_edgeLine caseTable (parent.String caseTable) f (by simp [hp])
    split_ifs <;> simp [hne]

theorem nodup_graphLines (caseTable : Str → Str) (fs : List CrawlFinding) :
    ∀ earlier, (graphLines caseTable earlier fs).Nodup := by
  induction fs with
  | nil =>
    intro earlier
    exact List.nodup_nil
  | cons f fs ih =>
    intro earlier
    rw [graphLines_cons, List.nodup_append]
    refine ⟨nodup_findingLines caseTable earlier f, ih _, ?_⟩
    intro l h1 h2
    obtain ⟨hs, hl⟩ := mem_findingLines caseTable earlier f l h1
    have hfmem : f ∈ earlier ++ [f] := by simp
    rcases mem_graphLines caseTable fs (earlier ++ [f]) l h2 with
      ⟨k2, hk2, hE2⟩ | ⟨f2, hs2, hl2, hE2⟩
    · rcases hl with ⟨k, hk, hpk, -⟩ | ⟨hl, -⟩
      · have : k = k2 := nodeLine_inj _ _ (hk.symm.trans hk2)
        subst this
        exact hE2 ⟨f, hfmem, hpk⟩
      · exact nodeLine_ne_edgeLine caseTable k2 f hs (hk2.symm.trans hl)
    · rcases hl with ⟨k, hk, -, -⟩ | ⟨hl, -⟩
      · exact nodeLine_ne_edgeLine caseTable k f2 hs2 (hk.symm.trans hl2)
      · have : f.String caseTable = f2.String caseTable := edgeLine_inj _ _ (hl.symm.trans hl2)
        exact hE2 ⟨f, hfmem, hs, this⟩

theorem nodeLine_mem_graphLines (caseTable : Str → Str) (fs : List CrawlFinding) (k : Str) :
    ∀ earlier, (∃ f ∈ fs, f.parentKey caseTable = some k) →
      (¬ ∃ e ∈ earlier, e.parentKey caseTable = some k) →
      nodeLine k ∈ graphLines caseTable earlier fs := by
  induction fs with
  | nil =>
    rintro earlier ⟨f, hf, -⟩ -
    cases hf
  | cons f fs ih =>
    intro earlier hex hE
    rw [graphLines_cons, List.mem_append]
    by_cases hfk : f.parentKey caseTable = some k
    · left
      unfold findingLines
      cases hp : f.Parent with
      | none => simp [CrawlFinding.parentKey, hp] at hfk
      | some parent =>
        have hk : parent.String caseTable = k := by
          simpa [CrawlFinding.parentKey, hp] using hfk
        simp only []
        rw [hk, if_neg hE]
        simp
    · right
      apply ih
      · obtain ⟨f2, hf2, hk2⟩ := hex
        rw [List.mem_cons] at hf2
        rcases hf2 with rfl | hf2
        · exact absurd hk2 hfk
        · exact ⟨f2, hf2, hk2⟩
      · rintro ⟨e, he, hek⟩
        rw [List.mem_append, List.mem_singleton] at he
        rcases he with he | rfl
        · exact hE ⟨e, he, hek⟩
        · exact hfk hek

theorem graphAll_cons (caseTable : Str → Str) (g : Grapher) (f : CrawlFinding)
    (fs : List CrawlFinding) :
    g.graphAll caseTable (f :: fs) =
      match g.GraphFinding caseTable f with
      | (g1, some err) => (g1, some err)
      | (g1, none) => Grapher.graphAll caseTable g1 fs := rfl

theorem graphAll_tracks (caseTable : Str → Str) (fs : List CrawlFinding) :
    ∀ (g : Grapher) (earlier : List CrawlFinding), g.Tracks caseTable earlier →
      ∃ g1, g.graphAll caseTable fs = (g1, none) ∧
        g1.writeCloser.written = g.writeCloser.written ++ graphLines caseTable earlier fs ∧
        g1.writeCloser.closed = g.writeCloser.closed ∧
        g1.Tracks caseTable (earlier ++ fs) := by
  induction fs with
  | nil =>
    intro g earlier hg
    refine ⟨g, rfl, by simp [graphLines], rfl, by simpa using hg⟩
  | cons f fs ih =>
    intro g earlier hg
    obtain ⟨g1, h1, hw1, hc1, ht1⟩ := GraphFinding_tracks caseTable g earlier f hg
    obtain ⟨g2, h2, hw2, hc2, ht2⟩ := ih g1 (earlier ++ [f]) ht1
    refine ⟨g2, ?_, ?_, hc2.trans hc1, ?_⟩
    · rw [graphAll_cons, h1]
      exact h2
    · rw [hw2, hw1, graphLines_cons, List.append_assoc]
    · rw [List.append_assoc, List.singleton_append] at ht2
      exact ht2

theorem NewGrapher_of_reliable (caseTable : Str → Str) (w : WriteCloser)
    (hw : w.reliable = true) :
    ∃ g, NewGrapher w = Except.ok g ∧
      g.writeCloser.written = w.written ++ [lit "strict digraph \x7b\n"] ∧
      g.writeCloser.closed = w.closed ∧ g.Tracks caseTable [] := by
  refine ⟨⟨⟨w.written ++ [lit "strict digraph \x7b\n"], w.failures.tail, w.closed⟩, ∅, ∅⟩,
    ?_, rfl, rfl, ?_, ?_, reliable_tail w _ _ hw⟩
  · unfold NewGrapher
    rw [WriteString_of_reliable w _ hw]
  · intro k
    simp [GoMap.at]
  · intro s
    simp [GoMap.at]

theorem Close_of_reliable (g : Grapher) (hg : g.writeCloser.reliable = true) :
    g.Close =
      ({ g with writeCloser :=
          ⟨g.writeCloser.written ++ [lit "\x7d\n"], g.writeCloser.failures.tail, true⟩ },
        none) := by
  unfold Grapher.Close
  rw [WriteString_of_reliable _ _ hg]

/-- The graph a new grapher on a reliable writer holds after a list of findings. -/
theorem graphAll_on_new (caseTable : Str → Str) (w : WriteCloser) (hw : w.reliable = true)
    (fs : List CrawlFinding) :
    ∃ g g1, NewGrapher w = Except.ok g ∧ g.graphAll caseTable fs = (g1, none) ∧
      g1.writeCloser.written =
        w.written ++ lit "strict digraph \x7b\n" :: graphLines caseTable [] fs ∧
      g1.Tracks caseTable fs := by
  obtain ⟨g, hg, hgw, -, hgt⟩ := NewGrapher_of_reliable caseTable w hw
  obtain ⟨g1, h1, hw1, -, ht1⟩ := graphAll_tracks caseTable fs g [] hgt
  refine ⟨g, g1, hg, h1, ?_, by simpa using ht1⟩
  rw [hw1, hgw, List.append_assoc, List.singleton_append]

/-- C14: on a new grapher whose writer never fails, whatever the findings passed to
`GraphFinding`, no line is written twice: the text written is the opening line followed by
the node and edge lines written, and these are pairwise different. After them, a finding
with the parent key and the child key of one of them writes nothing and changes nothing,
and a finding whose parent key is that of one of them writes no node declaration (it writes
nothing, or its edge line alone). -/
theorem graph_lines_are_written_once (caseTable : Str → Str) (w : WriteCloser)
    (hw : w.reliable = true) (fs : List CrawlFinding) :
    ∃ g g1, NewGrapher w = Except.ok g ∧ g.graphAll caseTable fs = (g1, none) ∧
      g1.writeCloser.written =
        w.written ++ lit "strict digraph \x7b\n" :: graphLines caseTable [] fs ∧
      g1.writeCloser.text =
        w.text ++ lit "strict digraph \x7b\n" ++ (graphLines caseTable [] fs).flatten ∧
      (graphLines caseTable [] fs).Nodup ∧
      (∀ l ∈ graphLines caseTable [] fs,
        (∃ k, l = nodeLine k) ∨
          ∃ f : CrawlFinding, f.Parent.isSome = true ∧ l = edgeLine (f.String caseTable)) ∧
      (∀ (e f : CrawlFinding) (parent : Host), e ∈ fs → f.Parent = some parent →
        e.parentKey caseTable = some (parent.String caseTable) →
        (e.Resource.Host.String caseTable = f.Resource.Host.String caseTable →
          g1.GraphFinding caseTable f = (g1, none)) ∧
        ((g1.GraphFinding caseTable f).1.writeCloser.written = g1.writeCloser.written ∨
          (g1.GraphFinding caseTable f).1.writeCloser.written =
            g1.writeCloser.written ++ [edgeLine (f.String caseTable)])) := by
  obtain ⟨g, g1, hg, h1, hw1, ht1⟩ := graphAll_on_new caseTable w hw fs
  have htext : g1.writeCloser.text =
      w.text ++ lit "strict digraph \x7b\n" ++ (graphLines caseTable [] fs).flatten := by
    simp only [WriteCloser.text, hw1, List.flatten_append, List.flatten_cons, List.append_assoc]
  refine ⟨g, g1, hg, h1, hw1, htext, nodup_graphLines caseTable fs [], ?_, ?_⟩
  · intro l hl
    rcases mem_graphLines caseTable fs [] l hl with ⟨k, hk, -⟩ | ⟨f, hs, hf, -⟩
    · exact Or.inl ⟨k, hk⟩
    · exact Or.inr ⟨f, hs, hf⟩
  · intro e f parent he hp hek
    obtain ⟨g2, h2, hw2, -, -⟩ := GraphFinding_tracks caseTable g1 fs f ht1
    have hnode : ∃ e ∈ fs, e.parentKey caseTable = some (parent.String caseTable) :=
      ⟨e, he, hek⟩
    constructor
    · intro hchild
      have hep : e.Parent.isSome = true := by
        cases hpe : e.Parent with
        | none => simp [CrawlFinding.parentKey, hpe] at hek
        | some _ => rfl
      have hes : e.String caseTable = f.String caseTable := by
        cases hpe : e.Parent with
        | none => simp [hpe] at hep
        | some pe =>
          have hk : pe.String caseTable = parent.String caseTable := by
            simpa [CrawlFinding.parentKey, hpe] using hek
          simp only [CrawlFinding.String, hpe, hp, hk, hchild]
      have ha : g1.alive.at (parent.String caseTable) = true := (ht1.alive_iff _).mpr hnode
      have hs : g1.graphed.at (f.String caseTable) = true :=
        (ht1.graphed_iff _).mpr ⟨e, he, hep, hes⟩
      unfold Grapher.GraphFinding
      rw [hp]
      simp only [ha, hs, Bool.not_true, Bool.false_eq_true, if_false]
    · rw [h2]
      simp only []
      rw [hw2]
      unfold findingLines
      rw [hp]
      simp only []
      rw [if_pos hnode]
      by_cases hE : ∃ e ∈ fs, e.Parent.isSome = true ∧ e.String caseTable = f.String caseTable
      · rw [if_pos hE]
        exact Or.inl (by simp)
      · rw [if_neg hE]
        exact Or.inr (by simp)

/-- The findings of the tests on the mock writer: five different lines are written, and
the third finding passed once more writes nothing. -/
theorem graph_lines_are_written_once_witness :
    mockDotfile.reliable = true ∧
    ∃ g g1, NewGrapher mockDotfile = Except.ok g ∧
      g.graphAll noCaseTable crawlFindingStringTests = (g1, none) ∧
      g1.writeCloser.written =
        mockDotfile.written ++
          lit "strict digraph \x7b\n" :: graphLines noCaseTable [] crawlFindingStringTests ∧
      (graphLines noCaseTable [] crawlFindingStringTests).Nodup ∧
      (graphLines noCaseTable [] crawlFindingStringTests).length = 5 ∧
      g1.GraphFinding noCaseTable
          ⟨⟨⟨lit "gopher.example.com", lit "72"⟩, 49, lit "/Other"⟩,
            some ⟨lit "gopher.example.com", lit "72"⟩⟩ = (g1, none) := by
  obtain ⟨g, g1, h1, h2, h3, -, h4, -, h6⟩ :=
    graph_lines_are_written_once noCaseTable mockDotfile (by decide) crawlFindingStringTests
  refine ⟨by decide, g, g1, h1, h2, h3, h4, by decide, ?_⟩
  exact (h6 ⟨⟨⟨lit "gopher.example.com", lit "72"⟩, 50, lit "/Test"⟩,
      some ⟨lit "gopher.example.com", lit "72"⟩⟩
    ⟨⟨⟨lit "gopher.example.com", lit "72"⟩, 49, lit "/Other"⟩,
      some ⟨lit "gopher.example.com", lit "72"⟩⟩
    ⟨lit "gopher.example.com", lit "72"⟩ (by decide) rfl rfl).1 rfl

/-- C15: on a new grapher whose writer never fails, the findings of a list passed in order
to `GraphFinding`, followed by `Close`, write exactly the opening line `strict digraph`
with its brace, then for each finding with a parent, in order, the node declaration of the
parent key if the finding is the first with that parent key and the edge line if it is the
first with that edge string, then the line of the closing brace. For the empty list that is
the opening and the closing line, and the edge line of a finding is preceded by the node
declaration of its parent. -/
theorem graph_text_is_header_lines_footer (caseTable : Str → Str) (w : WriteCloser)
    (hw : w.reliable = true) (fs : List CrawlFinding) :
    ∃ g g1 g2, NewGrapher w = Except.ok g ∧ g.graphAll caseTable fs = (g1, none) ∧
      g1.Close = (g2, none) ∧ g2.writeCloser.closed = true ∧
      g2.writeCloser.text =
        w.text ++ lit "strict digraph \x7b\n" ++ (graphLines caseTable [] fs).flatten
          ++ lit "\x7d\n" ∧
      (fs = [] → g2.writeCloser.text = w.text ++ lit "strict digraph \x7b\n\x7d\n") ∧
      (∀ (pre post : List CrawlFinding) (f : CrawlFinding) (parent : Host),
        fs = pre ++ f :: post → f.Parent = some parent →
        (¬ ∃ e ∈ pre, e.Parent.isSome = true ∧ e.String caseTable = f.String caseTable) →
        ∃ before after, graphLines caseTable [] fs =
            before ++ edgeLine (f.String caseTable) :: after ∧
          nodeLine (parent.String caseTable) ∈ before) := by
  obtain ⟨g, g1, hg, h1, hw1, ht1⟩ := graphAll_on_new caseTable w hw fs
  have hc := Close_of_reliable g1 ht1.reliable
  have htext : WriteCloser.text
      ⟨g1.writeCloser.written ++ [lit "\x7d\n"], g1.writeCloser.failures.tail, true⟩ =
      w.text ++ lit "strict digraph \x7b\n" ++ (graphLines caseTable [] fs).flatten
        ++ lit "\x7d\n" := by
    simp only [WriteCloser.text, hw1, List.flatten_append, List.flatten_cons, List.flatten_nil,
      List.append_nil, List.append_assoc]
  refine ⟨g, g1, _, hg, h1, hc, rfl, htext, ?_, ?_⟩
  · intro hfs
    show WriteCloser.text _ = _
    rw [htext, hfs]
    simp [graphLines, lit]
  · intro pre post f parent hfs hp hfirst
    have hpk : f.parentKey caseTable = some (parent.String caseTable) := by
      simp [CrawlFinding.parentKey, hp]
    have hsplit : graphLines caseTable [] fs =
        graphLines caseTable [] pre ++
          (findingLines caseTable pre f ++ graphLines caseTable (pre ++ [f]) post) := by
      rw [hfs, graphLines_append, graphLines_cons]
      simp
    have hfl : findingLines caseTable pre f =
        (if ∃ e ∈ pre, e.parentKey caseTable = some (parent.String caseTable) then []
          else [nodeLine (parent.String caseTable)]) ++ [edgeLine (f.String caseTable)] := by
      unfold findingLines
      rw [hp]
      simp only []
      rw [if_neg hfirst]
    refine ⟨graphLines caseTable [] pre ++
        (if ∃ e ∈ pre, e.parentKey caseTable = some (parent.String caseTable) then []
          else [nodeLine (parent.String caseTable)]),
      graphLines caseTable (pre ++ [f]) post, ?_, ?_⟩
    · rw [hsplit, hfl]
      simp only [List.append_assoc, List.singleton_append]
    · rw [List.mem_append]
      by_cases hE : ∃ e ∈ pre, e.parentKey caseTable = some (parent.String caseTable)
      · left
        exact nodeLine_mem_graphLines caseTable pre _ [] hE (by simp)
      · right
        rw [if_neg hE]
        simp

/-- The findings of the tests on the mock writer give the dot file the tests expect. -/
theorem graph_text_is_header_lines_footer_witness :
    mockDotfile.reliable = true ∧
    ∃ g g1 g2, NewGrapher mockDotfile = Except.ok g ∧
      g.graphAll noCaseTable crawlFindingStringTests = (g1, none) ∧
      g1.Close = (g2, none) ∧
      g2.writeCloser.text =
        lit ("strict digraph \x7b\n" ++
          "\t\"parent:70\"[alive=true]\n" ++
          "\t\"parent:70\" -> \"referenced:72\"\n" ++
          "\t\"gopher.example.com:72\"[alive=true]\n" ++
          "\t\"gopher.example.com:72\" -> \"localhost:70\"\n" ++
          "\t\"gopher.example.com:72\" -> \"gopher.example.com:72\"\n" ++
          "\x7d\n") := by
  obtain ⟨g, g1, g2, h1, h2, h3, -, h5, -⟩ :=
    graph_text_is_header_lines_footer noCaseTable mockDotfile (by decide)
      crawlFindingStringTests
  refine ⟨by decide, g, g1, g2, h1, h2, h3, ?_⟩
  rw [h5]
  rfl

/-! ## The crawler on a listing -/

theorem runActions_of_functions (item : Resource) (ids : List Nat) :
    runActions item (ids.map some) = (ids.map (fun a => CrawlEvent.action a item), false) := by
  induction ids with
  | nil => rfl
  | cons a rest ih =>
    simp only [List.map_cons, runActions, ih]

theorem scanLoop_nil (parent : Host) (ia : List ItemActionFunc) (rc : ReadCloser) (n : Nat) :
    scanLoop parent ia rc n [] =
      ([], CrawlOutcome.returned ((rc.errAfter n).map CrawlError.io)) := rfl

theorem scanLoop_end (parent : Host) (ia : List ItemActionFunc) (rc : ReadCloser) (n : Nat)
    (rest : List Str) :
    scanLoop parent ia rc n (lit "." :: rest) =
      ([], CrawlOutcome.returned ((rc.errAfter (n + 1)).map CrawlError.io)) := by
  unfold scanLoop
  rw [if_pos rfl]

theorem scanLoop_invalid (parent : Host) (ia : List ItemActionFunc) (rc : ReadCloser)
    (n : Nat) (line : Str) (rest : List Str) (hl : line ≠ lit ".") (hv : ¬ SixRules line) :
    scanLoop parent ia rc n (line :: rest) =
      ([], CrawlOutcome.returned (some (CrawlError.parse ⟨line⟩))) := by
  unfold scanLoop
  rw [if_neg hl, NewResourceFromGopherLine_eq, if_neg hv]

theorem scanLoop_ok_line (parent : Host) (ids : List Nat) (rc : ReadCloser) (n : Nat)
    (line : Str) (rest : List Str) (item : Resource) (hl : line ≠ lit ".")
    (hok : NewResourceFromGopherLine line = Except.ok item) :
    scanLoop parent (ids.map some) rc n (line :: rest) =
      (itemEvents parent ids item ++ (scanLoop parent (ids.map some) rc (n + 1) rest).1,
        (scanLoop parent (ids.map some) rc (n + 1) rest).2) := by
  conv_lhs => unfold scanLoop
  rw [if_neg hl, hok]
  simp only [runActions_of_functions]
  unfold itemEvents
  by_cases hq : item.Typ ≠ InformationalMessageType ∧ item.Typ ≠ ErrorMessageType
  · by_cases hd : item.Typ = DirectoryType
    · simp only [if_pos hq, if_pos hd, Bool.false_eq_true, if_false, List.append_assoc,
        List.singleton_append]
    · simp only [if_pos hq, if_neg hd, Bool.false_eq_true, if_false, List.append_nil]
  · by_cases hd : item.Typ = DirectoryType
    · simp only [if_neg hq, if_pos hd, Bool.false_eq_true, if_false, List.nil_append,
        List.singleton_append]
    · simp only [if_neg hq, if_neg hd, Bool.false_eq_true, if_false, List.nil_append,
        List.append_nil]

theorem scanLoop_valid_line (parent : Host) (ids : List Nat) (rc : ReadCloser) (n : Nat)
    (line : Str) (rest : List Str) (hl : line ≠ lit ".") (hv : SixRules line) :
    ∃ item, NewResourceFromGopherLine line = Except.ok item ∧
      scanLoop parent (ids.map some) rc n (line :: rest) =
        (itemEvents parent ids item ++ (scanLoop parent (ids.map some) rc (n + 1) rest).1,
          (scanLoop parent (ids.map some) rc (n + 1) rest).2) := by
  have hok := NewResourceFromGopherLine_eq line
  rw [if_pos hv] at hok
  exact ⟨_, hok, scanLoop_ok_line parent ids rc n line rest _ hl hok⟩

theorem itemsOf_cons_valid (line : Str) (rest : List Str) (item : Resource)
    (h : NewResourceFromGopherLine line = Except.ok item) :
    itemsOf (line :: rest) = item :: itemsOf rest := by
  simp [itemsOf, List.filterMap_cons, h, Except.toOption]

theorem scanLoop_valid (parent : Host) (ids : List Nat) (rc : ReadCloser)
    (good : List Str) :
    ∀ (n : Nat) (tail : List Str), (∀ l ∈ good, l ≠ lit "." ∧ SixRules l) →
      scanLoop parent (ids.map some) rc n (good ++ tail) =
        ((itemsOf good).flatMap (itemEvents parent ids) ++
            (scanLoop parent (ids.map some) rc (n + good.length) tail).1,
          (scanLoop parent (ids.map some) rc (n + good.length) tail).2) := by
  induction good with
  | nil =>
    intro n tail _
    simp [itemsOf]
  | cons line rest ih =>
    intro n tail hgood
    have hl := hgood line (by simp)
    obtain ⟨item, hok, hstep⟩ :=
      scanLoop_valid_line parent ids rc n line (rest ++ tail) hl.1 hl.2
    rw [List.cons_append, hstep, ih (n + 1) tail (fun l hm => hgood l (by simp [hm])),
      itemsOf_cons_valid line rest item hok]
    have hn : n + 1 + rest.length = n + (line :: rest).length := by
      simp only [List.length_cons]
      omega
    rw [hn]
    simp only [List.flatMap_cons, List.append_assoc]

theorem itemsOf_length_of_valid (lines : List Str) (h : ∀ l ∈ lines, SixRules l) :
    (itemsOf lines).length = lines.length := by
  induction lines with
  | nil => rfl
  | cons line rest ih =>
    have hok := NewResourceFromGopherLine_eq line
    rw [if_pos (h line (by simp))] at hok
    rw [itemsOf_cons_valid line rest _ hok, List.length_cons, List.length_cons,
      ih (fun l hm => h l (by simp [hm]))]

theorem findingsOf_append (a b : List CrawlEvent) :
    findingsOf (a ++ b) = findingsOf a ++ findingsOf b := by
  simp [findingsOf, List.filterMap_append]

theorem actionsOf_append (c : Nat) (a b : List CrawlEvent) :
    actionsOf c (a ++ b) = actionsOf c a ++ actionsOf c b := by
  simp [actionsOf, List.filterMap_append]

theorem findingsOf_itemEvents (parent : Host) (ids : List Nat) (items : List Resource) :
    findingsOf (items.flatMap (itemEvents parent ids)) =
      (items.filter (fun it => it.Typ = DirectoryType)).map
        (fun it => ⟨it, some parent⟩) := by
  induction items with
  | nil => rfl
  | cons it rest ih =>
    rw [List.flatMap_cons, findingsOf_append, ih]
    have hact : ∀ l : List Nat,
        findingsOf (l.map (fun a => CrawlEvent.action a it)) = [] := by
      intro l
      induction l with
      | nil => rfl
      | cons a l _ =>
        simp [findingsOf, List.filterMap_cons]
    unfold itemEvents
    rw [findingsOf_append]
    by_cases hd : it.Typ = DirectoryType
    · have h1 : findingsOf (if it.Typ ≠ InformationalMessageType ∧
          it.Typ ≠ ErrorMessageType then ids.map (fun a => CrawlEvent.action a it) else []) = [] := by
        split_ifs
        · exact hact ids
        · rfl
      rw [h1]
      simp [hd, findingsOf, List.filter_cons]
    · have h1 : findingsOf (if it.Typ ≠ InformationalMessageType ∧
          it.Typ ≠ ErrorMessageType then ids.map (fun a => CrawlEvent.action a it) else []) = [] := by
        split_ifs
        · exact hact ids
        · rfl
      rw [h1]
      simp [hd, findingsOf, List.filter_cons]

theorem actionsOf_itemEvents (parent : Host) (ids : List Nat) (c : Nat)
    (items : List Resource) :
    actionsOf c (items.flatMap (itemEvents parent ids)) =
      (items.filter (fun it =>
          it.Typ ≠ InformationalMessageType ∧ it.Typ ≠ ErrorMessageType)).flatMap
        (fun it => List.replicate (ids.count c) it) := by
  induction items with
  | nil => rfl
  | cons it rest ih =>
    rw [List.flatMap_cons, actionsOf_append, ih]
    have hact : ∀ l : List Nat,
        actionsOf c (l.map (fun a => CrawlEvent.action a it)) = List.replicate (l.count c) it := by
      intro l
      induction l with
      | nil => rfl
      | cons a l ih2 =>
        by_cases hac : a = c
        · subst hac
          simp only [List.map_cons, List.count_cons_self, List.replicate_succ]
          rw [← ih2]
          simp [actionsOf, List.filterMap_cons]
        · have hca : ¬ (a == c) = true := by simpa using hac
          rw [List.map_cons, List.count_cons, if_neg hca, Nat.add_zero, ← ih2]
          simp [actionsOf, List.filterMap_cons, hac]
    have hfind : ∀ l : List CrawlEvent, (∀ ev ∈ l, ∃ f, ev = CrawlEvent.finding f) →
        actionsOf c l = [] := by
      intro l hl
      induction l with
      | nil => rfl
      | cons ev l ih2 =>
        obtain ⟨f, rfl⟩ := hl ev (by simp)
        have := ih2 (fun e he => hl e (by simp [he]))
        simpa [actionsOf, List.filterMap_cons] using this
    unfold itemEvents
    rw [actionsOf_append]
    have h2 : actionsOf c (if it.Typ = DirectoryType then
        [CrawlEvent.finding ⟨it, some parent⟩] else []) = [] := by
      apply hfind
      intro ev hev
      split_ifs at hev
      · exact ⟨_, List.mem_singleton.mp hev⟩
      · cases hev
    rw [h2, List.append_nil]
    by_cases hq : it.Typ ≠ InformationalMessageType ∧ it.Typ ≠ ErrorMessageType
    · rw [if_pos hq, hact ids]
      simp [List.filter_cons, hq]
    · rw [if_neg hq]
      have hq2 : ¬ (¬ it.Typ = InformationalMessageType ∧ ¬ it.Typ = ErrorMessageType) := hq
      simp [List.filter_cons, hq2, actionsOf]

theorem ResourceCrawler_of_open (o : ResourceOpener) (r : Resource) (ia : List ItemActionFunc)
    (rc : ReadCloser) (hdir : r.Typ = DirectoryType) (ho : o r = Except.ok rc) :
    ResourceCrawler o r ia =
      (CrawlEvent.opened r :: (scanLoop r.Host ia rc 0 rc.lines).1 ++ [CrawlEvent.closed],
        (scanLoop r.Host ia rc 0 rc.lines).2) := by
  unfold ResourceCrawler
  rw [if_neg (fun h => h hdir), ho]

theorem findingsOf_trace (r : Resource) (evs : List CrawlEvent) :
    findingsOf (CrawlEvent.opened r :: evs ++ [CrawlEvent.closed]) = findingsOf evs := by
  simp [findingsOf, List.filterMap_cons, List.filterMap_append]

theorem actionsOf_trace (c : Nat) (r : Resource) (evs : List CrawlEvent) :
    actionsOf c (CrawlEvent.opened r :: evs ++ [CrawlEvent.closed]) = actionsOf c evs := by
  simp [actionsOf, List.filterMap_cons, List.filterMap_append]

/-- C18: for a directory `r` and a listing read without error whose lines before the end
marker `.` (or before the end of the input) are all valid, `ResourceCrawler` with callbacks
that are functions returns no error after doing, for each of those lines in order and for
nothing else, this: it invokes the callbacks in their order if the item is neither
informational nor an error message, then sends the finding of the item with the parent
`r.Host` if the item is a directory. So the findings are those of the directory lines
before the end marker, and a callback is invoked once (for each time it is registered) for
every line there that is neither informational nor an error message. -/
theorem ResourceCrawler_on_valid_listing (o : ResourceOpener) (r : Resource) (ids : List Nat)
    (rc : ReadCloser) (hdir : r.Typ = DirectoryType) (ho : o r = Except.ok rc)
    (herr : ∀ n, rc.errAfter n = none) (hvalid : ∀ l ∈ linesBeforeEnd rc.lines, SixRules l) :
    ResourceCrawler o r (ids.map some) =
      (CrawlEvent.opened r ::
          (itemsOf (linesBeforeEnd rc.lines)).flatMap (itemEvents r.Host ids) ++
            [CrawlEvent.closed],
        CrawlOutcome.returned none) ∧
    (itemsOf (linesBeforeEnd rc.lines)).length = (linesBeforeEnd rc.lines).length ∧
    findingsOf (ResourceCrawler o r (ids.map some)).1 =
      ((itemsOf (linesBeforeEnd rc.lines)).filter (fun it => it.Typ = DirectoryType)).map
        (fun it => ⟨it, some r.Host⟩) ∧
    ∀ a, actionsOf a (ResourceCrawler o r (ids.map some)).1 =
      ((itemsOf (linesBeforeEnd rc.lines)).filter (fun it =>
          it.Typ ≠ InformationalMessageType ∧ it.Typ ≠ ErrorMessageType)).flatMap
        (fun it => List.replicate (ids.count a) it) := by
  have hgood : ∀ l ∈ linesBeforeEnd rc.lines, l ≠ lit "." ∧ SixRules l := by
    intro l hl
    refine ⟨?_, hvalid l hl⟩
    have := List.mem_takeWhile_imp hl
    simpa using this
  have hsplit : rc.lines =
      linesBeforeEnd rc.lines ++ rc.lines.dropWhile (fun l => l ≠ lit ".") :=
    (List.takeWhile_append_dropWhile _ _).symm
  have htail : ∀ n, scanLoop r.Host (ids.map some) rc n
      (rc.lines.dropWhile (fun l => l ≠ lit ".")) = ([], CrawlOutcome.returned none) := by
    intro n
    cases hd : rc.lines.dropWhile (fun l => l ≠ lit ".") with
    | nil =>
      rw [scanLoop_nil, herr]
      rfl
    | cons l rest =>
      have hl : l = lit "." := by
        have := List.head_dropWhile_not (fun l => decide (l ≠ lit ".")) rc.lines
          (by rw [hd]; simp)
        simp only [hd, List.head_cons] at this
        simpa using this
      rw [hl, scanLoop_end, herr]
      rfl
  have hloop : scanLoop r.Host (ids.map some) rc 0 rc.lines =
      ((itemsOf (linesBeforeEnd rc.lines)).flatMap (itemEvents r.Host ids),
        CrawlOutcome.returned none) := by
    conv_lhs => rw [hsplit]
    rw [scanLoop_valid r.Host ids rc _ 0 _ hgood, htail]
    simp
  have hres : ResourceCrawler o r (ids.map some) =
      (CrawlEvent.opened r ::
          (itemsOf (linesBeforeEnd rc.lines)).flatMap (itemEvents r.Host ids) ++
            [CrawlEvent.closed],
        CrawlOutcome.returned none) := by
    rw [ResourceCrawler_of_open o r _ rc hdir ho, hloop]
  refine ⟨hres, itemsOf_length_of_valid _ hvalid, ?_, ?_⟩
  · rw [hres]
    simp only []
    rw [findingsOf_trace, findingsOf_itemEvents]
  · intro a
    rw [hres]
    simp only []
    rw [actionsOf_trace, actionsOf_itemEvents]

/-- The listing of the tests (two informational lines, a directory, a file, a directory,
the end marker): two findings, and three invocations of each of two callbacks. -/
theorem ResourceCrawler_on_valid_listing_witness :
    mockDirectory.Typ = DirectoryType ∧
    (∀ l ∈ linesBeforeEnd mockListing.lines, SixRules l) ∧
    (ResourceCrawler mockResourceOpener mockDirectory ([0, 1].map some)).2 =
      CrawlOutcome.returned none ∧
    findingsOf (ResourceCrawler mockResourceOpener mockDirectory ([0, 1].map some)).1 =
      [⟨⟨⟨lit "localhost", lit "70"⟩, 49, []⟩, some ⟨lit "localhost", lit "70"⟩⟩,
       ⟨⟨⟨lit "example.com", lit "72"⟩, 49, lit "/directory"⟩,
         some ⟨lit "localhost", lit "70"⟩⟩] ∧
    (actionsOf 0 (ResourceCrawler mockResourceOpener mockDirectory ([0, 1].map some)).1).length
      = 3 ∧
    (actionsOf 1 (ResourceCrawler mockResourceOpener mockDirectory ([0, 1].map some)).1).length
      = 3 := by
  have h := ResourceCrawler_on_valid_listing mockResourceOpener mockDirectory [0, 1]
    mockListing rfl rfl (fun _ => rfl) (by decide)
  refine ⟨rfl, by decide, ?_, ?_, ?_, ?_⟩
  · exact congrArg Prod.snd h.1
  · rw [h.2.2.1]
    decide
  · rw [h.2.2.2 0]
    decide
  · rw [h.2.2.2 1]
    decide

/-- C19: for a directory `r` and a listing in which the lines `good` are valid and none of
them the end marker, and the next line `bad` is neither the end marker nor valid,
`ResourceCrawler` with callbacks that are functions returns the parse error of `bad` after
doing for the lines `good` what it does for valid lines, and nothing for `bad` or a later
line: the findings are those of the directory lines among `good`. The empty line is such
a line `bad`. -/
theorem ResourceCrawler_on_invalid_line (o : ResourceOpener) (r : Resource) (ids : List Nat)
    (rc : ReadCloser) (good : List Str) (bad : Str) (rest : List Str)
    (hdir : r.Typ = DirectoryType) (ho : o r = Except.ok rc)
    (hlines : rc.lines = good ++ bad :: rest)
    (hgood : ∀ l ∈ good, l ≠ lit "." ∧ SixRules l)
    (hbad : bad ≠ lit "." ∧ ¬ SixRules bad) :
    ResourceCrawler o r (ids.map some) =
      (CrawlEvent.opened r :: (itemsOf good).flatMap (itemEvents r.Host ids) ++
          [CrawlEvent.closed],
        CrawlOutcome.returned (some (CrawlError.parse ⟨bad⟩))) ∧
    findingsOf (ResourceCrawler o r (ids.map some)).1 =
      ((itemsOf good).filter (fun it => it.Typ = DirectoryType)).map
        (fun it => ⟨it, some r.Host⟩) ∧
    (∀ a, actionsOf a (ResourceCrawler o r (ids.map some)).1 =
      ((itemsOf good).filter (fun it =>
          it.Typ ≠ InformationalMessageType ∧ it.Typ ≠ ErrorMessageType)).flatMap
        (fun it => List.replicate (ids.count a) it)) ∧
    (([] : Str) ≠ lit "." ∧ ¬ SixRules []) := by
  have hloop : scanLoop r.Host (ids.map some) rc 0 rc.lines =
      ((itemsOf good).flatMap (itemEvents r.Host ids),
        CrawlOutcome.returned (some (CrawlError.parse ⟨bad⟩))) := by
    rw [hlines, scanLoop_valid r.Host ids rc good 0 _ hgood,
      scanLoop_invalid r.Host _ rc _ bad rest hbad.1 hbad.2]
    simp
  have hres : ResourceCrawler o r (ids.map some) =
      (CrawlEvent.opened r :: (itemsOf good).flatMap (itemEvents r.Host ids) ++
          [CrawlEvent.closed],
        CrawlOutcome.returned (some (CrawlError.parse ⟨bad⟩))) := by
    rw [ResourceCrawler_of_open o r _ rc hdir ho, hloop]
  refine ⟨hres, ?_, ?_, by decide, by decide⟩
  · rw [hres]
    simp only []
    rw [findingsOf_trace, findingsOf_itemEvents]
  · intro a
    rw [hres]
    simp only []
    rw [actionsOf_trace, actionsOf_itemEvents]

/-- A listing with a directory line, an empty line and a further directory line: the crawl
fails on the empty line, after the finding of the first line and before the third. -/
theorem ResourceCrawler_on_invalid_line_witness :
    (∀ l ∈ [lit "1Give me what you got\t\tlocalhost\t70"], l ≠ lit "." ∧ SixRules l) ∧
    (([] : Str) ≠ lit "." ∧ ¬ SixRules []) ∧
    ResourceCrawler
        (fun _ => Except.ok ⟨[lit "1Give me what you got\t\tlocalhost\t70", [],
          lit "1Another directory\t/directory\texample.com\t72", lit "."], fun _ => none⟩)
        mockDirectory ([0].map some) =
      ([CrawlEvent.opened mockDirectory,
        CrawlEvent.action 0 ⟨⟨lit "localhost", lit "70"⟩, 49, []⟩,
        CrawlEvent.finding ⟨⟨⟨lit "localhost", lit "70"⟩, 49, []⟩,
          some ⟨lit "localhost", lit "70"⟩⟩,
        CrawlEvent.closed],
        CrawlOutcome.returned (some (CrawlError.parse ⟨[]⟩))) := by
  have h := ResourceCrawler_on_invalid_line
    (fun _ => Except.ok ⟨[lit "1Give me what you got\t\tlocalhost\t70", [],
      lit "1Another directory\t/directory\texample.com\t72", lit "."], fun _ => none⟩)
    mockDirectory [0]
    ⟨[lit "1Give me what you got\t\tlocalhost\t70", [],
      lit "1Another directory\t/directory\texample.com\t72", lit "."], fun _ => none⟩
    [lit "1Give me what you got\t\tlocalhost\t70"] []
    [lit "1Another directory\t/directory\texample.com\t72", lit "."]
    rfl rfl rfl (by decide) (by decide)
  refine ⟨by decide, by decide, ?_⟩
  rw [h.1]
  decide

/-! ## The three collections along a sequence of calls -/

theorem finished_mono_call (caseTable : Str → Str) (c c1 : Coordinator) (x : Call)
    (out : Option Resource) (k : Str) (hcall : c.call caseTable x = some (c1, out))
    (hk : k ∈ c.finished) : k ∈ c1.finished := by
  cases x with
  | queueJob r =>
    simp only [Coordinator.call, Option.map_eq_some'] at hcall
    obtain ⟨⟨c4, e⟩, hq, heq⟩ := hcall
    simp only [Prod.mk.injEq] at heq
    obtain ⟨rfl, -⟩ := heq
    rcases QueueJob_cases caseTable c c4 r e hq with h | ⟨k1, -, -, -, -, h⟩
    · rw [h]
      exact hk
    · rw [h]
      exact hk
  | queuedJob pick =>
    simp only [Coordinator.call, Option.some.injEq] at hcall
    rcases QueuedJob_cases c pick with h | ⟨k1, r, -, h⟩
    · rw [h] at hcall
      simp only [Prod.mk.injEq] at hcall
      rw [← hcall.1]
      exact hk
    · rw [h] at hcall
      simp only [Prod.mk.injEq] at hcall
      rw [← hcall.1]
      exact hk
  | finishJob r =>
    simp only [Coordinator.call, Option.map_eq_some'] at hcall
    obtain ⟨c4, hf, heq⟩ := hcall
    simp only [Prod.mk.injEq] at heq
    obtain ⟨rfl, -⟩ := heq
    unfold Coordinator.FinishJob at hf
    cases hs : r.String caseTable with
    | none => simp [hs] at hf
    | some k1 =>
      rw [hs] at hf
      simp only [Option.some.injEq] at hf
      rw [← hf]
      simp only [AList.mem_insert]
      exact Or.inr hk

theorem finished_mono_run (caseTable : Str → Str) (calls : List Call) (k : Str) :
    ∀ (c c1 : Coordinator) (outs : List Resource),
      c.run caseTable calls = some (c1, outs) → k ∈ c.finished → k ∈ c1.finished := by
  induction calls with
  | nil =>
    intro c c1 outs hrun hk
    have h2 : some (c, ([] : List Resource)) = some (c1, outs) := hrun
    simp only [Option.some.injEq, Prod.mk.injEq] at h2
    rw [← h2.1]
    exact hk
  | cons x xs ih =>
    intro c c1 outs hrun hk
    rw [Coordinator.run_cons] at hrun
    cases hcall : c.call caseTable x with
    | none => simp [hcall] at hrun
    | some p =>
      obtain ⟨c2, out⟩ := p
      rw [hcall] at hrun
      simp only at hrun
      cases hrest : c2.run caseTable xs with
      | none => simp [hrest] at hrun
      | some q =>
        obtain ⟨c3, outs2⟩ := q
        rw [hrest] at hrun
        simp only [Option.some.injEq, Prod.mk.injEq] at hrun
        obtain ⟨rfl, -⟩ := hrun
        exact ih c2 c3 outs2 hrest (finished_mono_call caseTable c c2 x out k hcall hk)

theorem run_append_some (caseTable : Str → Str) (xs ys : List Call) :
    ∀ (c c2 : Coordinator) (outs : List Resource),
      c.run caseTable (xs ++ ys) = some (c2, outs) →
      ∃ c1 outs1 outs2, c.run caseTable xs = some (c1, outs1) ∧
        c1.run caseTable ys = some (c2, outs2) := by
  induction xs with
  | nil =>
    intro c c2 outs hrun
    exact ⟨c, [], outs, rfl, hrun⟩
  | cons x xs ih =>
    intro c c2 outs hrun
    rw [List.cons_append, Coordinator.run_cons] at hrun
    rw [Coordinator.run_cons]
    cases hcall : c.call caseTable x with
    | none => simp [hcall] at hrun
    | some p =>
      obtain ⟨c3, out⟩ := p
      rw [hcall] at hrun
      simp only at hrun ⊢
      cases hrest : c3.run caseTable (xs ++ ys) with
      | none => simp [hrest] at hrun
      | some q =>
        obtain ⟨c4, outs4⟩ := q
        rw [hrest] at hrun
        simp only [Option.some.injEq, Prod.mk.injEq] at hrun
        obtain ⟨rfl, -⟩ := hrun
        obtain ⟨c1, outs1, outs2, h1, h2⟩ := ih c3 c4 outs4 hrest
        rw [h1]
        exact ⟨c1, out.toList ++ outs1, outs2, rfl, h2⟩

/-- C22: for every sequence of `QueueJob` / `QueuedJob` / `FinishJob` calls on a new
coordinator in which each `FinishJob` gets a resource whose key is in `active` at that
moment, after every call (after the first `n` calls, whatever `n`) no key is in two of
`queued`, `active` and `finished`, and a key that is in `finished` then is in `finished`,
with the value `true`, after every later call (after the first `m` calls, `n ≤ m`). -/
theorem collections_disjoint_and_finished_stays (caseTable : Str → Str) (calls : List Call)
    (hfin : NewCoordinator.finishesActive caseTable calls = true) (n m : Nat) (hnm : n ≤ m)
    (c1 c2 : Coordinator) (outs1 outs2 : List Resource)
    (h1 : NewCoordinator.run caseTable (calls.take n) = some (c1, outs1))
    (h2 : NewCoordinator.run caseTable (calls.take m) = some (c2, outs2)) (k : Str) :
    (¬ (k ∈ c1.queued ∧ k ∈ c1.active) ∧ ¬ (k ∈ c1.queued ∧ k ∈ c1.finished) ∧
      ¬ (k ∈ c1.active ∧ k ∈ c1.finished)) ∧
    (k ∈ c1.finished → k ∈ c2.finished ∧ c2.finished.at k = true) := by
  have hs1 := Coordinator.sound_run caseTable (calls.take n) NewCoordinator c1 outs1
    Coordinator.sound_new (Coordinator.finishesActive_take caseTable calls NewCoordinator n hfin)
    h1
  have hs2 := Coordinator.sound_run caseTable (calls.take m) NewCoordinator c2 outs2
    Coordinator.sound_new (Coordinator.finishesActive_take caseTable calls NewCoordinator m hfin)
    h2
  refine ⟨hs1.disjoint k, ?_⟩
  intro hk
  have hsplit : calls.take m = calls.take n ++ (calls.take m).drop n := by
    have h3 : (calls.take m).take n = calls.take n := by
      rw [List.take_take, Nat.min_eq_left hnm]
    rw [← h3]
    exact (List.take_append_drop n (calls.take m)).symm
  rw [hsplit] at h2
  obtain ⟨c3, outs3, outs4, h5, h6⟩ :=
    run_append_some caseTable (calls.take n) ((calls.take m).drop n) NewCoordinator c2 outs2 h2
  rw [h1] at h5
  simp only [Option.some.injEq, Prod.mk.injEq] at h5
  obtain ⟨rfl, -⟩ := h5
  have hk2 := finished_mono_run caseTable _ k c1 c2 outs4 h6 hk
  exact ⟨hk2, hs2.finishedTrue k hk2⟩

/-- The test job is queued, handed out, finished and queued once more: after the third
call its key is in `finished` only, and it is still there after the fourth. -/
theorem collections_disjoint_and_finished_stays_witness :
    NewCoordinator.finishesActive noCaseTable
        [Call.queueJob testJob, Call.queuedJob 0, Call.finishJob testJob,
          Call.queueJob testJob] = true ∧
    ∃ c1 c2 outs1 outs2,
      NewCoordinator.run noCaseTable
        ([Call.queueJob testJob, Call.queuedJob 0, Call.finishJob testJob,
          Call.queueJob testJob].take 3) = some (c1, outs1) ∧
      NewCoordinator.run noCaseTable
        ([Call.queueJob testJob, Call.queuedJob 0, Call.finishJob testJob,
          Call.queueJob testJob].take 4) = some (c2, outs2) ∧
      testKey ∈ c1.finished ∧ testKey ∉ c1.queued ∧ testKey ∉ c1.active ∧
      testKey ∈ c2.finished ∧ c2.finished.at testKey = true :=
  ⟨by decide, _, _, _, _, rfl, rfl, by decide, by decide, by decide,
    (collections_disjoint_and_finished_stays noCaseTable
      [Call.queueJob testJob, Call.queuedJob 0, Call.finishJob testJob, Call.queueJob testJob]
      (by decide) 3 4 (by decide) _ _ _ _ rfl rfl testKey).2 (by decide)⟩

/-! ## The finding handler on a known job -/

theorem GraphFinding_of_reliable (caseTable : Str → Str) (g : Grapher) (f : CrawlFinding)
    (parent : Host) (hp : f.Parent = some parent) (hw : g.writeCloser.reliable = true) :
    (g.GraphFinding caseTable f).2 = none ∧
    (g.GraphFinding caseTable f).1.writeCloser.written =
      g.writeCloser.written ++
        (if g.alive.at (parent.String caseTable) = true then []
          else [nodeLine (parent.String caseTable)]) ++
        (if g.graphed.at (f.String caseTable) = true then []
          else [edgeLine (f.String caseTable)]) ∧
    (g.GraphFinding caseTable f).1.graphed.at (f.String caseTable) = true := by
  unfold Grapher.GraphFinding
  rw [hp]
  simp only
  by_cases ha : g.alive.at (parent.String caseTable) = true
  · simp only [ha, Bool.not_true, Bool.false_eq_true, if_false, if_true, List.append_nil]
    by_cases hg : g.graphed.at (f.String caseTable) = true
    · simp only [hg, Bool.not_true, Bool.false_eq_true, if_false, if_true, List.append_nil]
      exact ⟨trivial, trivial, trivial⟩
    · have hg2 : g.graphed.at (f.String caseTable) = false := by simpa using hg
      rw [WriteString_of_reliable _ _ hw]
      simp only [hg2, Bool.not_false, if_true, Bool.false_eq_true, if_false]
      exact ⟨trivial, trivial, GoMap.at_insert_self _ _ _⟩
  · have ha2 : g.alive.at (parent.String caseTable) = false := by simpa using ha
    rw [WriteString_of_reliable _ _ hw]
    simp only [ha2, Bool.not_false, if_true, Bool.false_eq_true, if_false]
    by_cases hg : g.graphed.at (f.String caseTable) = true
    · simp only [hg, Bool.not_true, Bool.false_eq_true, if_false, if_true, List.append_nil]
      exact ⟨trivial, trivial, trivial⟩
    · have hg2 : g.graphed.at (f.String caseTable) = false := by simpa using hg
      rw [WriteString_of_reliable _ _ (reliable_tail _ _ _ hw)]
      simp only [hg2, Bool.not_false, if_true, Bool.false_eq_true, if_false]
      exact ⟨trivial, trivial, GoMap.at_insert_self _ _ _⟩

/-- C23: in the finding handler, for every finding with a parent that is not blacklisted and
whose resource key is already queued, active or finished, `QueueJob` returns its error and
leaves the coordinator as it was, the error is swallowed and `GraphFinding` is still called;
the handler ends with the coordinator unchanged. When no write fails, the handler ends with
the grapher `GraphFinding` gives, which has written the node declaration of the parent if
the parent was not alive and then the edge line if the edge was not graphed: the edge line
is among the lines written by the call if and only if the edge was not graphed before, and
the edge is graphed afterwards. -/
theorem handleFinding_known_key (caseTable : Str → Str) (coord : Coordinator)
    (grapher : Grapher) (f : CrawlFinding) (parent : Host) (k : Str)
    (hb : blacklist.any (fun b => Contains f.Resource.Selector b) = false)
    (hp : f.Parent = some parent) (hk : f.Resource.String caseTable = some k)
    (hin : k ∈ coord.queued ∨ coord.active.at k = true ∨ coord.finished.at k = true) :
    (∃ e, coord.QueueJob caseTable f.Resource = some (coord, some e)) ∧
    (handleFinding caseTable coord grapher f).1 =
      [HandlerCall.queueJob f.Resource, HandlerCall.graphFinding f] ∧
    (∀ c g, (handleFinding caseTable coord grapher f).2 = some (c, g) →
      c = coord ∧ g = (grapher.GraphFinding caseTable f).1) ∧
    (grapher.writeCloser.reliable = true →
      ∃ g1, handleFinding caseTable coord grapher f =
          ([HandlerCall.queueJob f.Resource, HandlerCall.graphFinding f], some (coord, g1)) ∧
        g1.writeCloser.written =
          grapher.writeCloser.written ++
            (if grapher.alive.at (parent.String caseTable) = true then []
              else [nodeLine (parent.String caseTable)]) ++
            (if grapher.graphed.at (f.String caseTable) = true then []
              else [edgeLine (f.String caseTable)]) ∧
        (edgeLine (f.String caseTable) ∈
            g1.writeCloser.written.drop grapher.writeCloser.written.length ↔
          grapher.graphed.at (f.String caseTable) = false) ∧
        g1.graphed.at (f.String caseTable) = true) := by
  obtain ⟨e, he⟩ := QueueJob_error_of_known caseTable coord f.Resource k hk hin
  have hcalls : (handleFinding caseTable coord grapher f).1 =
      [HandlerCall.queueJob f.Resource, HandlerCall.graphFinding f] := by
    unfold handleFinding
    rw [if_neg (by rw [hb]; exact Bool.false_ne_true), he]
    simp only
    cases hg : grapher.GraphFinding caseTable f with
    | mk g1 err =>
      cases err with
      | none => rfl
      | some _ => rfl
  have hstate : ∀ c g, (handleFinding caseTable coord grapher f).2 = some (c, g) →
      c = coord ∧ g = (grapher.GraphFinding caseTable f).1 := by
    intro c g h
    unfold handleFinding at h
    rw [if_neg (by rw [hb]; exact Bool.false_ne_true), he] at h
    simp only at h
    cases hg : grapher.GraphFinding caseTable f with
    | mk g1 err =>
      rw [hg] at h
      cases err with
      | none =>
        simp only [Option.some.injEq, Prod.mk.injEq] at h
        exact ⟨h.1.symm, h.2.symm⟩
      | some _ => simp at h
  refine ⟨⟨e, he⟩, hcalls, hstate, ?_⟩
  intro hw
  obtain ⟨h1, h2, h3⟩ := GraphFinding_of_reliable caseTable grapher f parent hp hw
  refine ⟨(grapher.GraphFinding caseTable f).1, ?_, h2, ?_, h3⟩
  · unfold handleFinding
    rw [if_neg (by rw [hb]; exact Bool.false_ne_true), he]
    simp only
    cases hg : grapher.GraphFinding caseTable f with
    | mk g1 err =>
      rw [hg] at h1
      simp only at h1
      subst h1
      rfl
  · rw [h2, List.append_assoc, List.drop_left]
    have hne : nodeLine (parent.String caseTable) ≠ edgeLine (f.String caseTable) :=
      nodeLine_ne_edgeLine caseTable _ f (by rw [hp]; rfl)
    by_cases hg : grapher.graphed.at (f.String caseTable) = true
    · rw [if_pos hg, List.append_nil, hg]
      by_cases ha : grapher.alive.at (parent.String caseTable) = true
      · rw [if_pos ha]
        simp
      · rw [if_neg ha]
        simp only [List.mem_singleton, Bool.true_eq_false, iff_false]
        exact fun h => hne h.symm
    · have hg2 : grapher.graphed.at (f.String caseTable) = false := by simpa using hg
      rw [if_neg hg]
      simp [hg2]

/-- The test job is queued already when a finding of it with the parent `localhost:70`
arrives: the coordinator stays as it is, and the new grapher writes the node declaration
and the edge line. -/
theorem handleFinding_known_key_witness :
    blacklist.any (fun b => Contains testJob.Selector b) = false ∧
    testJob.String noCaseTable = some testKey ∧ testKey ∈ testQueued.queued ∧
    ∃ g1, handleFinding noCaseTable testQueued ⟨mockDotfile, ∅, ∅⟩
          ⟨testJob, some ⟨lit "localhost", lit "70"⟩⟩ =
        ([HandlerCall.queueJob testJob,
            HandlerCall.graphFinding ⟨testJob, some ⟨lit "localhost", lit "70"⟩⟩],
          some (testQueued, g1)) ∧
      g1.writeCloser.written =
        [lit "\t\"localhost:70\"[alive=true]\n",
          lit "\t\"localhost:70\" -> \"example.com:70\"\n"] := by
  obtain ⟨g1, h1, h2, -, -⟩ :=
    (handleFinding_known_key noCaseTable testQueued ⟨mockDotfile, ∅, ∅⟩
      ⟨testJob, some ⟨lit "localhost", lit "70"⟩⟩ ⟨lit "localhost", lit "70"⟩ testKey
      (by decide) rfl (by decide) (Or.inl (by decide))).2.2.2 (by decide)
  refine ⟨by decide, by decide, by decide, g1, h1, ?_⟩
  rw [h2]
  decide

/-! ## The callbacks of `main` -/

/-- C24 fails on the code: the callback list `main` passes to `ResourceCrawler` holds a nil
function, so the callback loop panics on every item it is run for, and the crawl of the
listing of the tests, with the callbacks of `main`, panics at the first item that is neither
informational nor an error message, before any finding is sent. -/
theorem main_passes_a_nil_callback :
    none ∈ mainItemActions ∧
    (∀ item, (runActions item mainItemActions).2 = true) ∧
    ResourceCrawler mockResourceOpener mockDirectory mainItemActions =
      ([CrawlEvent.opened mockDirectory, CrawlEvent.closed], CrawlOutcome.panicked) ∧
    ResourceCrawler pipelineOpener pipelineRoot mainItemActions =
      ([CrawlEvent.opened pipelineRoot, CrawlEvent.closed], CrawlOutcome.panicked) :=
  ⟨by decide, fun _ => rfl, by decide, by decide⟩

/-! ## The end-to-end scenario with the callbacks of `main` -/

theorem stalled_endOfIteration (d : Dispatcher) (h : d.Stalled) (hr : d.phase = Phase.running) :
    d.endOfIteration.Stalled := by
  unfold Dispatcher.endOfIteration
  by_cases hx : d.coord.JobsExhausted = true
  · rw [if_pos hx]
    have hw := h.opened (by rw [hr]; decide)
    have hclose : d.grapher.Close =
        ({ d.grapher with
            writeCloser := ⟨[lit "strict digraph \x7b\n", lit "\x7d\n"], [], true⟩ }, none) := by
      unfold Grapher.Close
      rw [hw]
      rfl
    rw [hclose]
    exact ⟨h.queued, h.bootstrap, h.pending, fun hne => absurd rfl hne, fun _ => rfl⟩
  · rw [if_neg hx]
    exact h

theorem stalled_crashed (d : Dispatcher) (h : d.Stalled) (hr : d.phase = Phase.running) :
    Dispatcher.Stalled { d with phase := Phase.crashed } :=
  ⟨h.queued, h.bootstrap, h.pending, fun _ => h.opened (by rw [hr]; decide),
    fun hc => by cases hc⟩

theorem stalled_onFinding (caseTable : Str → Str) (d : Dispatcher) (h : d.Stalled)
    (hr : d.phase = Phase.running) :
    (d.onFinding caseTable ⟨pipelineRoot, none⟩).Stalled := by
  unfold Dispatcher.onFinding handleFinding
  rw [if_neg (by decide)]
  cases hq : d.coord.QueueJob caseTable pipelineRoot with
  | none => exact stalled_crashed d h hr
  | some p =>
    obtain ⟨c1, e⟩ := p
    have hg : d.grapher.GraphFinding caseTable ⟨pipelineRoot, none⟩ = (d.grapher, none) := rfl
    simp only [hg]
    refine stalled_endOfIteration _ ?_ hr
    refine ⟨?_, h.bootstrap, h.pending, h.opened, h.closed⟩
    intro k r hl
    rcases QueueJob_cases caseTable d.coord c1 pipelineRoot e hq with h1 | ⟨k1, -, -, -, -, h1⟩
    · rw [h1] at hl
      exact h.queued k r hl
    · rw [h1] at hl
      by_cases hk : k = k1
      · subst hk
        rw [AList.lookup_insert] at hl
        exact (Option.some.inj hl).symm
      · rw [AList.lookup_insert_ne hk] at hl
        exact h.queued k r hl

theorem startWorker_pending (j : Option Resource) (i : Nat)
    (hj : ∀ r, j = some r → r = pipelineRoot) :
    (startWorker pipelineOpener mainItemActions i j).pending = [] := by
  cases j with
  | none => rfl
  | some r =>
    rw [hj r rfl]
    show findingsOf (ResourceCrawler pipelineOpener pipelineRoot mainItemActions).1 = []
    decide

theorem stalled_step (caseTable : Str → Str) (d d1 : Dispatcher) (ev : Event) (h : d.Stalled)
    (hs : d.step caseTable pipelineOpener mainItemActions ev = some d1) : d1.Stalled := by
  unfold Dispatcher.step at hs
  by_cases hr : d.phase = Phase.running
  · rw [if_neg (by rw [hr]; decide)] at hs
    cases ev with
    | idle pick =>
      simp only at hs
      cases hi : d.idleCrawlers with
      | nil => simp [hi] at hs
      | cons i rest =>
        rw [hi] at hs
        simp only [Option.some.injEq] at hs
        rw [← hs]
        refine stalled_endOfIteration _ ?_ hr
        rcases QueuedJob_cases d.coord pick with hq | ⟨k, r, hl, hq⟩
        · rw [hq]
          refine ⟨h.queued, h.bootstrap, ?_, h.opened, h.closed⟩
          intro w hw
          rcases List.mem_append.mp hw with hw1 | hw1
          · exact h.pending w hw1
          · rw [List.mem_singleton.mp hw1]
            rfl
        · rw [hq]
          refine ⟨?_, h.bootstrap, ?_, h.opened, h.closed⟩
          · intro k2 r2 hl2
            by_cases hk : k2 = k
            · subst hk
              simp [AList.lookup_erase] at hl2
            · rw [AList.lookup_erase_ne hk] at hl2
              exact h.queued k2 r2 hl2
          · intro w hw
            rcases List.mem_append.mp hw with hw1 | hw1
            · exact h.pending w hw1
            · rw [List.mem_singleton.mp hw1]
              exact startWorker_pending _ _ (fun r2 hr2 => by
                rw [← Option.some.inj hr2]
                exact h.queued k r hl)
    | bootstrapFinding =>
      simp only at hs
      cases hb : d.bootstrap with
      | none => simp [hb] at hs
      | some f =>
        rw [hb] at hs
        simp only [Option.some.injEq] at hs
        rw [← hs, h.bootstrap f hb]
        exact stalled_onFinding caseTable _
          ⟨h.queued, fun f hf => (by cases hf), h.pending, h.opened, h.closed⟩ hr
    | finding n =>
      simp only at hs
      cases hw : d.workers[n]? with
      | none => simp [hw] at hs
      | some w =>
        rw [hw] at hs
        simp only at hs
        have hp := h.pending w (List.getElem?_mem hw)
        rw [hp] at hs
        simp at hs
    | done n =>
      simp only at hs
      cases hw : d.workers[n]? with
      | none => simp [hw] at hs
      | some w =>
        rw [hw] at hs
        simp only at hs
        have hp := h.pending w (List.getElem?_mem hw)
        rw [hp] at hs
        simp only at hs
        cases hf : finishIfJob caseTable d.coord w.job with
        | none =>
          rw [hf] at hs
          simp only [Option.some.injEq] at hs
          rw [← hs]
          exact stalled_crashed d h hr
        | some c =>
          rw [hf] at hs
          simp only [Option.some.injEq] at hs
          rw [← hs]
          refine stalled_endOfIteration _ ?_ hr
          have hq : c.queued = d.coord.queued := by
            unfold finishIfJob at hf
            cases hj : w.job with
            | none =>
              rw [hj] at hf
              simp only [Option.some.injEq] at hf
              rw [← hf]
            | some r =>
              rw [hj] at hf
              simp only at hf
              unfold Coordinator.FinishJob at hf
              cases hk : r.String caseTable with
              | none => simp [hk] at hf
              | some k =>
                rw [hk] at hf
                simp only [Option.some.injEq] at hf
                rw [← hf]
          refine ⟨?_, h.bootstrap, ?_, h.opened, h.closed⟩
          · intro k r hl
            simp only at hl
            rw [hq] at hl
            exact h.queued k r hl
          · intro w2 hw2
            exact h.pending w2 (List.mem_of_mem_eraseIdx hw2)
    | tick =>
      simp only [Option.some.injEq] at hs
      rw [← hs]
      exact stalled_endOfIteration d h hr
    | crash =>
      simp only at hs
      split at hs
      · simp only [Option.some.injEq] at hs
        rw [← hs]
        exact stalled_crashed d h hr
      · cases hs
  · rw [if_pos hr] at hs
    cases hs

theorem stalled_run (caseTable : Str → Str) (evs : List Event) :
    ∀ d d1 : Dispatcher, d.Stalled →
      d.run caseTable pipelineOpener mainItemActions evs = some d1 → d1.Stalled := by
  induction evs with
  | nil =>
    intro d d1 h hrun
    have h2 : some d = some d1 := hrun
    rw [← Option.some.inj h2]
    exact h
  | cons ev evs ih =>
    intro d d1 h hrun
    have h2 : (match d.step caseTable pipelineOpener mainItemActions ev with
      | none => none
      | some d2 => Dispatcher.run caseTable pipelineOpener mainItemActions d2 evs) = some d1 :=
      hrun
    cases hs : d.step caseTable pipelineOpener mainItemActions ev with
    | none => simp [hs] at h2
    | some d2 =>
      rw [hs] at h2
      exact ih d2 d1 (stalled_step caseTable d d2 ev h hs) h2

theorem stalled_start (crawlers : Nat) (d : Dispatcher)
    (h : Dispatcher.start mockDotfile crawlers (lit "localhost") (lit "70") = some d) :
    d.Stalled := by
  have h2 : some (⟨NewCoordinator, ⟨⟨[lit "strict digraph \x7b\n"], [], false⟩, ∅, ∅⟩,
      (List.range crawlers).map (fun i => i + 1), some ⟨pipelineRoot, none⟩, [], false,
      Phase.running⟩ : Dispatcher) = some d := h
  rw [← Option.some.inj h2]
  refine ⟨?_, ?_, ?_, fun _ => rfl, fun hc => by cases hc⟩
  · intro k r hl
    simp [NewCoordinator] at hl
  · intro f hf
    exact (Option.some.inj hf).symm
  · intro w hw
    cases hw

theorem edgeLine_ne_header (s : Str) :
    edgeLine s ≠ lit "strict digraph \x7b\n" ∧ edgeLine s ≠ lit "\x7d\n" := by
  constructor
  · intro h
    have h2 := congrArg List.head? h
    simp [edgeLine, lit] at h2
  · intro h
    have h2 := congrArg List.head? h
    simp [edgeLine, lit] at h2

/-- C21 fails on the code. In the end-to-end scenario (`localhost:70` lists a directory on
`example.com:72` and a file, `example.com:72` lists a directory on `localhost:70`), with
any number of crawlers and the callbacks `main` passes to `ResourceCrawler`, no run of the
dispatcher from the bootstrap finding writes an edge line: in every state a run reaches the
dot file holds the opening line alone, or the opening and the closing line once `main` has
left the loop. -/
theorem nil_callback_stalls_the_pipeline (caseTable : Str → Str) (crawlers : Nat)
    (evs : List Event) (d0 d : Dispatcher)
    (hstart : Dispatcher.start mockDotfile crawlers (lit "localhost") (lit "70") = some d0)
    (hrun : d0.run caseTable pipelineOpener mainItemActions evs = some d) :
    (∀ s, edgeLine s ∉ d.grapher.writeCloser.written) ∧
    (d.phase ≠ Phase.exited → d.grapher.writeCloser.text = lit "strict digraph \x7b\n") ∧
    (d.phase = Phase.exited →
      d.grapher.writeCloser.text = lit "strict digraph \x7b\n\x7d\n") := by
  have h := stalled_run caseTable evs d0 d (stalled_start crawlers d0 hstart) hrun
  refine ⟨?_, ?_, ?_⟩
  · intro s hs
    by_cases hx : d.phase = Phase.exited
    · rw [h.closed hx] at hs
      simp only [List.mem_cons, List.mem_singleton, List.mem_nil_iff, or_false] at hs
      rcases hs with hs | hs
      · exact (edgeLine_ne_header s).1 hs
      · exact (edgeLine_ne_header s).2 hs
    · rw [h.opened hx] at hs
      simp only [List.mem_singleton] at hs
      exact (edgeLine_ne_header s).1 hs
  · intro hx
    rw [h.opened hx]
    rfl
  · intro hx
    rw [h.closed hx]
    rfl

/-- With one crawler: the bootstrap finding is queued, the crawl of it panics before it
sends a finding, `main` finishes the job and leaves the loop with all jobs exhausted and a
graph without an edge. -/
theorem nil_callback_stalls_the_pipeline_witness :
    ∃ d0 d, Dispatcher.start mockDotfile 1 (lit "localhost") (lit "70") = some d0 ∧
      d0.run noCaseTable pipelineOpener mainItemActions
        [Event.bootstrapFinding, Event.idle 0, Event.done 0] = some d ∧
      d.phase = Phase.exited ∧ d.coord.JobsExhausted = true ∧
      d.grapher.writeCloser.text = lit "strict digraph \x7b\n\x7d\n" :=
  ⟨_, _, rfl, rfl, rfl, rfl,
    (nil_callback_stalls_the_pipeline noCaseTable 1
      [Event.bootstrapFinding, Event.idle 0, Event.done 0] _ _ rfl rfl).2.2 rfl⟩

/-- In the same scenario the panic of the crawl can also end the process before `main`
handles the completion: the bootstrap job stays active and the dot file is left with the
opening line. -/
theorem pipeline_run_can_crash :
    ∃ d0 d, Dispatcher.start mockDotfile 1 (lit "localhost") (lit "70") = some d0 ∧
      d0.run noCaseTable pipelineOpener mainItemActions
        [Event.bootstrapFinding, Event.idle 0, Event.crash] = some d ∧
      d.phase = Phase.crashed ∧ d.coord.JobsExhausted = false ∧
      d.grapher.writeCloser.text = lit "strict digraph \x7b\n" :=
  ⟨_, _, rfl, rfl, rfl, rfl, rfl⟩

/-- The same scenario with an empty callback list, as in the calls of the tests: with one
crawler the dispatcher crawls both hosts, leaves the loop with all jobs exhausted, and the
dot file holds the two edges, each once. -/
theorem pipeline_without_callbacks_has_two_edges :
    ∃ d0 d, Dispatcher.start mockDotfile 1 (lit "localhost") (lit "70") = some d0 ∧
      d0.run noCaseTable pipelineOpener []
        [Event.bootstrapFinding, Event.idle 0, Event.finding 0, Event.done 0, Event.idle 0,
          Event.finding 0, Event.done 0] = some d ∧
      d.phase = Phase.exited ∧ d.coord.JobsExhausted = true ∧
      d.grapher.writeCloser.text =
        lit ("strict digraph \x7b\n" ++
          "\t\"localhost:70\"[alive=true]\n" ++
          "\t\"localhost:70\" -> \"example.com:72\"\n" ++
          "\t\"example.com:72\"[alive=true]\n" ++
          "\t\"example.com:72\" -> \"localhost:70\"\n" ++
          "\x7d\n") :=
  ⟨_, _, rfl, rfl, rfl, rfl, rfl⟩

end Grawler
